import Mathlib

/-!
Verification development for the whitespace-format engine.

The definitions below are a shallow embedding of the Rust sources:
`src/core.rs` (the transformation engine `modify_content`, the helpers
`is_file_whitespace` and `find_most_common_new_line_marker`, and the
orchestrator `process_file`) and `src/writer.rs` (the `Writer` trait with
its byte-buffer and counting realizations).  Bytes are modelled as `Nat`,
byte buffers as `List Nat`, and the generic `Writer` trait as a record of
operations over an abstract state type.
-/

namespace WhitespaceFormat

/-- ASCII codes of the characters the engine cares about (from `core.rs`). -/
def CARRIAGE_RETURN : Nat := 13

/-- ASCII code of the line feed character. -/
def LINE_FEED : Nat := 10

/-- ASCII code of the space character. -/
def SPACE : Nat := 32

/-- ASCII code of the tab character. -/
def TAB : Nat := 9

/-- ASCII code of the vertical tab character. -/
def VERTICAL_TAB : Nat := 11

/-- ASCII code of the form feed character. -/
def FORM_FEED : Nat := 12

/-- Type of new line marker (Linux, MacOS, Windows), from `core.rs`. -/
inductive NewLineMarker : Type where
  | Linux : NewLineMarker
  | MacOs : NewLineMarker
  | Windows : NewLineMarker
  deriving DecidableEq, Repr

/-- Byte representation of a new line marker (`NewLineMarker::to_bytes`). -/
def NewLineMarker.to_bytes : NewLineMarker → List Nat
  | NewLineMarker.Linux => [LINE_FEED]
  | NewLineMarker.MacOs => [CARRIAGE_RETURN]
  | NewLineMarker.Windows => [CARRIAGE_RETURN, LINE_FEED]

/-- Output new line marker mode (`cli.rs::OutputNewLineMarkerMode`). -/
inductive OutputNewLineMarkerMode : Type where
  | Auto : OutputNewLineMarkerMode
  | Linux : OutputNewLineMarkerMode
  | MacOs : OutputNewLineMarkerMode
  | Windows : OutputNewLineMarkerMode
  deriving DecidableEq, Repr

/-- Mode for dealing with trivial files (`cli.rs::TrivialFileReplacementMode`). -/
inductive TrivialFileReplacementMode : Type where
  | Ignore : TrivialFileReplacementMode
  | Empty : TrivialFileReplacementMode
  | OneLine : TrivialFileReplacementMode
  deriving DecidableEq, Repr

/-- Mode for dealing with vertical tab and form feed characters
(`cli.rs::NonStandardWhitespaceReplacementMode`). -/
inductive NonStandardWhitespaceReplacementMode : Type where
  | Ignore : NonStandardWhitespaceReplacementMode
  | ReplaceWithSpace : NonStandardWhitespaceReplacementMode
  | Remove : NonStandardWhitespaceReplacementMode
  deriving DecidableEq, Repr

/-- Options for formatting a single file (`core.rs::Options`). -/
structure Options : Type where
  add_new_line_marker_at_end_of_file : Bool
  remove_new_line_marker_from_end_of_file : Bool
  normalize_new_line_markers : Bool
  remove_trailing_whitespace : Bool
  remove_trailing_empty_lines : Bool
  new_line_marker : OutputNewLineMarkerMode
  normalize_empty_files : TrivialFileReplacementMode
  normalize_whitespace_only_files : TrivialFileReplacementMode
  replace_tabs_with_spaces : Int
  normalize_non_standard_whitespace : NonStandardWhitespaceReplacementMode
  deriving DecidableEq, Repr

/-- Type of formatting change made in a file, with the constructors that
`core.rs::modify_content` produces. -/
inductive ChangeType : Type where
  | NewLineMarkerAddedToEndOfFile : ChangeType
  | NewLineMarkerRemovedFromEndOfFile : ChangeType
  | ReplacedNewLineMarker : NewLineMarker → NewLineMarker → ChangeType
  | RemovedTrailingWhitespace : ChangeType
  | RemovedEmptyLines : ChangeType
  | ReplacedEmptyFileWithOneLine : ChangeType
  | ReplacedWhiteSpaceOnlyFileWithEmptyFile : ChangeType
  | ReplacedWhiteSpaceOnlyFileWithOneLine : ChangeType
  | ReplacedTabWithSpaces : ChangeType
  | RemovedTab : ChangeType
  | ReplacedNonstandardWhitespaceBySpace : Nat → ChangeType
  | RemovedNonstandardWhitespace : Nat → ChangeType
  deriving DecidableEq, Repr

/-- A formatting change, identified by its (1-based) line number
(`change.rs::Change`). -/
structure Change : Type where
  line_number : Nat
  change_type : ChangeType
  deriving DecidableEq, Repr

/-- The `Writer` trait of `writer.rs`, as a record of operations over an
abstract buffer-state type. -/
structure WriterImpl (σ : Type) : Type where
  write : σ → Nat → σ
  write_bytes : σ → List Nat → σ
  rewind : σ → Nat → σ
  position : σ → Nat

/-- The `Writer` realization for a byte vector (`impl Writer for Vec<u8>`):
write appends, rewind truncates, position is the length. -/
def vecWriter : WriterImpl (List Nat) where
  write := fun s b => s ++ [b]
  write_bytes := fun s bs => s ++ bs
  rewind := fun s p => s.take p
  position := fun s => s.length

/-- State of the counting writer (`writer.rs::CountingWriter`). -/
structure CountingWriter : Type where
  position : Nat
  maximum_position : Nat
  deriving DecidableEq, Repr

/-- The `Writer` realization that only counts bytes
(`impl Writer for CountingWriter`). -/
def countingWriter : WriterImpl CountingWriter where
  write := fun s _ => { position := s.position + 1,
                        maximum_position := max s.maximum_position (s.position + 1) }
  write_bytes := fun s bs => { position := s.position + bs.length,
                               maximum_position := max s.maximum_position (s.position + bs.length) }
  rewind := fun s p => { position := p,
                         maximum_position := max s.maximum_position p }
  position := fun s => s.position

/-- Determines if a file consists of only whitespace
(`core.rs::is_file_whitespace`). -/
def is_file_whitespace : List Nat → Bool
  | [] => true
  | c :: rest =>
    if c = CARRIAGE_RETURN ∨ c = LINE_FEED ∨ c = SPACE ∨ c = TAB ∨
        c = VERTICAL_TAB ∨ c = FORM_FEED then
      is_file_whitespace rest
    else
      false

/-- The counting loop of `core.rs::find_most_common_new_line_marker`:
returns the triple (linux_count, macos_count, windows_count).  A carriage
return immediately followed by a line feed counts only as a Windows marker
and consumes both bytes. -/
def countLoop : List Nat → Nat → Nat → Nat → Nat × Nat × Nat
  | [], linux_count, macos_count, windows_count =>
      (linux_count, macos_count, windows_count)
  | [c], linux_count, macos_count, windows_count =>
    if c = CARRIAGE_RETURN then
      (linux_count, macos_count + 1, windows_count)
    else if c = LINE_FEED then
      (linux_count + 1, macos_count, windows_count)
    else
      (linux_count, macos_count, windows_count)
  | c :: c2 :: rest, linux_count, macos_count, windows_count =>
    if c = CARRIAGE_RETURN then
      if c2 = LINE_FEED then
        countLoop rest linux_count macos_count (windows_count + 1)
      else
        countLoop (c2 :: rest) linux_count (macos_count + 1) windows_count
    else if c = LINE_FEED then
      countLoop (c2 :: rest) (linux_count + 1) macos_count windows_count
    else
      countLoop (c2 :: rest) linux_count macos_count windows_count

/-- Computes the most common new line marker in a file
(`core.rs::find_most_common_new_line_marker`).  Ties prefer Linux to
Windows to MacOS; a file without markers resolves to Linux. -/
def find_most_common_new_line_marker (input : List Nat) : NewLineMarker :=
  let counts := countLoop input 0 0 0
  if counts.2.1 > counts.2.2 ∧ counts.2.1 > counts.1 then
    NewLineMarker.MacOs
  else if counts.2.2 > counts.1 then
    NewLineMarker.Windows
  else
    NewLineMarker.Linux

/-- The local mutable state of the scanning loop in
`core.rs::modify_content`, together with the writer state and the list of
changes accumulated so far. -/
structure ScanState (σ : Type) : Type where
  writer : σ
  changes : List Change
  line_number : Nat
  last_end_of_line_including_eol_marker : Nat
  last_non_whitespace : Nat
  last_end_of_non_empty_line_excluding_eol_marker : Nat
  last_end_of_non_empty_line_including_eol_marker : Nat
  last_non_empty_line_number : Nat

/-- Writes `n` space characters one by one (the `for` loop in the
positive-tab-policy branch of `modify_content`). -/
def writeSpaces (W : WriterImpl σ) (w : σ) : Nat → σ
  | 0 => w
  | n + 1 => writeSpaces W (W.write w SPACE) n

/-- Processing of one decoded new line marker in the scanning loop of
`modify_content` (the `CARRIAGE_RETURN || LINE_FEED` branch): conditional
removal of trailing whitespace, conditional marker normalization, and the
updates of the line checkpoints. -/
def markerStep (W : WriterImpl σ) (opts : Options) (target : NewLineMarker)
    (m : NewLineMarker) (s : ScanState σ) : ScanState σ :=
  -- Remove trailing whitespace.
  let s1 :=
    if opts.remove_trailing_whitespace ∧
        max s.last_non_whitespace s.last_end_of_line_including_eol_marker <
          W.position s.writer then
      { s with
        changes := s.changes ++
          [⟨s.line_number, ChangeType.RemovedTrailingWhitespace⟩],
        writer := W.rewind s.writer
          (max s.last_non_whitespace s.last_end_of_line_including_eol_marker) }
    else s
  -- Determine if the last line is empty.
  let is_empty_line : Bool :=
    s1.last_end_of_line_including_eol_marker = W.position s1.writer
  let last_end_of_line_excluding_eol_marker : Nat := W.position s1.writer
  -- Add new line marker.
  let s2 :=
    if opts.normalize_new_line_markers ∧ target ≠ m then
      { s1 with
        changes := s1.changes ++
          [⟨s1.line_number, ChangeType.ReplacedNewLineMarker m target⟩],
        writer := W.write_bytes s1.writer target.to_bytes }
    else
      { s1 with writer := W.write_bytes s1.writer m.to_bytes }
  let s3 := { s2 with
    last_end_of_line_including_eol_marker := W.position s2.writer }
  -- Update position of last non-empty line.
  let s4 :=
    if is_empty_line then s3
    else
      { s3 with
        last_end_of_non_empty_line_excluding_eol_marker :=
          last_end_of_line_excluding_eol_marker,
        last_end_of_non_empty_line_including_eol_marker :=
          s3.last_end_of_line_including_eol_marker,
        last_non_empty_line_number := s3.line_number }
  { s4 with line_number := s4.line_number + 1 }

/-- Processing of a tab character in the scanning loop of `modify_content`:
copy verbatim for a negative policy, replace with spaces for a positive
policy, remove for a zero policy. -/
def tabStep (W : WriterImpl σ) (opts : Options) (s : ScanState σ) : ScanState σ :=
  if opts.replace_tabs_with_spaces < 0 then
    { s with writer := W.write s.writer TAB }
  else if opts.replace_tabs_with_spaces > 0 then
    { s with
      changes := s.changes ++ [⟨s.line_number, ChangeType.ReplacedTabWithSpaces⟩],
      writer := writeSpaces W s.writer opts.replace_tabs_with_spaces.toNat }
  else
    { s with changes := s.changes ++ [⟨s.line_number, ChangeType.RemovedTab⟩] }

/-- Processing of a vertical tab or form feed character in the scanning
loop of `modify_content`. -/
def nonStandardStep (W : WriterImpl σ) (opts : Options) (c : Nat)
    (s : ScanState σ) : ScanState σ :=
  match opts.normalize_non_standard_whitespace with
  | NonStandardWhitespaceReplacementMode.Ignore =>
      { s with writer := W.write s.writer c }
  | NonStandardWhitespaceReplacementMode.ReplaceWithSpace =>
      { s with
        writer := W.write s.writer SPACE,
        changes := s.changes ++
          [⟨s.line_number, ChangeType.ReplacedNonstandardWhitespaceBySpace c⟩] }
  | NonStandardWhitespaceReplacementMode.Remove =>
      { s with
        changes := s.changes ++
          [⟨s.line_number, ChangeType.RemovedNonstandardWhitespace c⟩] }

/-- Processing of any other byte (a non-whitespace byte) in the scanning
loop of `modify_content`: copy verbatim and update `last_non_whitespace`. -/
def otherStep (W : WriterImpl σ) (c : Nat) (s : ScanState σ) : ScanState σ :=
  let w := W.write s.writer c
  { s with writer := w, last_non_whitespace := W.position w }

/-- The `while` loop over input bytes in `core.rs::modify_content`. -/
def scanLoop (W : WriterImpl σ) (opts : Options) (target : NewLineMarker) :
    List Nat → ScanState σ → ScanState σ
  | [], s => s
  | [c], s =>
    if c = CARRIAGE_RETURN ∨ c = LINE_FEED then
      if c = LINE_FEED then
        markerStep W opts target NewLineMarker.Linux s
      else
        markerStep W opts target NewLineMarker.MacOs s
    else if c = SPACE then
      { s with writer := W.write s.writer c }
    else if c = TAB then
      tabStep W opts s
    else if c = VERTICAL_TAB ∨ c = FORM_FEED then
      nonStandardStep W opts c s
    else
      otherStep W c s
  | c :: c2 :: rest, s =>
    if c = CARRIAGE_RETURN ∨ c = LINE_FEED then
      if c = LINE_FEED then
        scanLoop W opts target (c2 :: rest)
          (markerStep W opts target NewLineMarker.Linux s)
      else if c2 = LINE_FEED then
        scanLoop W opts target rest
          (markerStep W opts target NewLineMarker.Windows s)
      else
        scanLoop W opts target (c2 :: rest)
          (markerStep W opts target NewLineMarker.MacOs s)
    else if c = SPACE then
      scanLoop W opts target (c2 :: rest) { s with writer := W.write s.writer c }
    else if c = TAB then
      scanLoop W opts target (c2 :: rest) (tabStep W opts s)
    else if c = VERTICAL_TAB ∨ c = FORM_FEED then
      scanLoop W opts target (c2 :: rest) (nonStandardStep W opts c s)
    else
      scanLoop W opts target (c2 :: rest) (otherStep W c s)

/-- Post-processing rule 1 of `modify_content`: remove trailing whitespace
from the last line. -/
def rule1 (W : WriterImpl σ) (opts : Options) (s : ScanState σ) : ScanState σ :=
  if opts.remove_trailing_whitespace ∧
      s.last_end_of_line_including_eol_marker < W.position s.writer ∧
      s.last_non_whitespace < W.position s.writer then
    { s with
      changes := s.changes ++
        [⟨s.line_number, ChangeType.RemovedTrailingWhitespace⟩],
      writer := W.rewind s.writer s.last_non_whitespace }
  else s

/-- Post-processing rule 2 of `modify_content`: remove trailing empty
lines. -/
def rule2 (W : WriterImpl σ) (opts : Options) (s : ScanState σ) : ScanState σ :=
  if opts.remove_trailing_empty_lines ∧
      s.last_end_of_line_including_eol_marker = W.position s.writer ∧
      s.last_end_of_non_empty_line_including_eol_marker < W.position s.writer then
    { s with
      line_number := s.last_non_empty_line_number + 1,
      last_end_of_line_including_eol_marker :=
        s.last_end_of_non_empty_line_including_eol_marker,
      changes := s.changes ++
        [⟨s.last_non_empty_line_number + 1, ChangeType.RemovedEmptyLines⟩],
      writer := W.rewind s.writer
        s.last_end_of_non_empty_line_including_eol_marker }
  else s

/-- Post-processing rule 3 of `modify_content`: add a new line marker at
the end of the file. -/
def rule3 (W : WriterImpl σ) (opts : Options) (target : NewLineMarker)
    (s : ScanState σ) : ScanState σ :=
  if opts.add_new_line_marker_at_end_of_file ∧
      s.last_end_of_line_including_eol_marker < W.position s.writer then
    let w := W.write_bytes s.writer target.to_bytes
    { s with
      changes := s.changes ++
        [⟨s.line_number, ChangeType.NewLineMarkerAddedToEndOfFile⟩],
      writer := w,
      last_end_of_line_including_eol_marker := W.position w,
      line_number := s.line_number + 1 }
  else s

/-- Post-processing rule 4 of `modify_content`: remove the new line marker
from the end of the file. -/
def rule4 (W : WriterImpl σ) (opts : Options) (s : ScanState σ) : ScanState σ :=
  if opts.remove_new_line_marker_from_end_of_file ∧
      s.last_end_of_line_including_eol_marker = W.position s.writer ∧
      2 ≤ s.line_number then
    { s with
      line_number := s.last_non_empty_line_number,
      changes := s.changes ++
        [⟨s.last_non_empty_line_number, ChangeType.NewLineMarkerRemovedFromEndOfFile⟩],
      writer := W.rewind s.writer
        s.last_end_of_non_empty_line_excluding_eol_marker }
  else s

/-- The four post-processing rules of `modify_content`, applied in order. -/
def postRules (W : WriterImpl σ) (opts : Options) (target : NewLineMarker)
    (s : ScanState σ) : ScanState σ :=
  rule4 W opts (rule3 W opts target (rule2 W opts (rule1 W opts s)))

/-- The initial scanning state of `modify_content`. -/
def initialState (w : σ) : ScanState σ :=
  { writer := w,
    changes := [],
    line_number := 1,
    last_end_of_line_including_eol_marker := 0,
    last_non_whitespace := 0,
    last_end_of_non_empty_line_excluding_eol_marker := 0,
    last_end_of_non_empty_line_including_eol_marker := 0,
    last_non_empty_line_number := 0 }

/-- Resolution of the output new line marker at the start of
`modify_content`: fixed modes return the corresponding marker, the `Auto`
mode scans the input. -/
def resolveNewLineMarker (opts : Options) (input_data : List Nat) : NewLineMarker :=
  match opts.new_line_marker with
  | OutputNewLineMarkerMode.Auto => find_most_common_new_line_marker input_data
  | OutputNewLineMarkerMode.Linux => NewLineMarker.Linux
  | OutputNewLineMarkerMode.MacOs => NewLineMarker.MacOs
  | OutputNewLineMarkerMode.Windows => NewLineMarker.Windows

/-- The core formatting algorithm `core.rs::modify_content`: resolves the
output new line marker, short-circuits empty and whitespace-only files,
and otherwise runs the scanning loop followed by the four post-processing
rules.  Returns the final writer state and the list of changes. -/
def modify_content (W : WriterImpl σ) (input_data : List Nat) (opts : Options)
    (writer : σ) : σ × List Change :=
  let output_new_line_marker : NewLineMarker := resolveNewLineMarker opts input_data
  if input_data = [] then
    match opts.normalize_empty_files with
    | TrivialFileReplacementMode.Empty => (writer, [])
    | TrivialFileReplacementMode.Ignore => (writer, [])
    | TrivialFileReplacementMode.OneLine =>
        (W.write_bytes writer output_new_line_marker.to_bytes,
         [⟨1, ChangeType.ReplacedEmptyFileWithOneLine⟩])
  else if is_file_whitespace input_data then
    match opts.normalize_whitespace_only_files with
    | TrivialFileReplacementMode.Empty =>
        (writer, [⟨1, ChangeType.ReplacedWhiteSpaceOnlyFileWithEmptyFile⟩])
    | TrivialFileReplacementMode.Ignore =>
        (W.write_bytes writer input_data, [])
    | TrivialFileReplacementMode.OneLine =>
        let w := W.write_bytes writer output_new_line_marker.to_bytes
        if input_data = output_new_line_marker.to_bytes then
          (w, [])
        else
          (w, [⟨1, ChangeType.ReplacedWhiteSpaceOnlyFileWithOneLine⟩])
  else
    let s := postRules W opts output_new_line_marker
      (scanLoop W opts output_new_line_marker input_data (initialState writer))
    (s.writer, s.changes)

/-- The in-memory part of `core.rs::process_file`: run the engine against
a counting sink to obtain the change list, and when changes exist and
writing is requested, run it again against a real byte-buffer sink sized
by the measured maximum.  Returns the change list and the bytes written
back (`none` when the file is left untouched). -/
def process_file_model (input_data : List Nat) (opts : Options)
    (check_only : Bool) : Option (List Nat) × List Change :=
  let counting := modify_content countingWriter input_data opts
    { position := 0, maximum_position := 0 }
  let changes := counting.2
  if ¬check_only ∧ changes ≠ [] then
    ((modify_content vecWriter input_data opts []).1, changes)
  else
    (none, changes)


/-! ### Configuration validity -/

/-- A configuration is valid when the trivial-file policies do not combine
whitespace-only→Empty with empty→OneLine, the add- and remove-end-of-file
marker flags are not both set, and removing the end-of-file marker entails
removing trailing empty lines (the constraints enforced by `cli.rs`). -/
def ValidOptions (opts : Options) : Prop :=
  ¬(opts.normalize_whitespace_only_files = TrivialFileReplacementMode.Empty ∧
    opts.normalize_empty_files = TrivialFileReplacementMode.OneLine) ∧
  ¬(opts.add_new_line_marker_at_end_of_file = true ∧
    opts.remove_new_line_marker_from_end_of_file = true) ∧
  (opts.remove_new_line_marker_from_end_of_file = true →
    opts.remove_trailing_empty_lines = true)

instance (opts : Options) : Decidable (ValidOptions opts) := by
  unfold ValidOptions; infer_instance

/-- A base configuration with every normalization turned off. -/
def baseOptions : Options :=
  { add_new_line_marker_at_end_of_file := false
    remove_new_line_marker_from_end_of_file := false
    normalize_new_line_markers := false
    remove_trailing_whitespace := false
    remove_trailing_empty_lines := false
    new_line_marker := OutputNewLineMarkerMode.Auto
    normalize_empty_files := TrivialFileReplacementMode.Ignore
    normalize_whitespace_only_files := TrivialFileReplacementMode.Ignore
    replace_tabs_with_spaces := -1
    normalize_non_standard_whitespace := NonStandardWhitespaceReplacementMode.Ignore }

/-! ### C1: idempotence -/

/-- The configuration of the idempotence counterexample: remove trailing
whitespace and add a new line marker at the end of the file. -/
def c1Options : Options :=
  { baseOptions with
    remove_trailing_whitespace := true
    add_new_line_marker_at_end_of_file := true }

/-- C1: the engine is NOT idempotent.  For the valid configuration
{remove-trailing-whitespace, add-eof-marker} and the input "a\n " (bytes
[97, 10, 32]), the first run rewinds past the line-1 terminator to
`last_non_whitespace` (the end-of-scan trailing-whitespace rule omits the
`max` with the end-of-line checkpoint used by the mid-scan rule) and yields
"a"; the second run then appends a new line marker and reports a change,
so the second run is neither byte-identical nor change-free. -/
theorem c1_idempotence_fails :
    ValidOptions c1Options ∧
    modify_content vecWriter [97, 10, 32] c1Options []
      = ([97], [⟨2, ChangeType.RemovedTrailingWhitespace⟩]) ∧
    modify_content vecWriter [97] c1Options []
      = ([97, 10], [⟨1, ChangeType.NewLineMarkerAddedToEndOfFile⟩]) ∧
    (modify_content vecWriter
        (modify_content vecWriter [97, 10, 32] c1Options []).1 c1Options []).1
      ≠ (modify_content vecWriter [97, 10, 32] c1Options []).1 ∧
    (modify_content vecWriter
        (modify_content vecWriter [97, 10, 32] c1Options []).1 c1Options []).2
      ≠ [] := by
  refine ⟨?_, ?_, ?_, ?_, ?_⟩ <;> decide

/-! ### C3: auto line-ending resolution -/

/-- C3: resolution of the most common new line marker.  Empty input yields
Linux; if exactly one marker kind occurs (its count is positive and the
other counts are zero) that kind is returned; a kind with a strictly
highest count is returned; and every tie in which the Linux count is at
least each other count resolves to Linux.  Counts are those of the
engine's own counting loop, which counts a carriage return followed by a
line feed only as a Windows marker. -/
theorem c3_find_most_common_new_line_marker (input : List Nat)
    (linux_count macos_count windows_count : Nat)
    (h : countLoop input 0 0 0 = (linux_count, macos_count, windows_count)) :
    find_most_common_new_line_marker [] = NewLineMarker.Linux ∧
    (1 ≤ linux_count ∧ macos_count = 0 ∧ windows_count = 0 →
      find_most_common_new_line_marker input = NewLineMarker.Linux) ∧
    (1 ≤ macos_count ∧ linux_count = 0 ∧ windows_count = 0 →
      find_most_common_new_line_marker input = NewLineMarker.MacOs) ∧
    (1 ≤ windows_count ∧ linux_count = 0 ∧ macos_count = 0 →
      find_most_common_new_line_marker input = NewLineMarker.Windows) ∧
    (macos_count < linux_count ∧ windows_count < linux_count →
      find_most_common_new_line_marker input = NewLineMarker.Linux) ∧
    (linux_count < macos_count ∧ windows_count < macos_count →
      find_most_common_new_line_marker input = NewLineMarker.MacOs) ∧
    (linux_count < windows_count ∧ macos_count < windows_count →
      find_most_common_new_line_marker input = NewLineMarker.Windows) ∧
    (macos_count ≤ linux_count ∧ windows_count ≤ linux_count →
      find_most_common_new_line_marker input = NewLineMarker.Linux) := by
  refine ⟨rfl, ?_, ?_, ?_, ?_, ?_, ?_, ?_⟩ <;>
    (intro hc
     simp only [find_most_common_new_line_marker, h]
     split_ifs with h1 h2 <;> first | rfl | omega)

/-- Witness for C3 at concrete inputs: a Windows-only file resolves to
Windows, and an all-kinds tie resolves to Linux. -/
theorem c3_witness :
    find_most_common_new_line_marker [13, 10] = NewLineMarker.Windows ∧
    find_most_common_new_line_marker [10, 13, 13, 10] = NewLineMarker.Linux := by
  constructor
  · exact (c3_find_most_common_new_line_marker [13, 10] 0 0 1 (by decide)).2.2.2.1
      ⟨by omega, rfl, rfl⟩
  · exact (c3_find_most_common_new_line_marker [10, 13, 13, 10] 1 1 1
      (by decide)).2.2.2.2.2.2.2 ⟨Nat.le_refl 1, Nat.le_refl 1⟩

/-! ### C7: tab handling -/

/-- Evaluation of `writeSpaces` for the byte-buffer writer. -/
theorem writeSpaces_vec (w : List Nat) (n : Nat) :
    writeSpaces vecWriter w n = w ++ List.replicate n SPACE := by
  induction n generalizing w with
  | zero => simp [writeSpaces]
  | succ k ih =>
    rw [writeSpaces, show vecWriter.write w SPACE = w ++ [SPACE] from rfl, ih,
      List.replicate_succ]
    simp

/-- The configuration of scenario C: tab policy zero. -/
def c7Options : Options := { baseOptions with replace_tabs_with_spaces := 0 }

/-- C7: tab handling.  The scanner routes every tab byte through the tab
step; a negative policy copies the tab verbatim with no change record, a
positive policy N emits N spaces and records a tab-replaced-with-spaces
change at the current line, and the zero policy emits nothing and records
a tab-removed change.  Moreover "\thello" with tab policy 0 becomes
"hello" with exactly one tab-removed change at line 1. -/
theorem c7_tab_handling (opts : Options) (target : NewLineMarker)
    (s : ScanState (List Nat)) :
    (∀ c2 rest, scanLoop vecWriter opts target (TAB :: c2 :: rest) s =
        scanLoop vecWriter opts target (c2 :: rest) (tabStep vecWriter opts s)) ∧
    (opts.replace_tabs_with_spaces < 0 →
      tabStep vecWriter opts s = { s with writer := s.writer ++ [TAB] }) ∧
    (∀ n : Nat, opts.replace_tabs_with_spaces = (n : Int) → 0 < n →
      tabStep vecWriter opts s =
        { s with
          changes := s.changes ++ [⟨s.line_number, ChangeType.ReplacedTabWithSpaces⟩],
          writer := s.writer ++ List.replicate n SPACE }) ∧
    (opts.replace_tabs_with_spaces = 0 →
      tabStep vecWriter opts s =
        { s with changes := s.changes ++ [⟨s.line_number, ChangeType.RemovedTab⟩] }) ∧
    modify_content vecWriter [9, 104, 101, 108, 108, 111] c7Options []
      = ([104, 101, 108, 108, 111], [⟨1, ChangeType.RemovedTab⟩]) := by
  refine ⟨?_, ?_, ?_, ?_, by decide⟩
  · intro c2 rest
    have h1 : ¬(TAB = CARRIAGE_RETURN ∨ TAB = LINE_FEED) := by decide
    have h2 : ¬TAB = SPACE := by decide
    simp [scanLoop, h1, h2]
  · intro h
    simp [tabStep, h, vecWriter]
  · intro n hn hpos
    have h1 : ¬((n : Int) < 0) := by omega
    have h2 : (0 : Int) < (n : Int) := by exact_mod_cast hpos
    simp [tabStep, hn, h1, h2, writeSpaces_vec]
  · intro h
    simp [tabStep, h]

/-- Witness for C7 at a concrete state and configuration. -/
theorem c7_witness :
    tabStep vecWriter c7Options (initialState [])
      = { initialState [] with changes := [⟨1, ChangeType.RemovedTab⟩] } :=
  (c7_tab_handling c7Options NewLineMarker.Linux (initialState [])).2.2.2.1 rfl

/-! ### C4: whitespace-only file short-circuit -/

/-- C4: a non-empty whitespace-only file bypasses the scanner.  Under
policy Ignore the input is copied unchanged with no change record; under
Empty nothing is written and a whitespace-only-file-replaced-with-empty
change is recorded at line 1; under OneLine exactly one resolved new line
marker is written, and a change is recorded at line 1 exactly when the
input is not already that marker byte sequence. -/
theorem c4_whitespace_only_short_circuit (input : List Nat) (opts : Options)
    (hne : input ≠ []) (hws : is_file_whitespace input = true) :
    (opts.normalize_whitespace_only_files = TrivialFileReplacementMode.Ignore →
      modify_content vecWriter input opts [] = (input, [])) ∧
    (opts.normalize_whitespace_only_files = TrivialFileReplacementMode.Empty →
      modify_content vecWriter input opts [] =
        ([], [⟨1, ChangeType.ReplacedWhiteSpaceOnlyFileWithEmptyFile⟩])) ∧
    (opts.normalize_whitespace_only_files = TrivialFileReplacementMode.OneLine →
      (modify_content vecWriter input opts []).1 =
        (resolveNewLineMarker opts input).to_bytes ∧
      ((modify_content vecWriter input opts []).2 = [] ↔
        input = (resolveNewLineMarker opts input).to_bytes) ∧
      (input ≠ (resolveNewLineMarker opts input).to_bytes →
        (modify_content vecWriter input opts []).2 =
          [⟨1, ChangeType.ReplacedWhiteSpaceOnlyFileWithOneLine⟩])) := by
  refine ⟨?_, ?_, ?_⟩ <;> intro hpol
  · simp [modify_content, hne, hws, hpol, vecWriter]
  · simp [modify_content, hne, hws, hpol, vecWriter]
  · have hmc : modify_content vecWriter input opts [] =
        ((resolveNewLineMarker opts input).to_bytes,
         if input = (resolveNewLineMarker opts input).to_bytes then []
         else [⟨1, ChangeType.ReplacedWhiteSpaceOnlyFileWithOneLine⟩]) := by
      simp only [modify_content, hws, hpol, if_neg hne, if_true]
      split
      · simp [vecWriter]
      · simp [vecWriter]
    rw [hmc]
    refine ⟨rfl, ?_, ?_⟩
    · constructor
      · intro h
        by_contra hne2
        rw [if_neg hne2] at h
        exact List.cons_ne_nil _ _ h
      · intro h
        rw [if_pos h]
    · intro h
      rw [if_neg h]

/-- Witness for C4: the whitespace-only input consisting of one carriage
return, under the OneLine policy with a Linux target. -/
theorem c4_witness :
    (modify_content vecWriter [13]
        { baseOptions with
          normalize_whitespace_only_files := TrivialFileReplacementMode.OneLine,
          new_line_marker := OutputNewLineMarkerMode.Linux } []).2 =
      [⟨1, ChangeType.ReplacedWhiteSpaceOnlyFileWithOneLine⟩] :=
  (c4_whitespace_only_short_circuit [13]
      { baseOptions with
        normalize_whitespace_only_files := TrivialFileReplacementMode.OneLine,
        new_line_marker := OutputNewLineMarkerMode.Linux }
      (by decide) (by decide)).2.2 rfl |>.2.2 (by decide)

/-! ### C6: trailing blank lines -/

/-- The configuration of scenario E: remove trailing empty lines only. -/
def c6Options : Options := { baseOptions with remove_trailing_empty_lines := true }

/-- C6: removal of trailing blank lines.  Whenever rule 2 fires (the
option is enabled, the buffer ends exactly at the last end-of-line
checkpoint, and that checkpoint is strictly past the last non-empty line's
checkpoint), the buffer is rewound to the end of the last non-empty line
including its marker and exactly one trailing-blank-lines-removed change
is recorded at line `last_non_empty_line_number + 1`, no matter how many
blank lines are dropped.  Moreover scenario E holds: the input
"hello\r\n\rworld\r\n\n\n\n\n\n" with only this option produces
"hello\r\n\rworld\r\n" and the single change at line 4. -/
theorem c6_trailing_blank_lines (opts : Options) (s : ScanState (List Nat)) :
    (opts.remove_trailing_empty_lines = true →
      s.last_end_of_line_including_eol_marker = s.writer.length →
      s.last_end_of_non_empty_line_including_eol_marker < s.writer.length →
      rule2 vecWriter opts s =
        { s with
          line_number := s.last_non_empty_line_number + 1,
          last_end_of_line_including_eol_marker :=
            s.last_end_of_non_empty_line_including_eol_marker,
          changes := s.changes ++
            [⟨s.last_non_empty_line_number + 1, ChangeType.RemovedEmptyLines⟩],
          writer := s.writer.take
            s.last_end_of_non_empty_line_including_eol_marker }) ∧
    modify_content vecWriter
        [104, 101, 108, 108, 111, 13, 10, 13, 119, 111, 114, 108, 100,
         13, 10, 10, 10, 10, 10, 10] c6Options []
      = ([104, 101, 108, 108, 111, 13, 10, 13, 119, 111, 114, 108, 100, 13, 10],
         [⟨4, ChangeType.RemovedEmptyLines⟩]) := by
  refine ⟨?_, by decide⟩
  intro h1 h2 h3
  simp [rule2, vecWriter, h1, h2, h3]

/-- Witness for C6 at a concrete scanning state with two trailing blank
lines recorded. -/
theorem c6_witness :
    rule2 vecWriter c6Options
      { writer := [97, 10, 10, 10], changes := [], line_number := 4,
        last_end_of_line_including_eol_marker := 4,
        last_non_whitespace := 1,
        last_end_of_non_empty_line_excluding_eol_marker := 1,
        last_end_of_non_empty_line_including_eol_marker := 2,
        last_non_empty_line_number := 1 }
      = { writer := [97, 10], changes := [⟨2, ChangeType.RemovedEmptyLines⟩],
          line_number := 2,
          last_end_of_line_including_eol_marker := 2,
          last_non_whitespace := 1,
          last_end_of_non_empty_line_excluding_eol_marker := 1,
          last_end_of_non_empty_line_including_eol_marker := 2,
          last_non_empty_line_number := 1 } := by
  rw [(c6_trailing_blank_lines c6Options _).1 rfl rfl (by decide)]
  rfl

/-! ### C9: counting-sink/real-sink refinement -/

/-- Simulation between a counting-writer state and a byte-buffer state:
the counted position equals the buffer length, and the recorded maximum
dominates the position. -/
def SimCV (cw : CountingWriter) (out : List Nat) : Prop :=
  cw.position = out.length ∧ cw.position ≤ cw.maximum_position

/-- Simulation between full scanning states over the two writers: the
writer states are related by `SimCV` and every other component is equal. -/
def StateSim (s1 : ScanState CountingWriter) (s2 : ScanState (List Nat)) : Prop :=
  SimCV s1.writer s2.writer ∧
  s1.changes = s2.changes ∧
  s1.line_number = s2.line_number ∧
  s1.last_end_of_line_including_eol_marker =
    s2.last_end_of_line_including_eol_marker ∧
  s1.last_non_whitespace = s2.last_non_whitespace ∧
  s1.last_end_of_non_empty_line_excluding_eol_marker =
    s2.last_end_of_non_empty_line_excluding_eol_marker ∧
  s1.last_end_of_non_empty_line_including_eol_marker =
    s2.last_end_of_non_empty_line_including_eol_marker ∧
  s1.last_non_empty_line_number = s2.last_non_empty_line_number

/-- Checkpoint bounds maintained by the scanning loop over the byte-buffer
writer. -/
def ScanBounds (s : ScanState (List Nat)) : Prop :=
  s.last_end_of_non_empty_line_excluding_eol_marker ≤
    s.last_end_of_non_empty_line_including_eol_marker ∧
  s.last_end_of_non_empty_line_including_eol_marker ≤
    s.last_end_of_line_including_eol_marker ∧
  s.last_end_of_line_including_eol_marker ≤ s.writer.length ∧
  s.last_non_whitespace ≤ s.writer.length

theorem markerStep_sim (opts : Options) (target m : NewLineMarker)
    (s1 : ScanState CountingWriter) (s2 : ScanState (List Nat))
    (hsim : StateSim s1 s2) (hb : ScanBounds s2) :
    StateSim (markerStep countingWriter opts target m s1)
        (markerStep vecWriter opts target m s2) ∧
    ScanBounds (markerStep vecWriter opts target m s2) := by
  obtain ⟨⟨hp, hm⟩, hc, hl, hle, hlnw, hlee, hlei, hln⟩ := hsim
  obtain ⟨b1, b2, b3, b4⟩ := hb
  have hmlen : 1 ≤ m.to_bytes.length := by cases m <;> simp [NewLineMarker.to_bytes]
  have htlen : 1 ≤ target.to_bytes.length := by
    cases target <;> simp [NewLineMarker.to_bytes]
  unfold markerStep
  simp only [countingWriter, vecWriter, hp, hc, hl, hle, hlnw, hlee, hlei, hln]
  split_ifs with h1 h2 <;>
    simp_all [StateSim, SimCV, ScanBounds, List.length_take] <;>
    omega

theorem tabStep_sim (opts : Options)
    (s1 : ScanState CountingWriter) (s2 : ScanState (List Nat))
    (hsim : StateSim s1 s2) (hb : ScanBounds s2) :
    StateSim (tabStep countingWriter opts s1) (tabStep vecWriter opts s2) ∧
    ScanBounds (tabStep vecWriter opts s2) := by
  obtain ⟨⟨hp, hm⟩, hc, hl, hle, hlnw, hlei, hlee, hln⟩ := hsim
  obtain ⟨b1, b2, b3, b4⟩ := hb
  have hws : ∀ (w : CountingWriter) (n : Nat), w.position ≤ w.maximum_position →
      writeSpaces countingWriter w n =
        ⟨w.position + n, max w.maximum_position (w.position + n)⟩ := by
    intro w n
    induction n generalizing w with
    | zero =>
      intro hwm
      cases w with | mk p mp =>
        simp only [writeSpaces, CountingWriter.mk.injEq]
        simp only at hwm
        omega
    | succ k ih =>
      intro hwm
      rw [writeSpaces, ih _ (by simp only [countingWriter]; omega)]
      cases w with | mk p mp =>
        simp only [countingWriter, CountingWriter.mk.injEq]
        omega
  unfold tabStep
  split_ifs with h1 h2
  · simp_all [StateSim, SimCV, ScanBounds, countingWriter, vecWriter]
    omega
  · rw [writeSpaces_vec, hws s1.writer _ hm]
    simp_all [StateSim, SimCV, ScanBounds]
    omega
  · simp_all [StateSim, SimCV, ScanBounds]

theorem nonStandardStep_sim (opts : Options) (c : Nat)
    (s1 : ScanState CountingWriter) (s2 : ScanState (List Nat))
    (hsim : StateSim s1 s2) (hb : ScanBounds s2) :
    StateSim (nonStandardStep countingWriter opts c s1)
        (nonStandardStep vecWriter opts c s2) ∧
    ScanBounds (nonStandardStep vecWriter opts c s2) := by
  obtain ⟨⟨hp, hm⟩, hc, hl, hle, hlnw, hlei, hlee, hln⟩ := hsim
  obtain ⟨b1, b2, b3, b4⟩ := hb
  unfold nonStandardStep
  cases hmode : opts.normalize_non_standard_whitespace <;>
    simp_all [StateSim, SimCV, ScanBounds, countingWriter, vecWriter] <;>
    omega

theorem otherStep_sim (c : Nat)
    (s1 : ScanState CountingWriter) (s2 : ScanState (List Nat))
    (hsim : StateSim s1 s2) (hb : ScanBounds s2) :
    StateSim (otherStep countingWriter c s1) (otherStep vecWriter c s2) ∧
    ScanBounds (otherStep vecWriter c s2) := by
  obtain ⟨⟨hp, hm⟩, hc, hl, hle, hlnw, hlei, hlee, hln⟩ := hsim
  obtain ⟨b1, b2, b3, b4⟩ := hb
  unfold otherStep
  simp_all [StateSim, SimCV, ScanBounds, countingWriter, vecWriter]
  omega

theorem writeStep_sim (c : Nat)
    (s1 : ScanState CountingWriter) (s2 : ScanState (List Nat))
    (hsim : StateSim s1 s2) (hb : ScanBounds s2) :
    StateSim { s1 with writer := countingWriter.write s1.writer c }
        { s2 with writer := vecWriter.write s2.writer c } ∧
    ScanBounds { s2 with writer := vecWriter.write s2.writer c } := by
  obtain ⟨⟨hp, hm⟩, hc, hl, hle, hlnw, hlei, hlee, hln⟩ := hsim
  obtain ⟨b1, b2, b3, b4⟩ := hb
  simp_all [StateSim, SimCV, ScanBounds, countingWriter, vecWriter]
  omega

theorem scanLoop_sim (opts : Options) (target : NewLineMarker) :
    ∀ (n : Nat) (input : List Nat), input.length ≤ n →
    ∀ (s1 : ScanState CountingWriter) (s2 : ScanState (List Nat)),
    StateSim s1 s2 → ScanBounds s2 →
    StateSim (scanLoop countingWriter opts target input s1)
        (scanLoop vecWriter opts target input s2) ∧
    ScanBounds (scanLoop vecWriter opts target input s2) := by
  intro n
  induction n with
  | zero =>
    intro input hlen s1 s2 hsim hb
    have : input = [] := List.eq_nil_of_length_eq_zero (Nat.le_zero.mp hlen)
    subst this
    exact ⟨hsim, hb⟩
  | succ k ih =>
    intro input hlen s1 s2 hsim hb
    match input with
    | [] => exact ⟨hsim, hb⟩
    | [c] =>
      simp only [scanLoop]
      split_ifs with h1 h2 h3 h4 h5
      · exact markerStep_sim opts target NewLineMarker.Linux s1 s2 hsim hb
      · exact markerStep_sim opts target NewLineMarker.MacOs s1 s2 hsim hb
      · exact writeStep_sim c s1 s2 hsim hb
      · exact tabStep_sim opts s1 s2 hsim hb
      · exact nonStandardStep_sim opts c s1 s2 hsim hb
      · exact otherStep_sim c s1 s2 hsim hb
    | c :: c2 :: rest =>
      have hlen2 : (c2 :: rest).length ≤ k := by
        simp only [List.length] at hlen ⊢; omega
      have hlen3 : rest.length ≤ k := by
        simp only [List.length] at hlen ⊢; omega
      simp only [scanLoop]
      split_ifs with h1 h2 h3 h4 h5 h6
      · have h := markerStep_sim opts target NewLineMarker.Linux s1 s2 hsim hb
        exact ih (c2 :: rest) hlen2 _ _ h.1 h.2
      · have h := markerStep_sim opts target NewLineMarker.Windows s1 s2 hsim hb
        exact ih rest hlen3 _ _ h.1 h.2
      · have h := markerStep_sim opts target NewLineMarker.MacOs s1 s2 hsim hb
        exact ih (c2 :: rest) hlen2 _ _ h.1 h.2
      · have h := writeStep_sim c s1 s2 hsim hb
        exact ih (c2 :: rest) hlen2 _ _ h.1 h.2
      · have h := tabStep_sim opts s1 s2 hsim hb
        exact ih (c2 :: rest) hlen2 _ _ h.1 h.2
      · have h := nonStandardStep_sim opts c s1 s2 hsim hb
        exact ih (c2 :: rest) hlen2 _ _ h.1 h.2
      · have h := otherStep_sim c s1 s2 hsim hb
        exact ih (c2 :: rest) hlen2 _ _ h.1 h.2

theorem rule1_sim (opts : Options)
    (s1 : ScanState CountingWriter) (s2 : ScanState (List Nat))
    (hsim : StateSim s1 s2)
    (hb : s2.last_end_of_non_empty_line_excluding_eol_marker ≤
            s2.last_end_of_non_empty_line_including_eol_marker ∧
          s2.last_end_of_non_empty_line_including_eol_marker ≤
            s2.last_end_of_line_including_eol_marker) :
    StateSim (rule1 countingWriter opts s1) (rule1 vecWriter opts s2) ∧
    (rule1 vecWriter opts s2).last_end_of_non_empty_line_excluding_eol_marker ≤
      (rule1 vecWriter opts s2).last_end_of_non_empty_line_including_eol_marker ∧
    (rule1 vecWriter opts s2).last_end_of_non_empty_line_including_eol_marker ≤
      (rule1 vecWriter opts s2).last_end_of_line_including_eol_marker := by
  obtain ⟨⟨hp, hm⟩, hc, hl, hle, hlnw, hlei, hlee, hln⟩ := hsim
  unfold rule1
  simp only [countingWriter, vecWriter, hp, hc, hl, hle, hlnw, hlei, hlee, hln]
  split_ifs with h1 <;>
    simp_all [StateSim, SimCV, List.length_take] <;>
    omega

theorem rule2_sim (opts : Options)
    (s1 : ScanState CountingWriter) (s2 : ScanState (List Nat))
    (hsim : StateSim s1 s2)
    (hb : s2.last_end_of_non_empty_line_excluding_eol_marker ≤
            s2.last_end_of_non_empty_line_including_eol_marker ∧
          s2.last_end_of_non_empty_line_including_eol_marker ≤
            s2.last_end_of_line_including_eol_marker) :
    StateSim (rule2 countingWriter opts s1) (rule2 vecWriter opts s2) ∧
    (rule2 vecWriter opts s2).last_end_of_non_empty_line_excluding_eol_marker ≤
      (rule2 vecWriter opts s2).last_end_of_non_empty_line_including_eol_marker ∧
    (rule2 vecWriter opts s2).last_end_of_non_empty_line_including_eol_marker ≤
      (rule2 vecWriter opts s2).last_end_of_line_including_eol_marker := by
  obtain ⟨⟨hp, hm⟩, hc, hl, hle, hlnw, hlei, hlee, hln⟩ := hsim
  unfold rule2
  simp only [countingWriter, vecWriter, hp, hc, hl, hle, hlnw, hlei, hlee, hln]
  split_ifs with h1 <;>
    simp_all [StateSim, SimCV, List.length_take] <;>
    omega

theorem rule3_sim (opts : Options) (target : NewLineMarker)
    (s1 : ScanState CountingWriter) (s2 : ScanState (List Nat))
    (hsim : StateSim s1 s2)
    (hb : s2.last_end_of_non_empty_line_excluding_eol_marker ≤
            s2.last_end_of_non_empty_line_including_eol_marker ∧
          s2.last_end_of_non_empty_line_including_eol_marker ≤
            s2.last_end_of_line_including_eol_marker) :
    StateSim (rule3 countingWriter opts target s1) (rule3 vecWriter opts target s2) ∧
    (rule3 vecWriter opts target s2).last_end_of_non_empty_line_excluding_eol_marker ≤
      (rule3 vecWriter opts target s2).last_end_of_non_empty_line_including_eol_marker ∧
    (rule3 vecWriter opts target s2).last_end_of_non_empty_line_including_eol_marker ≤
      (rule3 vecWriter opts target s2).last_end_of_line_including_eol_marker := by
  obtain ⟨⟨hp, hm⟩, hc, hl, hle, hlnw, hlei, hlee, hln⟩ := hsim
  unfold rule3
  simp only [countingWriter, vecWriter, hp, hc, hl, hle, hlnw, hlei, hlee, hln]
  split_ifs with h1 <;>
    simp_all [StateSim, SimCV, List.length_take] <;>
    omega

theorem rule4_sim (opts : Options)
    (s1 : ScanState CountingWriter) (s2 : ScanState (List Nat))
    (hsim : StateSim s1 s2)
    (hb : s2.last_end_of_non_empty_line_excluding_eol_marker ≤
            s2.last_end_of_non_empty_line_including_eol_marker ∧
          s2.last_end_of_non_empty_line_including_eol_marker ≤
            s2.last_end_of_line_including_eol_marker) :
    StateSim (rule4 countingWriter opts s1) (rule4 vecWriter opts s2) := by
  obtain ⟨⟨hp, hm⟩, hc, hl, hle, hlnw, hlei, hlee, hln⟩ := hsim
  unfold rule4
  simp only [countingWriter, vecWriter, hp, hc, hl, hle, hlnw, hlei, hlee, hln]
  split_ifs with h1 <;>
    simp_all [StateSim, SimCV, List.length_take] <;>
    omega

theorem postRules_sim (opts : Options) (target : NewLineMarker)
    (s1 : ScanState CountingWriter) (s2 : ScanState (List Nat))
    (hsim : StateSim s1 s2) (hb : ScanBounds s2) :
    StateSim (postRules countingWriter opts target s1)
        (postRules vecWriter opts target s2) := by
  have h1r := rule1_sim opts _ _ hsim ⟨hb.1, hb.2.1⟩
  have h2r := rule2_sim opts _ _ h1r.1 ⟨h1r.2.1, h1r.2.2⟩
  have h3r := rule3_sim opts target _ _ h2r.1 ⟨h2r.2.1, h2r.2.2⟩
  have h4r := rule4_sim opts _ _ h3r.1 ⟨h3r.2.1, h3r.2.2⟩
  exact h4r

/-- C9: refinement between the counting sink and the real byte-buffer
sink.  For every input and configuration, the engine driven through the
counting writer returns exactly the change list of the engine driven
through the byte-buffer writer, the final counted position equals the
real output length, and the counting writer's maximum position dominates
the real output length, so a buffer pre-sized to the measured maximum
never needs to grow. -/
theorem c9_counting_refines_vec (input : List Nat) (opts : Options) :
    (modify_content countingWriter input opts ⟨0, 0⟩).2 =
      (modify_content vecWriter input opts []).2 ∧
    (modify_content countingWriter input opts ⟨0, 0⟩).1.position =
      (modify_content vecWriter input opts []).1.length ∧
    (modify_content vecWriter input opts []).1.length ≤
      (modify_content countingWriter input opts ⟨0, 0⟩).1.maximum_position := by
  have hinit : StateSim (initialState (⟨0, 0⟩ : CountingWriter)) (initialState []) := by
    simp [StateSim, SimCV, initialState]
  have hbinit : ScanBounds (initialState ([] : List Nat)) := by
    simp [ScanBounds, initialState]
  have hscan := scanLoop_sim opts (resolveNewLineMarker opts input)
    input.length input (Nat.le_refl _) _ _ hinit hbinit
  have hpost := postRules_sim opts (resolveNewLineMarker opts input) _ _
    hscan.1 hscan.2
  obtain ⟨⟨hp, hm⟩, hc, _⟩ := hpost
  unfold modify_content
  split_ifs with h1 h2
  · cases hp : opts.normalize_empty_files <;>
      simp [SimCV, countingWriter, vecWriter, NewLineMarker.to_bytes] <;>
      cases resolveNewLineMarker opts input <;>
      simp [NewLineMarker.to_bytes]
  · cases hpol : opts.normalize_whitespace_only_files <;>
      simp [SimCV, countingWriter, vecWriter]
    · split_ifs <;> simp [countingWriter, vecWriter]
  · exact ⟨hc, hp, hp ▸ hm⟩

/-! ### C10: sink-rewind safety -/

/-- An instrumented writer used to observe the engine's rewind calls: it
keeps the byte buffer, the list of every position the writer has held
(its recorded positions), and a log of rewind calls, each entry storing
the requested target, the position at the time of the call, and the
positions recorded before the call. -/
structure LogWriter : Type where
  buf : List Nat
  history : List Nat
  rewinds : List (Nat × Nat × List Nat)

/-- The `Writer` operations of the instrumented writer: they act on the
buffer exactly as the byte-buffer writer does, record every new position
in `history`, and log every rewind call. -/
def logWriter : WriterImpl LogWriter where
  write := fun s b =>
    { buf := s.buf ++ [b], history := s.history ++ [s.buf.length + 1],
      rewinds := s.rewinds }
  write_bytes := fun s bs =>
    { buf := s.buf ++ bs, history := s.history ++ [s.buf.length + bs.length],
      rewinds := s.rewinds }
  rewind := fun s p =>
    { buf := s.buf.take p, history := s.history ++ [p],
      rewinds := s.rewinds ++ [(p, s.buf.length, s.history)] }
  position := fun s => s.buf.length

/-- Soundness of a rewind log: every logged call has a target no greater
than the position at the call, and the target is one of the positions
recorded before the call. -/
def LogEntriesOk (l : List (Nat × Nat × List Nat)) : Prop :=
  ∀ e ∈ l, e.1 ≤ e.2.1 ∧ e.1 ∈ e.2.2

/-- Invariant of the scanning loop over the instrumented writer: the log
is sound so far, the current position and all four rewindable checkpoints
are recorded positions, and the checkpoints are suitably ordered. -/
def LogInv (s : ScanState LogWriter) : Prop :=
  LogEntriesOk s.writer.rewinds ∧
  s.writer.buf.length ∈ s.writer.history ∧
  s.last_non_whitespace ∈ s.writer.history ∧
  s.last_end_of_line_including_eol_marker ∈ s.writer.history ∧
  s.last_end_of_non_empty_line_including_eol_marker ∈ s.writer.history ∧
  s.last_end_of_non_empty_line_excluding_eol_marker ∈ s.writer.history ∧
  s.last_non_whitespace ≤ s.writer.buf.length ∧
  s.last_end_of_line_including_eol_marker ≤ s.writer.buf.length ∧
  s.last_end_of_non_empty_line_excluding_eol_marker ≤
    s.last_end_of_non_empty_line_including_eol_marker ∧
  s.last_end_of_non_empty_line_including_eol_marker ≤
    s.last_end_of_line_including_eol_marker

theorem logEntriesOk_append (l : List (Nat × Nat × List Nat))
    (t p : Nat) (hist : List Nat) (hok : LogEntriesOk l)
    (ht : t ≤ p) (hm : t ∈ hist) :
    LogEntriesOk (l ++ [(t, p, hist)]) := by
  intro e hme
  rcases List.mem_append.mp hme with hme | hme
  · exact hok e hme
  · rcases List.mem_singleton.mp hme with rfl
    exact ⟨ht, hm⟩

theorem markerStep_log (opts : Options) (target m : NewLineMarker)
    (s : ScanState LogWriter) (h : LogInv s) :
    LogInv (markerStep logWriter opts target m s) := by
  obtain ⟨he, hpos, hnw, hle, hlei, hlee, o1, o2, o3, o4⟩ := h
  have hmlen : 1 ≤ m.to_bytes.length := by cases m <;> simp [NewLineMarker.to_bytes]
  have htlen : 1 ≤ target.to_bytes.length := by
    cases target <;> simp [NewLineMarker.to_bytes]
  have hmax : max s.last_non_whitespace s.last_end_of_line_including_eol_marker
      ∈ s.writer.history := by
    rcases max_choice s.last_non_whitespace
      s.last_end_of_line_including_eol_marker with hc | hc <;> rw [hc]
    · exact hnw
    · exact hle
  -- Normal form of the state after the optional rewind.
  unfold markerStep
  by_cases h1 : opts.remove_trailing_whitespace = true ∧
      max s.last_non_whitespace s.last_end_of_line_including_eol_marker <
        logWriter.position s.writer
  case pos =>
    rw [if_pos h1]
    have hlt := h1.2
    simp only [logWriter] at hlt
    set t := max s.last_non_whitespace s.last_end_of_line_including_eol_marker
      with hdeft
    -- facts about the rewound writer
    have hbuf1 : (logWriter.rewind s.writer t).buf.length = t := by
      simp [logWriter, List.length_take]; omega
    have hhist1 : (logWriter.rewind s.writer t).history =
        s.writer.history ++ [t] := rfl
    have hok1 : LogEntriesOk (logWriter.rewind s.writer t).rewinds :=
      logEntriesOk_append _ _ _ _ he (Nat.le_of_lt hlt) hmax
    simp only [LogInv]
    split_ifs <;>
      refine ⟨hok1, ?_, ?_, ?_, ?_, ?_, ?_, ?_, ?_, ?_⟩ <;>
      simp [logWriter, List.mem_append, List.length_take, hpos, hnw, hle,
        hlei, hlee] <;>
      omega
  case neg =>
    rw [if_neg h1]
    simp only [LogInv]
    split_ifs <;>
      refine ⟨he, ?_, ?_, ?_, ?_, ?_, ?_, ?_, ?_, ?_⟩ <;>
      simp [logWriter, List.mem_append, hpos, hnw, hle, hlei, hlee] <;>
      omega

theorem writeSpaces_log (n : Nat) (w : LogWriter)
    (hmem : w.buf.length ∈ w.history) :
    ∃ L, writeSpaces logWriter w n =
      { buf := w.buf ++ List.replicate n SPACE, history := w.history ++ L,
        rewinds := w.rewinds } ∧
      w.buf.length + n ∈ w.history ++ L := by
  induction n generalizing w with
  | zero => exact ⟨[], by simp [writeSpaces], by simpa using hmem⟩
  | succ k ih =>
    obtain ⟨L, hL, hmem2⟩ := ih (logWriter.write w SPACE) (by simp [logWriter])
    refine ⟨(w.buf.length + 1) :: L, ?_, ?_⟩
    · rw [writeSpaces, hL]
      simp [logWriter, List.replicate_succ]
    · simp only [logWriter, List.length_append, List.length_singleton] at hmem2
      have harith : w.buf.length + (k + 1) = w.buf.length + 1 + k := by omega
      rw [harith]
      rcases List.mem_append.mp hmem2 with hm | hm
      · rcases List.mem_append.mp hm with hm2 | hm2
        · exact List.mem_append_left _ hm2
        · refine List.mem_append_right _ ?_
          rcases List.mem_singleton.mp hm2 with heq2
          rw [heq2]
          exact List.mem_cons_self _ _
      · exact List.mem_append_right _ (List.mem_cons_of_mem _ hm)

theorem writeStep_log (c : Nat) (s : ScanState LogWriter) (h : LogInv s) :
    LogInv { s with writer := logWriter.write s.writer c } := by
  obtain ⟨he, hpos, hnw, hle, hlei, hlee, o1, o2, o3, o4⟩ := h
  refine ⟨he, ?_, ?_, ?_, ?_, ?_, ?_, ?_, o3, o4⟩ <;>
    simp [logWriter, List.mem_append, hnw, hle, hlei, hlee] <;> omega

theorem tabStep_log (opts : Options) (s : ScanState LogWriter) (h : LogInv s) :
    LogInv (tabStep logWriter opts s) := by
  obtain ⟨he, hpos, hnw, hle, hlei, hlee, o1, o2, o3, o4⟩ := h
  unfold tabStep
  split_ifs with h1 h2
  · refine ⟨he, ?_, ?_, ?_, ?_, ?_, ?_, ?_, o3, o4⟩ <;>
      simp [logWriter, List.mem_append, hnw, hle, hlei, hlee] <;> omega
  · obtain ⟨L, hL, hLm⟩ :=
      writeSpaces_log opts.replace_tabs_with_spaces.toNat s.writer hpos
    refine ⟨?_, ?_, ?_, ?_, ?_, ?_, ?_, ?_, o3, o4⟩ <;>
      simp [hL, List.mem_append, hnw, hle, hlei, hlee, he] <;>
      first
        | omega
        | (rcases List.mem_append.mp hLm with hm | hm
           · exact Or.inl (by simpa using hm)
           · exact Or.inr hm)
  · exact ⟨he, hpos, hnw, hle, hlei, hlee, o1, o2, o3, o4⟩

theorem nonStandardStep_log (opts : Options) (c : Nat)
    (s : ScanState LogWriter) (h : LogInv s) :
    LogInv (nonStandardStep logWriter opts c s) := by
  obtain ⟨he, hpos, hnw, hle, hlei, hlee, o1, o2, o3, o4⟩ := h
  unfold nonStandardStep
  cases opts.normalize_non_standard_whitespace
  · refine ⟨he, ?_, ?_, ?_, ?_, ?_, ?_, ?_, o3, o4⟩ <;>
      simp [logWriter, List.mem_append, hnw, hle, hlei, hlee] <;> omega
  · refine ⟨he, ?_, ?_, ?_, ?_, ?_, ?_, ?_, o3, o4⟩ <;>
      simp [logWriter, List.mem_append, hnw, hle, hlei, hlee] <;> omega
  · exact ⟨he, hpos, hnw, hle, hlei, hlee, o1, o2, o3, o4⟩

theorem otherStep_log (c : Nat) (s : ScanState LogWriter) (h : LogInv s) :
    LogInv (otherStep logWriter c s) := by
  obtain ⟨he, hpos, hnw, hle, hlei, hlee, o1, o2, o3, o4⟩ := h
  unfold otherStep
  refine ⟨he, ?_, ?_, ?_, ?_, ?_, ?_, ?_, o3, o4⟩ <;>
    simp [logWriter, List.mem_append, hnw, hle, hlei, hlee] <;> omega

theorem scanLoop_log (opts : Options) (target : NewLineMarker) :
    ∀ (n : Nat) (input : List Nat), input.length ≤ n →
    ∀ (s : ScanState LogWriter), LogInv s →
    LogInv (scanLoop logWriter opts target input s) := by
  intro n
  induction n with
  | zero =>
    intro input hlen s h
    have : input = [] := List.eq_nil_of_length_eq_zero (Nat.le_zero.mp hlen)
    subst this
    exact h
  | succ k ih =>
    intro input hlen s h
    match input with
    | [] => exact h
    | [c] =>
      simp only [scanLoop]
      split_ifs with h1 h2 h3 h4 h5
      · exact markerStep_log opts target NewLineMarker.Linux s h
      · exact markerStep_log opts target NewLineMarker.MacOs s h
      · exact writeStep_log c s h
      · exact tabStep_log opts s h
      · exact nonStandardStep_log opts c s h
      · exact otherStep_log c s h
    | c :: c2 :: rest =>
      have hlen2 : (c2 :: rest).length ≤ k := by
        simp only [List.length] at hlen ⊢; omega
      have hlen3 : rest.length ≤ k := by
        simp only [List.length] at hlen ⊢; omega
      simp only [scanLoop]
      split_ifs with h1 h2 h3 h4 h5 h6
      · exact ih (c2 :: rest) hlen2 _ (markerStep_log opts target NewLineMarker.Linux s h)
      · exact ih rest hlen3 _ (markerStep_log opts target NewLineMarker.Windows s h)
      · exact ih (c2 :: rest) hlen2 _ (markerStep_log opts target NewLineMarker.MacOs s h)
      · exact ih (c2 :: rest) hlen2 _ (writeStep_log c s h)
      · exact ih (c2 :: rest) hlen2 _ (tabStep_log opts s h)
      · exact ih (c2 :: rest) hlen2 _ (nonStandardStep_log opts c s h)
      · exact ih (c2 :: rest) hlen2 _ (otherStep_log c s h)

/-- Invariant preserved by the four post-processing rules over the
instrumented writer. -/
def PostLogInv (s : ScanState LogWriter) : Prop :=
  LogEntriesOk s.writer.rewinds ∧
  s.writer.buf.length ∈ s.writer.history ∧
  s.last_non_whitespace ∈ s.writer.history ∧
  s.last_end_of_line_including_eol_marker ∈ s.writer.history ∧
  s.last_end_of_non_empty_line_including_eol_marker ∈ s.writer.history ∧
  s.last_end_of_non_empty_line_excluding_eol_marker ∈ s.writer.history ∧
  s.last_end_of_non_empty_line_excluding_eol_marker ≤
    s.last_end_of_non_empty_line_including_eol_marker ∧
  s.last_end_of_non_empty_line_including_eol_marker ≤
    s.last_end_of_line_including_eol_marker

theorem logInv_postLogInv (s : ScanState LogWriter) (h : LogInv s) :
    PostLogInv s := by
  obtain ⟨he, hpos, hnw, hle, hlei, hlee, o1, o2, o3, o4⟩ := h
  exact ⟨he, hpos, hnw, hle, hlei, hlee, o3, o4⟩

theorem rule1_log (opts : Options) (s : ScanState LogWriter) (h : PostLogInv s) :
    PostLogInv (rule1 logWriter opts s) := by
  obtain ⟨he, hpos, hnw, hle, hlei, hlee, o3, o4⟩ := h
  unfold rule1
  split_ifs with h1
  · obtain ⟨hr, hlt1, hlt2⟩ := h1
    simp only [logWriter] at hlt1 hlt2
    refine ⟨logEntriesOk_append _ _ _ _ he (Nat.le_of_lt hlt2) hnw,
      ?_, ?_, ?_, ?_, ?_, o3, o4⟩ <;>
      simp [logWriter, List.mem_append, List.length_take, hnw, hle, hlei, hlee] <;>
      omega
  · exact ⟨he, hpos, hnw, hle, hlei, hlee, o3, o4⟩

theorem rule2_log (opts : Options) (s : ScanState LogWriter) (h : PostLogInv s) :
    PostLogInv (rule2 logWriter opts s) := by
  obtain ⟨he, hpos, hnw, hle, hlei, hlee, o3, o4⟩ := h
  unfold rule2
  split_ifs with h1
  · obtain ⟨hr, heq, hlt⟩ := h1
    simp only [logWriter] at heq hlt
    refine ⟨logEntriesOk_append _ _ _ _ he (Nat.le_of_lt hlt) hlei,
      ?_, ?_, ?_, ?_, ?_, ?_, ?_⟩ <;>
      simp [logWriter, List.mem_append, List.length_take, hnw, hle, hlei, hlee] <;>
      omega
  · exact ⟨he, hpos, hnw, hle, hlei, hlee, o3, o4⟩

theorem rule3_log (opts : Options) (target : NewLineMarker)
    (s : ScanState LogWriter) (h : PostLogInv s) :
    PostLogInv (rule3 logWriter opts target s) := by
  obtain ⟨he, hpos, hnw, hle, hlei, hlee, o3, o4⟩ := h
  unfold rule3
  split_ifs with h1
  · obtain ⟨hr, hlt⟩ := h1
    simp only [logWriter] at hlt
    refine ⟨he, ?_, ?_, ?_, ?_, ?_, o3, ?_⟩ <;>
      simp [logWriter, List.mem_append, hnw, hle, hlei, hlee] <;>
      omega
  · exact ⟨he, hpos, hnw, hle, hlei, hlee, o3, o4⟩

theorem rule4_log (opts : Options) (s : ScanState LogWriter) (h : PostLogInv s) :
    LogEntriesOk (rule4 logWriter opts s).writer.rewinds := by
  obtain ⟨he, hpos, hnw, hle, hlei, hlee, o3, o4⟩ := h
  unfold rule4
  split_ifs with h1
  · obtain ⟨hr, heq, hlt⟩ := h1
    simp only [logWriter] at heq
    exact logEntriesOk_append _ _ _ _ he (by omega) hlee
  · exact he

/-- C10: sink-rewind safety.  Every rewind call the engine issues (as
observed by the instrumented writer, started with position 0 recorded)
targets a position no greater than the writer's position at the call, and
the target is one of the previously recorded positions, never an
arbitrary point.  Moreover each rewind site passes exactly one of the
recorded checkpoints: the mid-scan trailing-whitespace removal rewinds to
`max last_non_whitespace last_end_of_line_including_eol_marker`, rule 1 to
`last_non_whitespace`, rule 2 to
`last_end_of_non_empty_line_including_eol_marker`, and rule 4 to
`last_end_of_non_empty_line_excluding_eol_marker`. -/
theorem c10_rewind_safety :
    (∀ (input : List Nat) (opts : Options),
      LogEntriesOk (modify_content logWriter input opts
        ⟨[], [0], []⟩).1.rewinds) ∧
    (∀ (opts : Options) (target m : NewLineMarker) (s : ScanState LogWriter),
      opts.remove_trailing_whitespace = true →
      max s.last_non_whitespace s.last_end_of_line_including_eol_marker <
        s.writer.buf.length →
      (markerStep logWriter opts target m s).writer.rewinds =
        s.writer.rewinds ++
          [(max s.last_non_whitespace s.last_end_of_line_including_eol_marker,
            s.writer.buf.length, s.writer.history)]) ∧
    (∀ (opts : Options) (s : ScanState LogWriter),
      opts.remove_trailing_whitespace = true →
      s.last_end_of_line_including_eol_marker < s.writer.buf.length →
      s.last_non_whitespace < s.writer.buf.length →
      (rule1 logWriter opts s).writer.rewinds =
        s.writer.rewinds ++
          [(s.last_non_whitespace, s.writer.buf.length, s.writer.history)]) ∧
    (∀ (opts : Options) (s : ScanState LogWriter),
      opts.remove_trailing_empty_lines = true →
      s.last_end_of_line_including_eol_marker = s.writer.buf.length →
      s.last_end_of_non_empty_line_including_eol_marker < s.writer.buf.length →
      (rule2 logWriter opts s).writer.rewinds =
        s.writer.rewinds ++
          [(s.last_end_of_non_empty_line_including_eol_marker,
            s.writer.buf.length, s.writer.history)]) ∧
    (∀ (opts : Options) (s : ScanState LogWriter),
      opts.remove_new_line_marker_from_end_of_file = true →
      s.last_end_of_line_including_eol_marker = s.writer.buf.length →
      2 ≤ s.line_number →
      (rule4 logWriter opts s).writer.rewinds =
        s.writer.rewinds ++
          [(s.last_end_of_non_empty_line_excluding_eol_marker,
            s.writer.buf.length, s.writer.history)]) := by
  refine ⟨?_, ?_, ?_, ?_, ?_⟩
  · intro input opts
    have hinit : LogInv (initialState (⟨[], [0], []⟩ : LogWriter)) := by
      refine ⟨?_, ?_, ?_, ?_, ?_, ?_, ?_, ?_, ?_, ?_⟩ <;>
        simp [LogEntriesOk, initialState]
    unfold modify_content
    split_ifs with h1 h2
    · cases opts.normalize_empty_files <;>
        simp [LogEntriesOk, logWriter]
    · cases opts.normalize_whitespace_only_files <;>
        simp [LogEntriesOk, logWriter]
      split_ifs <;> simp [LogEntriesOk, logWriter]
    · have hscan := scanLoop_log opts (resolveNewLineMarker opts input)
        input.length input (Nat.le_refl _) _ hinit
      have h1r := rule1_log opts _ (logInv_postLogInv _ hscan)
      have h2r := rule2_log opts _ h1r
      have h3r := rule3_log opts (resolveNewLineMarker opts input) _ h2r
      exact rule4_log opts _ h3r
  · intro opts target m s hr hlt
    unfold markerStep
    rw [if_pos ⟨hr, hlt⟩]
    simp only []
    split_ifs <;> simp [logWriter]
  · intro opts s hr hlt1 hlt2
    unfold rule1
    rw [if_pos ⟨hr, hlt1, hlt2⟩]
    simp [logWriter]
  · intro opts s hr heq hlt
    unfold rule2
    rw [if_pos ⟨hr, heq, hlt⟩]
    simp [logWriter]
  · intro opts s hr heq hlt
    unfold rule4
    rw [if_pos ⟨hr, heq, hlt⟩]
    simp [logWriter]

/-- Witness for C10 at a concrete run and concrete rewind sites: a run of
the engine that performs a mid-scan rewind, a rule-2 rewind and a rule-4
rewind. -/
theorem c10_witness :
    LogEntriesOk (modify_content logWriter [97, 32, 10, 10]
      { baseOptions with
        remove_trailing_whitespace := true
        remove_trailing_empty_lines := true
        remove_new_line_marker_from_end_of_file := true } ⟨[], [0], []⟩).1.rewinds ∧
    (rule1 logWriter
        { baseOptions with remove_trailing_whitespace := true }
        { writer := ⟨[97, 32], [0, 1, 2], []⟩, changes := [], line_number := 1,
          last_end_of_line_including_eol_marker := 0,
          last_non_whitespace := 1,
          last_end_of_non_empty_line_excluding_eol_marker := 0,
          last_end_of_non_empty_line_including_eol_marker := 0,
          last_non_empty_line_number := 0 }).writer.rewinds =
      [(1, 2, [0, 1, 2])] := by
  constructor
  · exact c10_rewind_safety.1 [97, 32, 10, 10] _
  · rw [c10_rewind_safety.2.2.1 _ _ rfl (by decide) (by decide)]
    rfl

/-! ### A structural model of the scanning loop over the byte-buffer writer

The scanning loop of `modify_content` is re-expressed as a pure function
on the list of closed lines (each a pair of emitted content and emitted
marker), the emitted content of the current open line, and the changes so
far.  The checkpoint fields of `ScanState` are then derived functions of
this structure, and the scanning loop provably coincides with the model. -/

/-- Whether a byte is one of the six whitespace characters of the
engine. -/
def isWsChar (c : Nat) : Bool :=
  c == CARRIAGE_RETURN || c == LINE_FEED || c == SPACE || c == TAB ||
  c == VERTICAL_TAB || c == FORM_FEED

/-- Position one past the last non-whitespace byte of a buffer (0 when
the buffer is all whitespace). -/
def lastNonWs (l : List Nat) : Nat :=
  l.length - (l.reverse.takeWhile isWsChar).length

/-- The bytes the scanner emits for one non-marker input byte. -/
def byteImage (opts : Options) (c : Nat) : List Nat :=
  if c = SPACE then [SPACE]
  else if c = TAB then
    if opts.replace_tabs_with_spaces < 0 then [TAB]
    else if opts.replace_tabs_with_spaces > 0 then
      List.replicate opts.replace_tabs_with_spaces.toNat SPACE
    else []
  else if c = VERTICAL_TAB ∨ c = FORM_FEED then
    match opts.normalize_non_standard_whitespace with
    | NonStandardWhitespaceReplacementMode.Ignore => [c]
    | NonStandardWhitespaceReplacementMode.ReplaceWithSpace => [SPACE]
    | NonStandardWhitespaceReplacementMode.Remove => []
  else [c]

/-- The changes the scanner records for one non-marker input byte read at
line `n`. -/
def byteChanges (opts : Options) (n : Nat) (c : Nat) : List Change :=
  if c = SPACE then []
  else if c = TAB then
    if opts.replace_tabs_with_spaces < 0 then []
    else if opts.replace_tabs_with_spaces > 0 then
      [⟨n, ChangeType.ReplacedTabWithSpaces⟩]
    else [⟨n, ChangeType.RemovedTab⟩]
  else if c = VERTICAL_TAB ∨ c = FORM_FEED then
    match opts.normalize_non_standard_whitespace with
    | NonStandardWhitespaceReplacementMode.Ignore => []
    | NonStandardWhitespaceReplacementMode.ReplaceWithSpace =>
        [⟨n, ChangeType.ReplacedNonstandardWhitespaceBySpace c⟩]
    | NonStandardWhitespaceReplacementMode.Remove =>
        [⟨n, ChangeType.RemovedNonstandardWhitespace c⟩]
  else []

/-- The marker the scanner writes when it decodes marker `m`. -/
def emittedMarker (opts : Options) (target m : NewLineMarker) : NewLineMarker :=
  if opts.normalize_new_line_markers ∧ target ≠ m then target else m

/-- The content kept for a line whose emitted content was `q` when the
line is closed (the mid-scan trailing-whitespace removal). -/
def closedContent (opts : Options) (q : List Nat) : List Nat :=
  if opts.remove_trailing_whitespace ∧ lastNonWs q < q.length then
    q.take (lastNonWs q)
  else q

/-- The changes recorded when a line with emitted content `q` and decoded
marker `m` is closed at line `n`. -/
def closeChanges (opts : Options) (target : NewLineMarker) (n : Nat)
    (q : List Nat) (m : NewLineMarker) : List Change :=
  (if opts.remove_trailing_whitespace ∧ lastNonWs q < q.length then
    [⟨n, ChangeType.RemovedTrailingWhitespace⟩]
  else []) ++
  (if opts.normalize_new_line_markers ∧ target ≠ m then
    [⟨n, ChangeType.ReplacedNewLineMarker m target⟩]
  else [])

/-- Concatenation of a list of closed lines into a byte buffer. -/
def joinLines : List (List Nat × NewLineMarker) → List Nat
  | [] => []
  | e :: tl => e.1 ++ e.2.to_bytes ++ joinLines tl

/-- Number of trailing closed lines with empty content. -/
def numTrailingEmpty (CL : List (List Nat × NewLineMarker)) : Nat :=
  (CL.reverse.takeWhile (fun e => e.1.isEmpty)).length

/-- 1-based index of the last closed line with non-empty content (0 when
all closed lines are empty). -/
def lnOf (CL : List (List Nat × NewLineMarker)) : Nat :=
  CL.length - numTrailingEmpty CL

/-- Buffer position one past the last non-empty closed line, including
its end-of-line marker. -/
def leneiOf (CL : List (List Nat × NewLineMarker)) : Nat :=
  (joinLines (CL.take (lnOf CL))).length

/-- Buffer position one past the last non-empty closed line, excluding
its end-of-line marker. -/
def leneeOf (CL : List (List Nat × NewLineMarker)) : Nat :=
  match (CL.take (lnOf CL)).getLast? with
  | none => 0
  | some e => (joinLines ((CL.take (lnOf CL)).dropLast)).length + e.1.length

/-- The scanning state corresponding to a list of closed lines `CL`, an
open line with emitted content `q`, and changes `ch`. -/
def midState (CL : List (List Nat × NewLineMarker)) (q : List Nat)
    (ch : List Change) : ScanState (List Nat) :=
  { writer := joinLines CL ++ q,
    changes := ch,
    line_number := CL.length + 1,
    last_end_of_line_including_eol_marker := (joinLines CL).length,
    last_non_whitespace := lastNonWs (joinLines CL ++ q),
    last_end_of_non_empty_line_excluding_eol_marker := leneeOf CL,
    last_end_of_non_empty_line_including_eol_marker := leneiOf CL,
    last_non_empty_line_number := lnOf CL }

/-- Closing of one line in the structural model. -/
def closeModel (opts : Options) (target m : NewLineMarker)
    (CL : List (List Nat × NewLineMarker)) (q : List Nat) (ch : List Change) :
    List (List Nat × NewLineMarker) × List Nat × List Change :=
  (CL ++ [(closedContent opts q, emittedMarker opts target m)], [],
   ch ++ closeChanges opts target (CL.length + 1) q m)

/-- Processing of one non-marker byte in the structural model. -/
def byteModel (opts : Options) (c : Nat)
    (CL : List (List Nat × NewLineMarker)) (q : List Nat) (ch : List Change) :
    List (List Nat × NewLineMarker) × List Nat × List Change :=
  (CL, q ++ byteImage opts c, ch ++ byteChanges opts (CL.length + 1) c)

/-- The structural model of the scanning loop. -/
def scanModel (opts : Options) (target : NewLineMarker) :
    List Nat → List (List Nat × NewLineMarker) → List Nat → List Change →
    List (List Nat × NewLineMarker) × List Nat × List Change
  | [], CL, q, ch => (CL, q, ch)
  | [c], CL, q, ch =>
    if c = CARRIAGE_RETURN ∨ c = LINE_FEED then
      if c = LINE_FEED then closeModel opts target NewLineMarker.Linux CL q ch
      else closeModel opts target NewLineMarker.MacOs CL q ch
    else byteModel opts c CL q ch
  | c :: c2 :: rest, CL, q, ch =>
    if c = CARRIAGE_RETURN ∨ c = LINE_FEED then
      if c = LINE_FEED then
        match closeModel opts target NewLineMarker.Linux CL q ch with
        | (CL2, q2, ch2) => scanModel opts target (c2 :: rest) CL2 q2 ch2
      else if c2 = LINE_FEED then
        match closeModel opts target NewLineMarker.Windows CL q ch with
        | (CL2, q2, ch2) => scanModel opts target rest CL2 q2 ch2
      else
        match closeModel opts target NewLineMarker.MacOs CL q ch with
        | (CL2, q2, ch2) => scanModel opts target (c2 :: rest) CL2 q2 ch2
    else
      match byteModel opts c CL q ch with
      | (CL2, q2, ch2) => scanModel opts target (c2 :: rest) CL2 q2 ch2

/-! ### List lemmas for the structural model -/

theorem length_takeWhile_le' {α : Type} (p : α → Bool) (l : List α) :
    (l.takeWhile p).length ≤ l.length := by
  induction l with
  | nil => simp
  | cons a tl ih =>
    rw [List.takeWhile_cons]
    split_ifs <;> simp <;> omega

theorem take_append_len {α : Type} (A B : List α) (j : Nat) :
    (A ++ B).take (A.length + j) = A ++ B.take j := by
  induction A with
  | nil => simp
  | cons a tl ih => simp [List.take_succ_cons, Nat.succ_add, ih]

theorem take_append_of_le {α : Type} (A B : List α) (n : Nat)
    (h : n ≤ A.length) : (A ++ B).take n = A.take n := by
  induction A generalizing n with
  | nil => simp_all
  | cons a tl ih =>
    match n with
    | 0 => simp
    | k + 1 =>
      simp only [List.cons_append, List.take_succ_cons]
      rw [ih k (by simp at h; omega)]

theorem lastNonWs_nil : lastNonWs [] = 0 := rfl

theorem lastNonWs_le (l : List Nat) : lastNonWs l ≤ l.length :=
  Nat.sub_le _ _

theorem lastNonWs_concat_ws (l : List Nat) (c : Nat) (h : isWsChar c = true) :
    lastNonWs (l ++ [c]) = lastNonWs l := by
  have hb := length_takeWhile_le' isWsChar l.reverse
  simp only [List.length_reverse] at hb
  simp [lastNonWs, List.takeWhile_cons, h] <;> omega

theorem lastNonWs_concat_nonws (l : List Nat) (c : Nat)
    (h : isWsChar c = false) :
    lastNonWs (l ++ [c]) = l.length + 1 := by
  simp [lastNonWs, List.takeWhile_cons, h] <;> omega

theorem lastNonWs_append (A B : List Nat) :
    lastNonWs (A ++ B) =
      if lastNonWs B = 0 then lastNonWs A else A.length + lastNonWs B := by
  induction B using List.reverseRecOn with
  | nil => simp [lastNonWs_nil]
  | append_singleton B' c ih =>
    rcases hc : isWsChar c with hf | ht
    · rw [← List.append_assoc, lastNonWs_concat_nonws _ _ hc,
        lastNonWs_concat_nonws _ _ hc]
      simp
      omega
    · rw [← List.append_assoc, lastNonWs_concat_ws _ _ hc,
        lastNonWs_concat_ws _ _ hc, ih]

theorem max_lastNonWs_append (A q : List Nat) :
    max (lastNonWs (A ++ q)) A.length = A.length + lastNonWs q := by
  rw [lastNonWs_append]
  have h1 := lastNonWs_le A
  split_ifs with h <;> omega

theorem lastNonWs_take_lastNonWs (q : List Nat) :
    lastNonWs (q.take (lastNonWs q)) = lastNonWs q := by
  induction q using List.reverseRecOn with
  | nil => simp [lastNonWs_nil]
  | append_singleton q' c ih =>
    rcases hc : isWsChar c with hf | ht
    · rw [lastNonWs_concat_nonws _ _ hc]
      have h2 : (q' ++ [c]).take (q'.length + 1) = q' ++ [c] := by
        have h3 : q'.length + 1 = (q' ++ [c]).length := by simp
        rw [h3, List.take_length]
      rw [h2, lastNonWs_concat_nonws _ _ hc]
    · rw [lastNonWs_concat_ws _ _ hc,
        take_append_of_le _ _ _ (lastNonWs_le q'), ih]

theorem joinLines_append (CL CL' : List (List Nat × NewLineMarker)) :
    joinLines (CL ++ CL') = joinLines CL ++ joinLines CL' := by
  induction CL with
  | nil => simp [joinLines]
  | cons e tl ih => simp [joinLines, ih]

theorem joinLines_concat (CL : List (List Nat × NewLineMarker))
    (e : List Nat × NewLineMarker) :
    joinLines (CL ++ [e]) = joinLines CL ++ e.1 ++ e.2.to_bytes := by
  rw [joinLines_append]
  simp [joinLines]

theorem marker_bytes_ws (m : NewLineMarker) :
    lastNonWs m.to_bytes = 0 := by
  cases m <;> decide

theorem marker_bytes_len_pos (m : NewLineMarker) :
    1 ≤ m.to_bytes.length := by
  cases m <;> decide

theorem lastNonWs_append_marker (A : List Nat) (m : NewLineMarker) :
    lastNonWs (A ++ m.to_bytes) = lastNonWs A := by
  rw [lastNonWs_append, marker_bytes_ws]
  simp

theorem numTrailingEmpty_concat (CL : List (List Nat × NewLineMarker))
    (e : List Nat × NewLineMarker) :
    numTrailingEmpty (CL ++ [e]) =
      if e.1 = [] then numTrailingEmpty CL + 1 else 0 := by
  simp only [numTrailingEmpty, List.reverse_append, List.reverse_singleton,
    List.singleton_append, List.takeWhile_cons]
  rcases he : e.1 with _ | ⟨a, tl⟩ <;> simp [he]

theorem numTrailingEmpty_le (CL : List (List Nat × NewLineMarker)) :
    numTrailingEmpty CL ≤ CL.length := by
  have := length_takeWhile_le' (fun e => e.1.isEmpty) CL.reverse
  simp only [numTrailingEmpty]
  simp only [List.length_reverse] at this
  exact this

theorem lnOf_concat_empty (CL : List (List Nat × NewLineMarker))
    (e : List Nat × NewLineMarker) (h : e.1 = []) :
    lnOf (CL ++ [e]) = lnOf CL := by
  have := numTrailingEmpty_le CL
  simp [lnOf, numTrailingEmpty_concat, h] <;> omega

theorem lnOf_concat_nonempty (CL : List (List Nat × NewLineMarker))
    (e : List Nat × NewLineMarker) (h : e.1 ≠ []) :
    lnOf (CL ++ [e]) = CL.length + 1 := by
  simp [lnOf, numTrailingEmpty_concat, h]

theorem lnOf_le (CL : List (List Nat × NewLineMarker)) :
    lnOf CL ≤ CL.length :=
  Nat.sub_le _ _

theorem take_lnOf_concat_empty (CL : List (List Nat × NewLineMarker))
    (e : List Nat × NewLineMarker) (h : e.1 = []) :
    (CL ++ [e]).take (lnOf (CL ++ [e])) = CL.take (lnOf CL) := by
  rw [lnOf_concat_empty _ _ h, take_append_of_le _ _ _ (lnOf_le CL)]

theorem leneiOf_concat_empty (CL : List (List Nat × NewLineMarker))
    (e : List Nat × NewLineMarker) (h : e.1 = []) :
    leneiOf (CL ++ [e]) = leneiOf CL := by
  simp [leneiOf, take_lnOf_concat_empty _ _ h]

theorem leneeOf_concat_empty (CL : List (List Nat × NewLineMarker))
    (e : List Nat × NewLineMarker) (h : e.1 = []) :
    leneeOf (CL ++ [e]) = leneeOf CL := by
  simp [leneeOf, take_lnOf_concat_empty _ _ h]

theorem take_all_concat (CL : List (List Nat × NewLineMarker))
    (e : List Nat × NewLineMarker) :
    (CL ++ [e]).take (CL.length + 1) = CL ++ [e] := by
  have : CL.length + 1 = (CL ++ [e]).length := by simp
  rw [this, List.take_length]

theorem leneiOf_concat_nonempty (CL : List (List Nat × NewLineMarker))
    (e : List Nat × NewLineMarker) (h : e.1 ≠ []) :
    leneiOf (CL ++ [e]) =
      (joinLines CL).length + e.1.length + e.2.to_bytes.length := by
  simp [leneiOf, lnOf_concat_nonempty _ _ h, take_all_concat, joinLines_concat]
  omega

theorem leneeOf_concat_nonempty (CL : List (List Nat × NewLineMarker))
    (e : List Nat × NewLineMarker) (h : e.1 ≠ []) :
    leneeOf (CL ++ [e]) = (joinLines CL).length + e.1.length := by
  simp [leneeOf, lnOf_concat_nonempty _ _ h, take_all_concat]

theorem lnOf_zero_parts (CL : List (List Nat × NewLineMarker))
    (h : lnOf CL = 0) : leneiOf CL = 0 ∧ leneeOf CL = 0 := by
  simp [leneiOf, leneeOf, h, joinLines]

theorem lnOf_pos_decomp (CL : List (List Nat × NewLineMarker))
    (h : 0 < lnOf CL) :
    ∃ D e, CL.take (lnOf CL) = D ++ [e] ∧ e.1 ≠ [] ∧
      leneiOf CL = (joinLines D).length + e.1.length + e.2.to_bytes.length ∧
      leneeOf CL = (joinLines D).length + e.1.length := by
  induction CL using List.reverseRecOn with
  | nil => simp [lnOf, numTrailingEmpty] at h
  | append_singleton CL' e' ih =>
    by_cases he : e'.1 = []
    · rw [lnOf_concat_empty _ _ he] at h
      obtain ⟨D, e, h1, h2, h3, h4⟩ := ih h
      exact ⟨D, e, by rw [take_lnOf_concat_empty _ _ he, h1],
        h2,
        by rw [leneiOf_concat_empty _ _ he, h3],
        by rw [leneeOf_concat_empty _ _ he, h4]⟩
    · refine ⟨CL', e', ?_, he, ?_, ?_⟩
      · rw [lnOf_concat_nonempty _ _ he, take_all_concat]
      · rw [leneiOf_concat_nonempty _ _ he]
      · rw [leneeOf_concat_nonempty _ _ he]

theorem joinLines_take_prefix (CL : List (List Nat × NewLineMarker)) (n : Nat) :
    ∃ t, joinLines (CL.take n) ++ t = joinLines CL := by
  refine ⟨joinLines (CL.drop n), ?_⟩
  rw [← joinLines_append, List.take_append_drop]

theorem leneiOf_le_join (CL : List (List Nat × NewLineMarker)) :
    leneiOf CL ≤ (joinLines CL).length := by
  obtain ⟨t, ht⟩ := joinLines_take_prefix CL (lnOf CL)
  simp only [leneiOf]
  rw [← ht]
  simp

/-! ### C8: recorded line numbers are positive -/

theorem writeSpaces_counting_position (w : CountingWriter) (n : Nat) :
    (writeSpaces countingWriter w n).position = w.position + n := by
  induction n generalizing w with
  | zero => rfl
  | succ k ih =>
    rw [writeSpaces, ih]
    simp only [countingWriter]
    omega

/-- Arithmetic invariant of the scanning state (over the counting sink)
from which positivity of all recorded line numbers follows. -/
def C8Inv (s : ScanState CountingWriter) : Prop :=
  (∀ c ∈ s.changes, 1 ≤ c.line_number) ∧
  1 ≤ s.line_number ∧
  s.last_end_of_line_including_eol_marker ≤ s.writer.position ∧
  s.last_end_of_non_empty_line_including_eol_marker ≤
    s.last_end_of_line_including_eol_marker ∧
  (2 ≤ s.line_number → 1 ≤ s.last_end_of_line_including_eol_marker) ∧
  (1 ≤ s.last_non_empty_line_number ∨
    s.last_end_of_non_empty_line_including_eol_marker = 0)

theorem markerStep_c8 (opts : Options) (target m : NewLineMarker)
    (s : ScanState CountingWriter) (h : C8Inv s) :
    C8Inv (markerStep countingWriter opts target m s) := by
  obtain ⟨a1, a2, a3, a4, a5, a6⟩ := h
  have hm := marker_bytes_len_pos m
  have ht := marker_bytes_len_pos target
  unfold markerStep
  simp only [countingWriter]
  split_ifs <;>
    simp_all [C8Inv, List.forall_mem_append, or_imp, forall_and, forall_eq] <;>
    omega

theorem tabStep_c8 (opts : Options)
    (s : ScanState CountingWriter) (h : C8Inv s) :
    C8Inv (tabStep countingWriter opts s) := by
  obtain ⟨a1, a2, a3, a4, a5, a6⟩ := h
  have hws := writeSpaces_counting_position s.writer
    opts.replace_tabs_with_spaces.toNat
  unfold tabStep
  split_ifs <;>
    simp_all [C8Inv, List.forall_mem_append, or_imp, forall_and, forall_eq,
      countingWriter] <;>
    omega

theorem nonStandardStep_c8 (opts : Options) (c : Nat)
    (s : ScanState CountingWriter) (h : C8Inv s) :
    C8Inv (nonStandardStep countingWriter opts c s) := by
  obtain ⟨a1, a2, a3, a4, a5, a6⟩ := h
  unfold nonStandardStep
  cases opts.normalize_non_standard_whitespace <;>
    simp_all [C8Inv, List.forall_mem_append, or_imp, forall_and, forall_eq,
      countingWriter] <;>
    omega

theorem otherStep_c8 (c : Nat)
    (s : ScanState CountingWriter) (h : C8Inv s) :
    C8Inv (otherStep countingWriter c s) := by
  obtain ⟨a1, a2, a3, a4, a5, a6⟩ := h
  unfold otherStep
  simp_all [C8Inv, countingWriter]
  omega

theorem writeStep_c8 (c : Nat)
    (s : ScanState CountingWriter) (h : C8Inv s) :
    C8Inv { s with writer := countingWriter.write s.writer c } := by
  obtain ⟨a1, a2, a3, a4, a5, a6⟩ := h
  simp_all [C8Inv, countingWriter]
  omega

theorem scanLoop_c8 (opts : Options) (target : NewLineMarker) :
    ∀ (n : Nat) (input : List Nat), input.length ≤ n →
    ∀ (s : ScanState CountingWriter), C8Inv s →
    C8Inv (scanLoop countingWriter opts target input s) := by
  intro n
  induction n with
  | zero =>
    intro input hlen s h
    have : input = [] := List.eq_nil_of_length_eq_zero (Nat.le_zero.mp hlen)
    subst this
    exact h
  | succ k ih =>
    intro input hlen s h
    match input with
    | [] => exact h
    | [c] =>
      simp only [scanLoop]
      split_ifs with h1 h2 h3 h4 h5
      · exact markerStep_c8 opts target NewLineMarker.Linux s h
      · exact markerStep_c8 opts target NewLineMarker.MacOs s h
      · exact writeStep_c8 c s h
      · exact tabStep_c8 opts s h
      · exact nonStandardStep_c8 opts c s h
      · exact otherStep_c8 c s h
    | c :: c2 :: rest =>
      have hlen2 : (c2 :: rest).length ≤ k := by
        simp only [List.length] at hlen ⊢; omega
      have hlen3 : rest.length ≤ k := by
        simp only [List.length] at hlen ⊢; omega
      simp only [scanLoop]
      split_ifs with h1 h2 h3 h4 h5 h6
      · exact ih (c2 :: rest) hlen2 _
          (markerStep_c8 opts target NewLineMarker.Linux s h)
      · exact ih rest hlen3 _
          (markerStep_c8 opts target NewLineMarker.Windows s h)
      · exact ih (c2 :: rest) hlen2 _
          (markerStep_c8 opts target NewLineMarker.MacOs s h)
      · exact ih (c2 :: rest) hlen2 _ (writeStep_c8 c s h)
      · exact ih (c2 :: rest) hlen2 _ (tabStep_c8 opts s h)
      · exact ih (c2 :: rest) hlen2 _ (nonStandardStep_c8 opts c s h)
      · exact ih (c2 :: rest) hlen2 _ (otherStep_c8 c s h)

/-- Invariant after the end-of-scan trailing-whitespace rule: all the
components of `C8Inv` except the position bound, which that rule may
break. -/
def R8a (s : ScanState CountingWriter) : Prop :=
  (∀ c ∈ s.changes, 1 ≤ c.line_number) ∧
  1 ≤ s.line_number ∧
  s.last_end_of_non_empty_line_including_eol_marker ≤
    s.last_end_of_line_including_eol_marker ∧
  (2 ≤ s.line_number → 1 ≤ s.last_end_of_line_including_eol_marker) ∧
  (1 ≤ s.last_non_empty_line_number ∨
    s.last_end_of_non_empty_line_including_eol_marker = 0)

/-- Invariant after the trailing-empty-lines rule: whenever the
remove-end-of-file-marker rule could subsequently fire, the last non-empty
line number is positive. -/
def R8b (opts : Options) (s : ScanState CountingWriter) : Prop :=
  (∀ c ∈ s.changes, 1 ≤ c.line_number) ∧
  1 ≤ s.line_number ∧
  (opts.remove_new_line_marker_from_end_of_file = true →
    s.last_end_of_line_including_eol_marker = s.writer.position →
    2 ≤ s.line_number →
    1 ≤ s.last_non_empty_line_number)

theorem c8inv_r8a (s : ScanState CountingWriter) (h : C8Inv s) : R8a s := by
  obtain ⟨a1, a2, a3, a4, a5, a6⟩ := h
  exact ⟨a1, a2, a4, a5, a6⟩

theorem rule1_r8a (opts : Options) (s : ScanState CountingWriter)
    (h : R8a s) : R8a (rule1 countingWriter opts s) := by
  obtain ⟨a1, a2, a3, a4, a5⟩ := h
  unfold rule1
  split_ifs <;>
    simp_all [R8a, List.forall_mem_append, or_imp, forall_and, forall_eq,
      countingWriter]

theorem rule2_r8b (opts : Options) (s : ScanState CountingWriter)
    (h : R8a s)
    (hv : opts.remove_new_line_marker_from_end_of_file = true →
      opts.remove_trailing_empty_lines = true) :
    R8b opts (rule2 countingWriter opts s) := by
  obtain ⟨a1, a2, a3, a4, a5⟩ := h
  unfold rule2
  split_ifs with h1
  · refine ⟨?_, by simp, ?_⟩
    · intro c hc
      simp only [List.mem_append, List.mem_singleton] at hc
      rcases hc with hc | hc
      · exact a1 c hc
      · subst hc; simp
    · intro hrem hle hln
      simp_all <;> omega
  · refine ⟨a1, a2, ?_⟩
    intro hrem hle hln
    have hrte := hv hrem
    simp only [countingWriter] at h1 hle
    have : ¬ s.last_end_of_non_empty_line_including_eol_marker <
        s.writer.position := fun hlt => h1 ⟨hrte, hle, hlt⟩
    have hle1 := a4 hln
    omega

theorem rule3_r8b (opts : Options) (target : NewLineMarker)
    (s : ScanState CountingWriter) (h : R8b opts s)
    (hv : ¬(opts.add_new_line_marker_at_end_of_file = true ∧
      opts.remove_new_line_marker_from_end_of_file = true)) :
    R8b opts (rule3 countingWriter opts target s) := by
  obtain ⟨a1, a2, a3⟩ := h
  unfold rule3
  split_ifs with h1
  · refine ⟨?_, by simp, ?_⟩
    · intro c hc
      simp only [List.mem_append, List.mem_singleton] at hc
      rcases hc with hc | hc
      · exact a1 c hc
      · subst hc; simpa using a2
    · intro hrem
      exact absurd ⟨h1.1, hrem⟩ hv
  · exact ⟨a1, a2, a3⟩

theorem rule4_c8 (opts : Options) (s : ScanState CountingWriter)
    (h : R8b opts s) :
    ∀ c ∈ (rule4 countingWriter opts s).changes, 1 ≤ c.line_number := by
  obtain ⟨a1, a2, a3⟩ := h
  unfold rule4
  split_ifs with h1
  · intro c hc
    simp only [countingWriter] at h1
    simp only [List.mem_append, List.mem_singleton] at hc
    rcases hc with hc | hc
    · exact a1 c hc
    · subst hc
      simpa using a3 h1.1 h1.2.1 h1.2.2
  · exact a1

theorem postRules_c8 (opts : Options) (target : NewLineMarker)
    (s : ScanState CountingWriter) (h : C8Inv s) (hv : ValidOptions opts) :
    ∀ c ∈ (postRules countingWriter opts target s).changes,
      1 ≤ c.line_number := by
  obtain ⟨v1, v2, v3⟩ := hv
  exact rule4_c8 opts _
    (rule3_r8b opts target _
      (rule2_r8b opts _ (rule1_r8a opts _ (c8inv_r8a _ h)) v3) v2)

theorem initialState_c8 (w : CountingWriter) (hw : w.position = 0) :
    C8Inv (initialState w) := by
  refine ⟨by simp [initialState], by simp [initialState], ?_,
    by simp [initialState], by simp [initialState], Or.inr (by simp [initialState])⟩
  simp [initialState, hw]

/-- C8: every change record returned by the engine has line number >= 1,
for every input and every valid configuration.  In particular the
remove-end-of-file-marker rule, which records at
`last_non_empty_line_number`, can only fire when that number is at
least 1. -/
theorem c8_change_line_numbers_positive (input : List Nat) (opts : Options)
    (check_only : Bool) (hv : ValidOptions opts) :
    ∀ c ∈ (process_file_model input opts check_only).2, 1 ≤ c.line_number := by
  have hcore : ∀ c ∈ (modify_content countingWriter input opts
      { position := 0, maximum_position := 0 }).2, 1 ≤ c.line_number := by
    unfold modify_content
    split_ifs with h1 h2
    · cases hpol : opts.normalize_empty_files <;> simp
    · cases hpol : opts.normalize_whitespace_only_files
      · simp
      · simp
      · dsimp only
        split_ifs <;> simp
    · exact postRules_c8 opts _ _
        (scanLoop_c8 opts _ input.length input le_rfl _
          (initialState_c8 ⟨0, 0⟩ rfl)) hv
  simp only [process_file_model]
  split_ifs with h
  · exact hcore
  · exact hcore

theorem c8_witness :
    ValidOptions c6Options ∧
    ∀ c ∈ (process_file_model [97, 10, 10, 10] c6Options true).2,
      1 ≤ c.line_number :=
  ⟨by decide,
   c8_change_line_numbers_positive [97, 10, 10, 10] c6Options true (by decide)⟩

/-! ### Structural model: per-step equations -/

theorem lastNonWs_append_replicate_space (l : List Nat) (n : Nat) :
    lastNonWs (l ++ List.replicate n SPACE) = lastNonWs l := by
  induction n with
  | zero => simp
  | succ k ih =>
    rw [List.replicate_succ', ← List.append_assoc,
      lastNonWs_concat_ws _ SPACE (by decide), ih]

theorem spaceStep_model (CL : List (List Nat × NewLineMarker)) (q : List Nat)
    (ch : List Change) :
    { midState CL q ch with
        writer := vecWriter.write (midState CL q ch).writer SPACE } =
      midState CL (q ++ [SPACE]) ch := by
  have h : lastNonWs (joinLines CL ++ (q ++ [SPACE])) =
      lastNonWs (joinLines CL ++ q) := by
    rw [← List.append_assoc, lastNonWs_concat_ws _ SPACE (by decide)]
  simp [midState, vecWriter, h]

theorem tabStep_model (opts : Options)
    (CL : List (List Nat × NewLineMarker)) (q : List Nat) (ch : List Change) :
    tabStep vecWriter opts (midState CL q ch) =
      midState CL (q ++ byteImage opts TAB)
        (ch ++ byteChanges opts (CL.length + 1) TAB) := by
  have htab : lastNonWs (joinLines CL ++ (q ++ [TAB])) =
      lastNonWs (joinLines CL ++ q) := by
    rw [← List.append_assoc, lastNonWs_concat_ws _ TAB (by decide)]
  have hrep : lastNonWs (joinLines CL ++ (q ++
      List.replicate opts.replace_tabs_with_spaces.toNat SPACE)) =
      lastNonWs (joinLines CL ++ q) := by
    rw [← List.append_assoc, lastNonWs_append_replicate_space]
  have hws := writeSpaces_vec (midState CL q ch).writer
    opts.replace_tabs_with_spaces.toNat
  unfold tabStep
  split_ifs with h1 h2 <;>
    simp_all [midState, vecWriter, byteImage, byteChanges, TAB, SPACE,
      htab, hrep] <;>
    (try split_ifs) <;>
    simp_all <;>
    omega

theorem nonStandardStep_model (opts : Options) (c : Nat)
    (h : c = VERTICAL_TAB ∨ c = FORM_FEED)
    (CL : List (List Nat × NewLineMarker)) (q : List Nat) (ch : List Change) :
    nonStandardStep vecWriter opts c (midState CL q ch) =
      midState CL (q ++ byteImage opts c)
        (ch ++ byteChanges opts (CL.length + 1) c) := by
  have hwsc : isWsChar c = true := by
    rcases h with h | h <;> subst h <;> decide
  have hc : lastNonWs (joinLines CL ++ (q ++ [c])) =
      lastNonWs (joinLines CL ++ q) := by
    rw [← List.append_assoc, lastNonWs_concat_ws _ c hwsc]
  have hsp : lastNonWs (joinLines CL ++ (q ++ [SPACE])) =
      lastNonWs (joinLines CL ++ q) := by
    rw [← List.append_assoc, lastNonWs_concat_ws _ SPACE (by decide)]
  have hc1 : ¬(c = SPACE) := by
    rcases h with h | h <;> subst h <;> decide
  have hc2 : ¬(c = TAB) := by
    rcases h with h | h <;> subst h <;> decide
  unfold nonStandardStep
  cases hmode : opts.normalize_non_standard_whitespace <;>
    simp_all [midState, vecWriter, byteImage, byteChanges, hc, hsp]

theorem otherStep_model (opts : Options) (c : Nat)
    (h1 : ¬(c = CARRIAGE_RETURN ∨ c = LINE_FEED)) (h2 : ¬(c = SPACE))
    (h3 : ¬(c = TAB)) (h4 : ¬(c = VERTICAL_TAB ∨ c = FORM_FEED))
    (CL : List (List Nat × NewLineMarker)) (q : List Nat) (ch : List Change) :
    otherStep vecWriter c (midState CL q ch) =
      midState CL (q ++ byteImage opts c)
        (ch ++ byteChanges opts (CL.length + 1) c) := by
  have hwsc : isWsChar c = false := by
    simp [isWsChar, CARRIAGE_RETURN, LINE_FEED, SPACE, TAB, VERTICAL_TAB,
      FORM_FEED] at *
    omega
  have hc : lastNonWs (joinLines CL ++ (q ++ [c])) =
      (joinLines CL ++ q).length + 1 := by
    rw [← List.append_assoc, lastNonWs_concat_nonws _ c hwsc]
  unfold otherStep
  simp_all [midState, vecWriter, byteImage, byteChanges, hc]
  omega

theorem lastNonWs_closedContent (opts : Options) (A q : List Nat) :
    lastNonWs (A ++ closedContent opts q) = lastNonWs (A ++ q) := by
  unfold closedContent
  split_ifs with h
  · rw [lastNonWs_append, lastNonWs_append, lastNonWs_take_lastNonWs]
  · rfl

theorem lastNonWs_append_append_marker (A t : List Nat) (mk : NewLineMarker) :
    lastNonWs (A ++ (t ++ mk.to_bytes)) = lastNonWs (A ++ t) := by
  rw [← List.append_assoc, lastNonWs_append_marker]

theorem markerStep_model (opts : Options) (target m : NewLineMarker)
    (CL : List (List Nat × NewLineMarker)) (q : List Nat) (ch : List Change) :
    markerStep vecWriter opts target m (midState CL q ch) =
      midState (CL ++ [(closedContent opts q, emittedMarker opts target m)]) []
        (ch ++ closeChanges opts target (CL.length + 1) q m) := by
  have hmax := max_lastNonWs_append (joinLines CL) q
  have hlnwle := lastNonWs_le q
  have hln2 := lastNonWs_closedContent opts (joinLines CL) q
  unfold markerStep
  simp only [midState, vecWriter]
  rw [hmax, take_append_len]
  by_cases hs : opts.remove_trailing_whitespace = true ∧ lastNonWs q < q.length
  case pos =>
    have hq' : closedContent opts q = q.take (lastNonWs q) := by
      unfold closedContent; rw [if_pos hs]
    have hcond : opts.remove_trailing_whitespace = true ∧
        (joinLines CL).length + lastNonWs q < (joinLines CL ++ q).length := by
      refine ⟨hs.1, ?_⟩
      rw [List.length_append]
      omega
    rw [if_pos hcond]
    rw [hq'] at hln2 ⊢
    by_cases h0 : lastNonWs q = 0
    · rw [h0] at hln2 ⊢
      simp only [List.take_zero, List.append_nil] at hln2 ⊢
      have hE := lnOf_concat_empty CL ([], emittedMarker opts target m) rfl
      have hI := leneiOf_concat_empty CL ([], emittedMarker opts target m) rfl
      have hX := leneeOf_concat_empty CL ([], emittedMarker opts target m) rfl
      split_ifs with hn <;>
        simp_all [closeChanges, emittedMarker, midState, joinLines_concat,
          lastNonWs_append_marker, List.append_assoc, List.length_append]
    · have hne : q.take (lastNonWs q) ≠ [] := by
        intro hcon
        have := congrArg List.length hcon
        simp only [List.length_take, List.length_nil] at this
        omega
      have hE := lnOf_concat_nonempty CL
        (q.take (lastNonWs q), emittedMarker opts target m) hne
      have hI := leneiOf_concat_nonempty CL
        (q.take (lastNonWs q), emittedMarker opts target m) hne
      have hX := leneeOf_concat_nonempty CL
        (q.take (lastNonWs q), emittedMarker opts target m) hne
      split_ifs with hn <;>
        simp_all [closeChanges, emittedMarker, midState, joinLines_concat,
          lastNonWs_append_marker, List.append_assoc, List.length_append,
          List.length_take, lastNonWs_append_append_marker] <;>
        omega
  case neg =>
    have hq' : closedContent opts q = q := by
      unfold closedContent; rw [if_neg hs]
    have hcond : ¬(opts.remove_trailing_whitespace = true ∧
        (joinLines CL).length + lastNonWs q < (joinLines CL ++ q).length) := by
      intro hc
      refine hs ⟨hc.1, ?_⟩
      have := hc.2
      rw [List.length_append] at this
      omega
    rw [if_neg hcond]
    rw [hq'] at hln2 ⊢
    by_cases h0 : q = []
    · subst h0
      simp only [List.append_nil] at hln2 ⊢
      have hE := lnOf_concat_empty CL ([], emittedMarker opts target m) rfl
      have hI := leneiOf_concat_empty CL ([], emittedMarker opts target m) rfl
      have hX := leneeOf_concat_empty CL ([], emittedMarker opts target m) rfl
      split_ifs with hn <;>
        simp_all [closeChanges, emittedMarker, midState, joinLines_concat,
          lastNonWs_append_marker, List.append_assoc, List.length_append]
    · have hE := lnOf_concat_nonempty CL (q, emittedMarker opts target m) h0
      have hI := leneiOf_concat_nonempty CL (q, emittedMarker opts target m) h0
      have hX := leneeOf_concat_nonempty CL (q, emittedMarker opts target m) h0
      split_ifs with hn <;>
        simp_all [closeChanges, emittedMarker, midState, joinLines_concat,
          lastNonWs_append_marker, List.append_assoc, List.length_append,
          lastNonWs_append_append_marker] <;>
        omega

theorem scanLoop_model (opts : Options) (target : NewLineMarker) :
    ∀ (n : Nat) (input : List Nat), input.length ≤ n →
    ∀ (CL : List (List Nat × NewLineMarker)) (q : List Nat) (ch : List Change),
    scanLoop vecWriter opts target input (midState CL q ch) =
      midState (scanModel opts target input CL q ch).1
        (scanModel opts target input CL q ch).2.1
        (scanModel opts target input CL q ch).2.2 := by
  intro n
  induction n with
  | zero =>
    intro input hlen CL q ch
    have : input = [] := List.eq_nil_of_length_eq_zero (Nat.le_zero.mp hlen)
    subst this
    simp [scanLoop, scanModel]
  | succ k ih =>
    intro input hlen CL q ch
    match input with
    | [] => simp [scanLoop, scanModel]
    | [c] =>
      simp only [scanLoop, scanModel]
      split_ifs with h1 h2 h3 h4 h5
      · rw [markerStep_model]
        simp [closeModel]
      · rw [markerStep_model]
        simp [closeModel]
      · subst h3
        rw [spaceStep_model]
        simp [byteModel, byteImage, byteChanges]
      · subst h4
        rw [tabStep_model]
        simp [byteModel]
      · rw [nonStandardStep_model opts c h5]
        simp [byteModel]
      · rw [otherStep_model opts c h1 h3 h4 h5]
        simp [byteModel]
    | c :: c2 :: rest =>
      have hlen2 : (c2 :: rest).length ≤ k := by
        simp only [List.length] at hlen ⊢; omega
      have hlen3 : rest.length ≤ k := by
        simp only [List.length] at hlen ⊢; omega
      simp only [scanLoop, scanModel]
      split_ifs with h1 h2 h3 h4 h5 h6
      · rw [markerStep_model, ih (c2 :: rest) hlen2]
        simp [closeModel]
      · rw [markerStep_model, ih rest hlen3]
        simp [closeModel]
      · rw [markerStep_model, ih (c2 :: rest) hlen2]
        simp [closeModel]
      · subst h4
        rw [spaceStep_model, ih (c2 :: rest) hlen2]
        simp [byteModel, byteImage, byteChanges]
      · subst h5
        rw [tabStep_model, ih (c2 :: rest) hlen2]
        simp [byteModel]
      · rw [nonStandardStep_model opts c h6, ih (c2 :: rest) hlen2]
        simp [byteModel]
      · rw [otherStep_model opts c h1 h4 h5 h6, ih (c2 :: rest) hlen2]
        simp [byteModel]

/-! ### C5: supporting facts -/

theorem take_append_left {α : Type} (A B : List α) :
    (A ++ B).take A.length = A := by
  have h := take_append_len A B 0
  simpa using h

theorem joinLines_length_ge (CL : List (List Nat × NewLineMarker)) :
    CL.length ≤ (joinLines CL).length := by
  induction CL with
  | nil => simp [joinLines]
  | cons e tl ih =>
    have := marker_bytes_len_pos e.2
    simp [joinLines]
    omega

theorem lastNonWs_joinLines_lt (CL : List (List Nat × NewLineMarker))
    (h : CL ≠ []) :
    lastNonWs (joinLines CL) < (joinLines CL).length := by
  induction CL using List.reverseRecOn with
  | nil => exact absurd rfl h
  | append_singleton CL' e ih =>
    rw [joinLines_concat, lastNonWs_append_marker]
    have h1 := lastNonWs_le (joinLines CL' ++ e.1)
    have h2 := marker_bytes_len_pos e.2
    simp only [List.length_append] at h1 ⊢
    omega

theorem take_joinLines_lenei (CL : List (List Nat × NewLineMarker)) :
    (joinLines CL).take (leneiOf CL) = joinLines (CL.take (lnOf CL)) := by
  have ht : joinLines (CL.take (lnOf CL)) ++ joinLines (CL.drop (lnOf CL)) =
      joinLines CL := by
    rw [← joinLines_append, List.take_append_drop]
  unfold leneiOf
  rw [← ht, take_append_left]

theorem lnOf_eq_length_of_lenei_full (CL : List (List Nat × NewLineMarker))
    (h : (joinLines CL).length ≤ leneiOf CL) :
    lnOf CL = CL.length := by
  have ht : joinLines (CL.take (lnOf CL)) ++ joinLines (CL.drop (lnOf CL)) =
      joinLines CL := by
    rw [← joinLines_append, List.take_append_drop]
  have hlen := congrArg List.length ht
  have hge := joinLines_length_ge (CL.drop (lnOf CL))
  have hdl : (CL.drop (lnOf CL)).length = CL.length - lnOf CL := by simp
  have hl := lnOf_le CL
  unfold leneiOf at h
  simp only [List.length_append] at hlen
  omega

theorem rule3_noop (W : WriterImpl σ) (opts : Options) (target : NewLineMarker)
    (s : ScanState σ) (h : opts.add_new_line_marker_at_end_of_file = false) :
    rule3 W opts target s = s := by
  unfold rule3
  split_ifs with hc
  · rw [h] at hc
    exact absurd hc.1 (by simp)
  · rfl

theorem initialState_eq_midState :
    (initialState ([] : List Nat)) = midState [] [] [] := rfl

theorem rule1_disj (opts : Options) (s : ScanState (List Nat)) :
    (¬(opts.remove_trailing_whitespace = true ∧
        s.last_end_of_line_including_eol_marker < s.writer.length ∧
        s.last_non_whitespace < s.writer.length) ∧
      rule1 vecWriter opts s = s) ∨
    (opts.remove_trailing_whitespace = true ∧
      s.last_end_of_line_including_eol_marker < s.writer.length ∧
      s.last_non_whitespace < s.writer.length ∧
      rule1 vecWriter opts s = { s with
        changes := s.changes ++
          [⟨s.line_number, ChangeType.RemovedTrailingWhitespace⟩],
        writer := s.writer.take s.last_non_whitespace }) := by
  unfold rule1
  split_ifs with h
  · right
    simp only [vecWriter] at h
    exact ⟨h.1, h.2.1, h.2.2, rfl⟩
  · left
    simp only [vecWriter] at h
    exact ⟨h, rfl⟩

theorem rule2_disj (opts : Options) (s : ScanState (List Nat)) :
    (¬(opts.remove_trailing_empty_lines = true ∧
        s.last_end_of_line_including_eol_marker = s.writer.length ∧
        s.last_end_of_non_empty_line_including_eol_marker < s.writer.length) ∧
      rule2 vecWriter opts s = s) ∨
    (opts.remove_trailing_empty_lines = true ∧
      s.last_end_of_line_including_eol_marker = s.writer.length ∧
      s.last_end_of_non_empty_line_including_eol_marker < s.writer.length ∧
      rule2 vecWriter opts s = { s with
        line_number := s.last_non_empty_line_number + 1,
        last_end_of_line_including_eol_marker :=
          s.last_end_of_non_empty_line_including_eol_marker,
        changes := s.changes ++
          [⟨s.last_non_empty_line_number + 1, ChangeType.RemovedEmptyLines⟩],
        writer := s.writer.take
          s.last_end_of_non_empty_line_including_eol_marker }) := by
  unfold rule2
  split_ifs with h
  · right
    simp only [vecWriter] at h
    exact ⟨h.1, h.2.1, h.2.2, rfl⟩
  · left
    simp only [vecWriter] at h
    exact ⟨h, rfl⟩

theorem rule4_fire (opts : Options) (s : ScanState (List Nat))
    (h1 : opts.remove_new_line_marker_from_end_of_file = true)
    (h2 : s.last_end_of_line_including_eol_marker = s.writer.length)
    (h3 : 2 ≤ s.line_number) :
    rule4 vecWriter opts s = { s with
      line_number := s.last_non_empty_line_number,
      changes := s.changes ++
        [⟨s.last_non_empty_line_number,
          ChangeType.NewLineMarkerRemovedFromEndOfFile⟩],
      writer := s.writer.take
        s.last_end_of_non_empty_line_excluding_eol_marker } := by
  unfold rule4
  rw [if_pos ⟨h1, h2, h3⟩]
  rfl

/-- C5: remove end-of-file marker (post-processing rule 4).  With
remove-eof-marker enabled in a valid configuration, when after the previous
adjustments the output ends exactly at a marker boundary and at least one
line was produced, the state decomposes as closed lines `D` followed by a
final non-empty line `e`: the buffer is `joinLines D ++ e.1 ++ e.2.to_bytes`,
and rule 4 rewinds past exactly that one final marker `e.2` to the line's
un-terminated end and records `NewLineMarkerRemovedFromEndOfFile` at line
`D.length + 1`, the (1-based) number of the line that lost its
terminator. -/
theorem c5_remove_eof_marker (input : List Nat) (opts : Options)
    (s3 : ScanState (List Nat))
    (hv : ValidOptions opts)
    (hrem : opts.remove_new_line_marker_from_end_of_file = true)
    (hs3 : s3 = rule3 vecWriter opts (resolveNewLineMarker opts input)
      (rule2 vecWriter opts (rule1 vecWriter opts
        (scanLoop vecWriter opts (resolveNewLineMarker opts input) input
          (initialState [])))))
    (hb : s3.last_end_of_line_including_eol_marker = s3.writer.length)
    (hl : 2 ≤ s3.line_number) :
    ∃ (D : List (List Nat × NewLineMarker)) (e : List Nat × NewLineMarker),
      e.1 ≠ [] ∧
      s3.writer = joinLines D ++ e.1 ++ e.2.to_bytes ∧
      s3.last_non_empty_line_number = D.length + 1 ∧
      rule4 vecWriter opts s3 =
        { s3 with
          line_number := D.length + 1,
          changes := s3.changes ++
            [⟨D.length + 1, ChangeType.NewLineMarkerRemovedFromEndOfFile⟩],
          writer := joinLines D ++ e.1 } := by
  obtain ⟨v1, v2, v3⟩ := hv
  have hrte := v3 hrem
  have hadd : opts.add_new_line_marker_at_end_of_file = false := by
    cases hA : opts.add_new_line_marker_at_end_of_file
    · rfl
    · exact absurd ⟨hA, hrem⟩ v2
  rw [rule3_noop _ _ _ _ hadd] at hs3
  rcases hM : scanModel opts (resolveNewLineMarker opts input) input [] [] []
    with ⟨CL, q, ch⟩
  have hscan : scanLoop vecWriter opts (resolveNewLineMarker opts input) input
      (initialState []) = midState CL q ch := by
    rw [initialState_eq_midState,
      scanLoop_model opts (resolveNewLineMarker opts input) input.length input
        le_rfl, hM]
  rw [hscan] at hs3
  rcases rule1_disj opts (midState CL q ch) with ⟨hn1, he1⟩ | ⟨ha1, hb1, hc1, he1⟩
  · -- the end-of-scan trailing-whitespace rule did not fire
    rw [he1] at hs3
    rcases rule2_disj opts (midState CL q ch) with
      ⟨hn2, he2⟩ | ⟨ha2, hb2, hc2, he2⟩
    · -- neither rule fired: the scan state itself ends at a marker boundary
      rw [he2] at hs3
      have hbb : (joinLines CL).length = (joinLines CL ++ q).length := by
        have h0 := hb
        rw [hs3] at h0
        exact h0
      have hq : q = [] := by
        rw [List.length_append] at hbb
        exact List.eq_nil_of_length_eq_zero (by omega)
      subst hq
      have hll : 2 ≤ CL.length + 1 := by
        have h0 := hl
        rw [hs3] at h0
        exact h0
      have hlenei : (joinLines CL).length ≤ leneiOf CL := by
        by_contra hcon
        push_neg at hcon
        refine hn2 ⟨hrte, ?_, ?_⟩
        · rw [← hs3]
          exact hb
        · show leneiOf CL < (joinLines CL ++ ([] : List Nat)).length
          rw [List.append_nil]
          omega
      have hlnOf : lnOf CL = CL.length := lnOf_eq_length_of_lenei_full CL hlenei
      have hpos : 0 < lnOf CL := by omega
      obtain ⟨D, e, hDe, hne, hlei, hlee⟩ := lnOf_pos_decomp CL hpos
      rw [hlnOf, List.take_length] at hDe
      have hjoin : joinLines CL = joinLines D ++ e.1 ++ e.2.to_bytes := by
        rw [hDe, joinLines_concat]
      have hDlen : CL.length = D.length + 1 := by
        rw [hDe]
        simp
      have hwr3 : s3.writer = joinLines CL ++ ([] : List Nat) := by
        rw [hs3]
        rfl
      have hlnln3 : s3.last_non_empty_line_number = lnOf CL := by
        rw [hs3]
        rfl
      have hlee3 : s3.last_end_of_non_empty_line_excluding_eol_marker =
          leneeOf CL := by
        rw [hs3]
        rfl
      have htake : (joinLines D ++ e.1 ++ e.2.to_bytes).take
          ((joinLines D).length + e.1.length) = joinLines D ++ e.1 := by
        have hlen : (joinLines D).length + e.1.length =
            (joinLines D ++ e.1).length := by simp
        rw [hlen, take_append_left]
      refine ⟨D, e, hne, ?_, ?_, ?_⟩
      · rw [hwr3, List.append_nil, hjoin]
      · rw [hlnln3, hlnOf, hDlen]
      · rw [rule4_fire opts s3 hrem hb hl, hlnln3, hlnOf, hDlen, hlee3, hlee,
          hwr3, List.append_nil, hjoin, htake]
    · -- only the trailing-empty-lines rule fired
      rw [he2] at hs3
      have hbb : (joinLines CL).length = (joinLines CL ++ q).length := hb2
      have hq : q = [] := by
        rw [List.length_append] at hbb
        exact List.eq_nil_of_length_eq_zero (by omega)
      subst hq
      have hln3 : s3.line_number = lnOf CL + 1 := by
        rw [hs3]
        rfl
      have hll : 2 ≤ lnOf CL + 1 := by
        have h0 := hl
        rw [hln3] at h0
        exact h0
      have hpos : 0 < lnOf CL := by omega
      obtain ⟨D, e, hDe, hne, hlei, hlee⟩ := lnOf_pos_decomp CL hpos
      have hlnD : lnOf CL = D.length + 1 := by
        have h0 := congrArg List.length hDe
        have h1 := lnOf_le CL
        simp only [List.length_take, List.length_append,
          List.length_singleton] at h0
        omega
      have hwr3 : s3.writer =
          (joinLines CL ++ ([] : List Nat)).take (leneiOf CL) := by
        rw [hs3]
        rfl
      have hwr3' : s3.writer = joinLines D ++ e.1 ++ e.2.to_bytes := by
        rw [hwr3, List.append_nil, take_joinLines_lenei, hDe, joinLines_concat]
      have hlnln3 : s3.last_non_empty_line_number = lnOf CL := by
        rw [hs3]
        rfl
      have hlee3 : s3.last_end_of_non_empty_line_excluding_eol_marker =
          leneeOf CL := by
        rw [hs3]
        rfl
      have htake : (joinLines D ++ e.1 ++ e.2.to_bytes).take
          ((joinLines D).length + e.1.length) = joinLines D ++ e.1 := by
        have hlen : (joinLines D).length + e.1.length =
            (joinLines D ++ e.1).length := by simp
        rw [hlen, take_append_left]
      refine ⟨D, e, hne, hwr3', ?_, ?_⟩
      · rw [hlnln3, hlnD]
      · rw [rule4_fire opts s3 hrem hb hl, hlnln3, hlnD, hlee3, hlee, hwr3',
          htake]
  · -- the end-of-scan trailing-whitespace rule fired: the buffer can no
    -- longer end at a marker boundary, contradiction
    rw [he1] at hs3
    have hR1len : ((joinLines CL ++ q).take
        (lastNonWs (joinLines CL ++ q))).length =
        lastNonWs (joinLines CL ++ q) := by
      have h0 := lastNonWs_le (joinLines CL ++ q)
      rw [List.length_take]
      omega
    have hCLne : CL ≠ [] → lastNonWs (joinLines CL) < (joinLines CL).length :=
      lastNonWs_joinLines_lt CL
    rcases rule2_disj opts
      { midState CL q ch with
        changes := (midState CL q ch).changes ++
          [⟨(midState CL q ch).line_number,
            ChangeType.RemovedTrailingWhitespace⟩],
        writer := (midState CL q ch).writer.take
          (midState CL q ch).last_non_whitespace } with
      ⟨hn2, he2⟩ | ⟨ha2, hb2, hc2, he2⟩
    · rw [he2] at hs3
      have hBB : (joinLines CL).length = lastNonWs (joinLines CL ++ q) := by
        have h0 := hb
        rw [hs3] at h0
        have h0' : (joinLines CL).length =
            ((joinLines CL ++ q).take
              (lastNonWs (joinLines CL ++ q))).length := h0
        rw [hR1len] at h0'
        exact h0'
      have hLL : 2 ≤ CL.length + 1 := by
        have h0 := hl
        rw [hs3] at h0
        exact h0
      have hCL : CL ≠ [] := by
        intro hcon
        subst hcon
        simp at hLL
      exfalso
      rw [lastNonWs_append] at hBB
      split_ifs at hBB with hq0
      · have := hCLne hCL
        omega
      · have h1 := lastNonWs_le q
        omega
    · rw [he2] at hs3
      have hBB : (joinLines CL).length = lastNonWs (joinLines CL ++ q) := by
        have h0 : (joinLines CL).length =
            ((joinLines CL ++ q).take
              (lastNonWs (joinLines CL ++ q))).length := hb2
        rw [hR1len] at h0
        exact h0
      have hLL : 2 ≤ lnOf CL + 1 := by
        have h0 := hl
        rw [hs3] at h0
        exact h0
      have hCL : CL ≠ [] := by
        intro hcon
        subst hcon
        have h1 : lnOf ([] : List (List Nat × NewLineMarker)) = 0 := rfl
        omega
      exfalso
      rw [lastNonWs_append] at hBB
      split_ifs at hBB with hq0
      · have := hCLne hCL
        omega
      · have h1 := lastNonWs_le q
        omega

/-- Configuration for the C5 witness: remove the end-of-file marker (which
entails removing trailing empty lines). -/
def c5Options : Options :=
  { baseOptions with
    remove_new_line_marker_from_end_of_file := true
    remove_trailing_empty_lines := true }

/-- The state reached on input "a\n" after the scan and the first three
post-processing rules, under the C5 witness configuration. -/
def c5state : ScanState (List Nat) :=
  rule3 vecWriter c5Options (resolveNewLineMarker c5Options [97, 10])
    (rule2 vecWriter c5Options (rule1 vecWriter c5Options
      (scanLoop vecWriter c5Options (resolveNewLineMarker c5Options [97, 10])
        [97, 10] (initialState []))))

theorem c5_witness :
    ValidOptions c5Options ∧
    c5state.last_end_of_line_including_eol_marker = c5state.writer.length ∧
    2 ≤ c5state.line_number ∧
    (∃ (D : List (List Nat × NewLineMarker)) (e : List Nat × NewLineMarker),
      e.1 ≠ [] ∧
      c5state.writer = joinLines D ++ e.1 ++ e.2.to_bytes ∧
      c5state.last_non_empty_line_number = D.length + 1 ∧
      rule4 vecWriter c5Options c5state =
        { c5state with
          line_number := D.length + 1,
          changes := c5state.changes ++
            [⟨D.length + 1, ChangeType.NewLineMarkerRemovedFromEndOfFile⟩],
          writer := joinLines D ++ e.1 }) :=
  ⟨by decide, by decide, by decide,
   c5_remove_eof_marker [97, 10] c5Options c5state (by decide) (by decide) rfl
     (by decide) (by decide)⟩

/-! ### C2: canonical line decomposition of the input -/

/-- A byte list without new line marker bytes. -/
def markerFree (l : List Nat) : Prop :=
  ∀ b ∈ l, ¬(b = CARRIAGE_RETURN ∨ b = LINE_FEED)

/-- Prepend a byte to the content of the first parsed line (or to the
unterminated tail when no line exists). -/
def consCurrent (c : Nat) :
    List (List Nat × NewLineMarker) × List Nat →
    List (List Nat × NewLineMarker) × List Nat
  | ([], r) => ([], c :: r)
  | ((l, mk) :: tl, r) => ((c :: l, mk) :: tl, r)

/-- Split a byte list into its new-line-terminated lines (with the marker
of each line, CRLF decoded with lookahead exactly as the scanner does) and
the unterminated tail. -/
def parseLines : List Nat → List (List Nat × NewLineMarker) × List Nat
  | [] => ([], [])
  | [c] =>
    if c = CARRIAGE_RETURN ∨ c = LINE_FEED then
      if c = LINE_FEED then ([([], NewLineMarker.Linux)], [])
      else ([([], NewLineMarker.MacOs)], [])
    else ([], [c])
  | c :: c2 :: rest =>
    if c = CARRIAGE_RETURN ∨ c = LINE_FEED then
      if c = LINE_FEED then
        (([], NewLineMarker.Linux) :: (parseLines (c2 :: rest)).1,
         (parseLines (c2 :: rest)).2)
      else if c2 = LINE_FEED then
        (([], NewLineMarker.Windows) :: (parseLines rest).1,
         (parseLines rest).2)
      else
        (([], NewLineMarker.MacOs) :: (parseLines (c2 :: rest)).1,
         (parseLines (c2 :: rest)).2)
    else consCurrent c (parseLines (c2 :: rest))

/-- Concatenation of all per-byte scanner emissions of a line. -/
def flatImage (opts : Options) : List Nat → List Nat
  | [] => []
  | b :: tl => byteImage opts b ++ flatImage opts tl

/-- Concatenation of all per-byte scanner change records of a line read at
line number `n`. -/
def lineChanges (opts : Options) (n : Nat) : List Nat → List Change
  | [] => []
  | b :: tl => byteChanges opts n b ++ lineChanges opts n tl

/-- The closed output lines the scanner produces for the parsed input
lines, given the bytes `q` already emitted for the first line. -/
def closedOf (opts : Options) (target : NewLineMarker) :
    List Nat → List (List Nat × NewLineMarker) →
    List (List Nat × NewLineMarker)
  | _, [] => []
  | q, (l, mk) :: tl =>
    (closedContent opts (q ++ flatImage opts l),
     emittedMarker opts target mk) :: closedOf opts target [] tl

/-- The bytes the scanner has emitted for the unterminated final line. -/
def tailOf (opts : Options) (q : List Nat)
    (P : List (List Nat × NewLineMarker) × List Nat) : List Nat :=
  match P.1 with
  | [] => q ++ flatImage opts P.2
  | _ :: _ => flatImage opts P.2

/-- All change records the scanner produces for parsed lines `PL` and tail
`r`, starting at line number `n` with pending first-line bytes `q`. -/
def changesOf (opts : Options) (target : NewLineMarker) :
    Nat → List Nat → List (List Nat × NewLineMarker) → List Nat → List Change
  | n, _, [], r => lineChanges opts n r
  | n, q, (l, mk) :: tl, r =>
    lineChanges opts n l ++
    closeChanges opts target n (q ++ flatImage opts l) mk ++
    changesOf opts target (n + 1) [] tl r

theorem joinParse : ∀ (n : Nat) (x : List Nat), x.length ≤ n →
    joinLines (parseLines x).1 ++ (parseLines x).2 = x := by
  intro n
  induction n with
  | zero =>
    intro x hlen
    have : x = [] := List.eq_nil_of_length_eq_zero (Nat.le_zero.mp hlen)
    subst this
    rfl
  | succ k ih =>
    intro x hlen
    match x with
    | [] => rfl
    | [c] =>
      simp only [parseLines]
      split_ifs with h1 h2
      · subst h2
        simp [joinLines, NewLineMarker.to_bytes, LINE_FEED]
      · have hc : c = CARRIAGE_RETURN := by tauto
        subst hc
        simp [joinLines, NewLineMarker.to_bytes, CARRIAGE_RETURN]
      · simp [joinLines]
    | c :: c2 :: rest =>
      have hlen2 : (c2 :: rest).length ≤ k := by
        simp only [List.length] at hlen ⊢; omega
      have hlen3 : rest.length ≤ k := by
        simp only [List.length] at hlen ⊢; omega
      simp only [parseLines]
      split_ifs with h1 h2 h3
      · subst h2
        have := ih (c2 :: rest) hlen2
        simp [joinLines, NewLineMarker.to_bytes, LINE_FEED, this]
      · have hc : c = CARRIAGE_RETURN := by tauto
        subst hc
        subst h3
        have := ih rest hlen3
        simp [joinLines, NewLineMarker.to_bytes, CARRIAGE_RETURN, LINE_FEED,
          this]
      · have hc : c = CARRIAGE_RETURN := by tauto
        subst hc
        have := ih (c2 :: rest) hlen2
        simp [joinLines, NewLineMarker.to_bytes, CARRIAGE_RETURN, this]
      · have := ih (c2 :: rest) hlen2
        rcases hP : parseLines (c2 :: rest) with ⟨PL, r⟩
        rw [hP] at this
        match PL with
        | [] =>
          simp [consCurrent, joinLines] at this ⊢
          exact this
        | (l, mk) :: tl =>
          simp only [consCurrent, joinLines] at this ⊢
          simp only [List.cons_append, List.append_assoc] at this ⊢
          rw [this]

theorem scanModel_parse (opts : Options) (target : NewLineMarker) :
    ∀ (n : Nat) (input : List Nat), input.length ≤ n →
    ∀ (CL : List (List Nat × NewLineMarker)) (q : List Nat) (ch : List Change),
    scanModel opts target input CL q ch =
      (CL ++ closedOf opts target q (parseLines input).1,
       tailOf opts q (parseLines input),
       ch ++ changesOf opts target (CL.length + 1) q (parseLines input).1
         (parseLines input).2) := by
  intro n
  induction n with
  | zero =>
    intro input hlen CL q ch
    have : input = [] := List.eq_nil_of_length_eq_zero (Nat.le_zero.mp hlen)
    subst this
    simp [scanModel, parseLines, closedOf, tailOf, changesOf, lineChanges,
      flatImage]
  | succ k ih =>
    intro input hlen CL q ch
    match input with
    | [] =>
      simp [scanModel, parseLines, closedOf, tailOf, changesOf, lineChanges,
        flatImage]
    | [c] =>
      simp only [scanModel, parseLines]
      split_ifs with h1 h2
      · simp [closeModel, closedOf, tailOf, changesOf, lineChanges,
          flatImage, closeChanges]
      · simp [closeModel, closedOf, tailOf, changesOf, lineChanges,
          flatImage, closeChanges]
      · simp [byteModel, closedOf, tailOf, changesOf, lineChanges, flatImage]
    | c :: c2 :: rest =>
      have hlen2 : (c2 :: rest).length ≤ k := by
        simp only [List.length] at hlen ⊢; omega
      have hlen3 : rest.length ≤ k := by
        simp only [List.length] at hlen ⊢; omega
      simp only [scanModel, parseLines]
      split_ifs with h1 h2 h3
      · rw [show (closeModel opts target NewLineMarker.Linux CL q ch) =
          (CL ++ [(closedContent opts q, emittedMarker opts target
            NewLineMarker.Linux)], [],
           ch ++ closeChanges opts target (CL.length + 1) q
             NewLineMarker.Linux) from rfl]
        rw [ih (c2 :: rest) hlen2]
        simp [closedOf, tailOf, changesOf, lineChanges, flatImage]
        rcases hPP : (parseLines (c2 :: rest)).1 with _ | ⟨e, tl⟩ <;> simp [hPP]
      · rw [show (closeModel opts target NewLineMarker.Windows CL q ch) =
          (CL ++ [(closedContent opts q, emittedMarker opts target
            NewLineMarker.Windows)], [],
           ch ++ closeChanges opts target (CL.length + 1) q
             NewLineMarker.Windows) from rfl]
        rw [ih rest hlen3]
        simp [closedOf, tailOf, changesOf, lineChanges, flatImage]
        rcases hPP : (parseLines rest).1 with _ | ⟨e, tl⟩ <;> simp [hPP]
      · rw [show (closeModel opts target NewLineMarker.MacOs CL q ch) =
          (CL ++ [(closedContent opts q, emittedMarker opts target
            NewLineMarker.MacOs)], [],
           ch ++ closeChanges opts target (CL.length + 1) q
             NewLineMarker.MacOs) from rfl]
        rw [ih (c2 :: rest) hlen2]
        simp [closedOf, tailOf, changesOf, lineChanges, flatImage]
        rcases hPP : (parseLines (c2 :: rest)).1 with _ | ⟨e, tl⟩ <;> simp [hPP]
      · rw [show (byteModel opts c CL q ch) =
          (CL, q ++ byteImage opts c,
           ch ++ byteChanges opts (CL.length + 1) c) from rfl]
        rw [ih (c2 :: rest) hlen2]
        rcases hP : parseLines (c2 :: rest) with ⟨PL, r⟩
        match PL with
        | [] =>
          simp [consCurrent, closedOf, tailOf, changesOf, lineChanges,
            flatImage, List.append_assoc]
        | (l, mk) :: tl =>
          simp [consCurrent, closedOf, tailOf, changesOf, lineChanges,
            flatImage, List.append_assoc]

theorem byteChanges_nil_image (opts : Options) (n : Nat) (b : Nat)
    (h : byteChanges opts n b = []) : byteImage opts b = [b] := by
  by_cases h1 : b = SPACE
  · subst h1
    simp [byteImage]
  · by_cases h2 : b = TAB
    · subst h2
      rcases lt_trichotomy opts.replace_tabs_with_spaces 0 with hk | hk | hk
      · simp [byteImage, TAB, SPACE, hk]
      · rw [show byteChanges opts n TAB = [⟨n, ChangeType.RemovedTab⟩] from by
          simp [byteChanges, TAB, SPACE, hk]] at h
        simp at h
      · rw [show byteChanges opts n TAB =
          [⟨n, ChangeType.ReplacedTabWithSpaces⟩] from by
          simp [byteChanges, TAB, SPACE, hk, not_lt_of_gt hk]] at h
        simp at h
    · by_cases h3 : b = VERTICAL_TAB ∨ b = FORM_FEED
      · simp only [byteChanges, byteImage, if_neg h1, if_neg h2,
          if_pos h3] at h ⊢
        cases hm : opts.normalize_non_standard_whitespace <;> simp_all
      · simp [byteImage, if_neg h1, if_neg h2, if_neg h3]

theorem closeChanges_nil (opts : Options) (target : NewLineMarker) (nn : Nat)
    (Lq : List Nat) (m : NewLineMarker)
    (h : closeChanges opts target nn Lq m = []) :
    closedContent opts Lq = Lq ∧ emittedMarker opts target m = m := by
  unfold closeChanges at h
  have h1 : ¬(opts.remove_trailing_whitespace = true ∧
      lastNonWs Lq < Lq.length) := by
    intro hc
    rw [if_pos hc] at h
    simp at h
  have h2 : ¬(opts.normalize_new_line_markers = true ∧ ¬target = m) := by
    intro hc
    rw [if_pos hc] at h
    simp at h
  constructor
  · unfold closedContent
    rw [if_neg h1]
  · unfold emittedMarker
    rw [if_neg h2]

theorem lineChanges_nil_flat (opts : Options) (n : Nat) (l : List Nat)
    (h : lineChanges opts n l = []) : flatImage opts l = l := by
  induction l with
  | nil => rfl
  | cons b tl ih =>
    simp only [lineChanges, List.append_eq_nil] at h
    simp only [flatImage, byteChanges_nil_image opts n b h.1, ih h.2]
    rfl

theorem changesOf_nil (opts : Options) (target : NewLineMarker) :
    ∀ (PL : List (List Nat × NewLineMarker)) (nn : Nat) (r : List Nat),
    changesOf opts target nn [] PL r = [] →
    closedOf opts target [] PL = PL ∧ flatImage opts r = r := by
  intro PL
  induction PL with
  | nil =>
    intro nn r h
    exact ⟨rfl, lineChanges_nil_flat opts nn r h⟩
  | cons e tl ih =>
    intro nn r h
    rcases e with ⟨l, mk⟩
    simp only [changesOf, List.append_eq_nil] at h
    obtain ⟨⟨hl, hc⟩, hrest⟩ := h
    have hfl := lineChanges_nil_flat opts nn l hl
    obtain ⟨hcc, hem⟩ := closeChanges_nil opts target nn
      ([] ++ flatImage opts l) mk hc
    obtain ⟨ih1, ih2⟩ := ih (nn + 1) r hrest
    refine ⟨?_, ih2⟩
    have hcc' : closedContent opts (flatImage opts l) = flatImage opts l := by
      simpa using hcc
    have hcl : closedContent opts l = l := hfl ▸ hcc'
    simp [closedOf, ih1, hcc', hcl, hfl, hem]

theorem rule3_disj (opts : Options) (target : NewLineMarker)
    (s : ScanState (List Nat)) :
    (¬(opts.add_new_line_marker_at_end_of_file = true ∧
        s.last_end_of_line_including_eol_marker < s.writer.length) ∧
      rule3 vecWriter opts target s = s) ∨
    (opts.add_new_line_marker_at_end_of_file = true ∧
      s.last_end_of_line_including_eol_marker < s.writer.length ∧
      rule3 vecWriter opts target s = { s with
        changes := s.changes ++
          [⟨s.line_number, ChangeType.NewLineMarkerAddedToEndOfFile⟩],
        writer := s.writer ++ target.to_bytes,
        last_end_of_line_including_eol_marker :=
          (s.writer ++ target.to_bytes).length,
        line_number := s.line_number + 1 }) := by
  unfold rule3
  split_ifs with h
  · right
    simp only [vecWriter] at h ⊢
    exact ⟨h.1, h.2, by trivial⟩
  · left
    simp only [vecWriter] at h
    exact ⟨h, rfl⟩

theorem rule4_disj (opts : Options) (s : ScanState (List Nat)) :
    (¬(opts.remove_new_line_marker_from_end_of_file = true ∧
        s.last_end_of_line_including_eol_marker = s.writer.length ∧
        2 ≤ s.line_number) ∧
      rule4 vecWriter opts s = s) ∨
    (opts.remove_new_line_marker_from_end_of_file = true ∧
      s.last_end_of_line_including_eol_marker = s.writer.length ∧
      2 ≤ s.line_number ∧
      rule4 vecWriter opts s = { s with
        line_number := s.last_non_empty_line_number,
        changes := s.changes ++
          [⟨s.last_non_empty_line_number,
            ChangeType.NewLineMarkerRemovedFromEndOfFile⟩],
        writer := s.writer.take
          s.last_end_of_non_empty_line_excluding_eol_marker }) := by
  unfold rule4
  split_ifs with h
  · right
    simp only [vecWriter] at h ⊢
    exact ⟨h.1, h.2.1, h.2.2, by trivial⟩
  · left
    simp only [vecWriter] at h
    exact ⟨h, rfl⟩

/-- All line contents of a parsed line list are marker-free. -/
def contentsFree (X : List (List Nat × NewLineMarker)) : Prop :=
  ∀ e ∈ X, markerFree e.1

theorem consCurrent_fst_length (c : Nat)
    (P : List (List Nat × NewLineMarker) × List Nat) :
    (consCurrent c P).1.length = P.1.length := by
  rcases P with ⟨PL, r⟩
  match PL with
  | [] => rfl
  | (l, mk) :: tl => rfl

theorem parse_of_markerFree : ∀ (n : Nat) (y : List Nat), y.length ≤ n →
    markerFree y → parseLines y = ([], y) := by
  intro n
  induction n with
  | zero =>
    intro y hlen hy
    have : y = [] := List.eq_nil_of_length_eq_zero (Nat.le_zero.mp hlen)
    subst this
    rfl
  | succ k ih =>
    intro y hlen hy
    match y with
    | [] => rfl
    | [c] =>
      have hc := hy c (by simp)
      simp [parseLines, hc]
    | c :: c2 :: rest =>
      have hc := hy c (by simp)
      have hlen2 : (c2 :: rest).length ≤ k := by
        simp only [List.length] at hlen ⊢; omega
      have hy2 : markerFree (c2 :: rest) := by
        intro b hb
        exact hy b (by simp [hb])
      simp only [parseLines, if_neg hc]
      rw [ih (c2 :: rest) hlen2 hy2]
      rfl

theorem join_head_lf (tl : List (List Nat × NewLineMarker)) (y Z : List Nat)
    (htl : contentsFree tl) (hy : markerFree y)
    (h : joinLines tl ++ y = LINE_FEED :: Z) :
    ∃ tl', tl = ([], NewLineMarker.Linux) :: tl' ∧ Z = joinLines tl' ++ y := by
  match tl with
  | [] =>
    simp only [joinLines, List.nil_append] at h
    have := hy LINE_FEED (by rw [h]; simp)
    simp at this
  | (l, mk) :: tl' =>
    match l with
    | c :: l' =>
      have hcf := htl (c :: l', mk) (by simp)
      have := hcf c (by simp)
      simp only [joinLines, List.cons_append] at h
      rw [List.cons.injEq] at h
      simp [h.1] at this
    | [] =>
      cases mk with
      | Linux =>
        refine ⟨tl', rfl, ?_⟩
        simp only [joinLines, NewLineMarker.to_bytes, List.nil_append,
          List.cons_append, List.append_assoc] at h
        rw [List.cons.injEq] at h
        rw [← h.2]
      | MacOs =>
        simp only [joinLines, NewLineMarker.to_bytes, List.nil_append,
          List.cons_append] at h
        rw [List.cons.injEq] at h
        simp [CARRIAGE_RETURN, LINE_FEED] at h
      | Windows =>
        simp only [joinLines, NewLineMarker.to_bytes, List.nil_append,
          List.cons_append] at h
        rw [List.cons.injEq] at h
        simp [CARRIAGE_RETURN, LINE_FEED] at h

theorem parse_free : ∀ (n : Nat) (x : List Nat), x.length ≤ n →
    contentsFree (parseLines x).1 ∧ markerFree (parseLines x).2 := by
  intro n
  induction n with
  | zero =>
    intro x hlen
    have : x = [] := List.eq_nil_of_length_eq_zero (Nat.le_zero.mp hlen)
    subst this
    exact ⟨by intro e he; simp [parseLines] at he, by intro b hb; simp [parseLines] at hb⟩
  | succ k ih =>
    intro x hlen
    match x with
    | [] =>
      exact ⟨by intro e he; simp [parseLines] at he,
        by intro b hb; simp [parseLines] at hb⟩
    | [c] =>
      simp only [parseLines]
      split_ifs with h1 h2
      · refine ⟨?_, by intro b hb; simp at hb⟩
        intro e he
        simp at he
        subst he
        intro b hb
        simp at hb
      · refine ⟨?_, by intro b hb; simp at hb⟩
        intro e he
        simp at he
        subst he
        intro b hb
        simp at hb
      · refine ⟨by intro e he; simp at he, ?_⟩
        intro b hb
        simp at hb
        subst hb
        exact h1
    | c :: c2 :: rest =>
      have hlen2 : (c2 :: rest).length ≤ k := by
        simp only [List.length] at hlen ⊢; omega
      have hlen3 : rest.length ≤ k := by
        simp only [List.length] at hlen ⊢; omega
      simp only [parseLines]
      split_ifs with h1 h2 h3
      · obtain ⟨ihc, iht⟩ := ih (c2 :: rest) hlen2
        refine ⟨?_, iht⟩
        intro e he
        simp at he
        rcases he with he | he
        · subst he; intro b hb; simp at hb
        · exact ihc e he
      · obtain ⟨ihc, iht⟩ := ih rest hlen3
        refine ⟨?_, iht⟩
        intro e he
        simp at he
        rcases he with he | he
        · subst he; intro b hb; simp at hb
        · exact ihc e he
      · obtain ⟨ihc, iht⟩ := ih (c2 :: rest) hlen2
        refine ⟨?_, iht⟩
        intro e he
        simp at he
        rcases he with he | he
        · subst he; intro b hb; simp at hb
        · exact ihc e he
      · obtain ⟨ihc, iht⟩ := ih (c2 :: rest) hlen2
        rcases hP : parseLines (c2 :: rest) with ⟨PL, r⟩
        rw [hP] at ihc iht
        match PL with
        | [] =>
          refine ⟨by intro e he; simp [consCurrent] at he, ?_⟩
          intro b hb
          simp [consCurrent] at hb
          rcases hb with hb | hb
          · subst hb; exact h1
          · exact iht b hb
        | (l, mk) :: tl =>
          refine ⟨?_, iht⟩
          intro e he
          simp [consCurrent] at he
          rcases he with he | he
          · subst he
            intro b hb
            simp at hb
            rcases hb with hb | hb
            · subst hb; exact h1
            · exact ihc (l, mk) (by simp) b hb
          · exact ihc e (by simp [he])

theorem parse_lf_cons (d : Nat) (R' : List Nat) :
    parseLines (LINE_FEED :: d :: R') =
      (([], NewLineMarker.Linux) :: (parseLines (d :: R')).1,
       (parseLines (d :: R')).2) := by
  simp [parseLines, LINE_FEED, CARRIAGE_RETURN]

theorem parse_lf_single :
    parseLines [LINE_FEED] = ([([], NewLineMarker.Linux)], []) := by
  simp [parseLines, LINE_FEED, CARRIAGE_RETURN]

theorem parse_crlf (Z : List Nat) :
    parseLines (CARRIAGE_RETURN :: LINE_FEED :: Z) =
      (([], NewLineMarker.Windows) :: (parseLines Z).1, (parseLines Z).2) := by
  simp [parseLines, LINE_FEED, CARRIAGE_RETURN]

theorem parse_cr_single :
    parseLines [CARRIAGE_RETURN] = ([([], NewLineMarker.MacOs)], []) := by
  simp [parseLines, LINE_FEED, CARRIAGE_RETURN]

theorem parse_cr_cons (d : Nat) (R' : List Nat) (hd : ¬(d = LINE_FEED)) :
    parseLines (CARRIAGE_RETURN :: d :: R') =
      (([], NewLineMarker.MacOs) :: (parseLines (d :: R')).1,
       (parseLines (d :: R')).2) := by
  simp only [parseLines]
  rw [if_pos (Or.inl trivial), if_neg (by decide : ¬(CARRIAGE_RETURN = LINE_FEED)),
    if_neg hd]

theorem parse_nonmarker_cons (c d : Nat) (R' : List Nat)
    (hc : ¬(c = CARRIAGE_RETURN ∨ c = LINE_FEED)) :
    parseLines (c :: d :: R') = consCurrent c (parseLines (d :: R')) := by
  simp only [parseLines, if_neg hc]

theorem parse_join_count : ∀ (n : Nat) (X : List (List Nat × NewLineMarker))
    (y : List Nat), (joinLines X ++ y).length ≤ n →
    contentsFree X → markerFree y →
    (parseLines (joinLines X ++ y)).1.length ≤ X.length := by
  intro n
  induction n with
  | zero =>
    intro X y hlen hX hy
    have h0 : joinLines X ++ y = [] :=
      List.eq_nil_of_length_eq_zero (Nat.le_zero.mp hlen)
    rw [h0]
    simp [parseLines]
  | succ k ih =>
    intro X y hlen hX hy
    match X with
    | [] =>
      rw [show joinLines [] ++ y = y from by simp [joinLines],
        parse_of_markerFree y.length y le_rfl hy]
    | (c :: l', mk) :: tl =>
      have hstream : joinLines ((c :: l', mk) :: tl) ++ y =
          c :: (joinLines ((l', mk) :: tl) ++ y) := by
        simp [joinLines]
      have hc : ¬(c = CARRIAGE_RETURN ∨ c = LINE_FEED) :=
        hX (c :: l', mk) (by simp) c (by simp)
      have hX' : contentsFree ((l', mk) :: tl) := by
        intro e he
        simp at he
        rcases he with he | he
        · subst he
          intro b hb
          exact hX (c :: l', mk) (by simp) b (by simp [hb])
        · exact hX e (by simp [he])
      have hlen' : (joinLines ((l', mk) :: tl) ++ y).length ≤ k := by
        have := congrArg List.length hstream
        simp only [List.length_cons] at this
        omega
      rw [hstream]
      have hmk := marker_bytes_len_pos mk
      match hR : joinLines ((l', mk) :: tl) ++ y with
      | [] =>
        have h0 := congrArg List.length hR
        rw [List.length_append] at h0
        have h1 := joinLines_length_ge ((l', mk) :: tl)
        simp only [List.length_cons, List.length_nil] at h0 h1
        omega
      | d :: R' =>
        rw [parse_nonmarker_cons c d R' hc, consCurrent_fst_length, ← hR]
        have := ih ((l', mk) :: tl) y (by rw [hR] at hlen' ⊢; exact hlen') hX' hy
        simpa using this
    | ([], NewLineMarker.Linux) :: tl =>
      have hstream : joinLines (([], NewLineMarker.Linux) :: tl) ++ y =
          LINE_FEED :: (joinLines tl ++ y) := by
        simp [joinLines, NewLineMarker.to_bytes]
      have hX' : contentsFree tl := by
        intro e he
        exact hX e (by simp [he])
      have hlen' : (joinLines tl ++ y).length ≤ k := by
        have := congrArg List.length hstream
        simp only [List.length_cons] at this
        omega
      rw [hstream]
      match hR : joinLines tl ++ y with
      | [] =>
        rw [parse_lf_single]
        simp
      | d :: R' =>
        rw [parse_lf_cons d R', ← hR]
        have := ih tl y (by rw [hR] at hlen' ⊢; exact hlen') hX' hy
        simp only [List.length_cons]
        omega
    | ([], NewLineMarker.Windows) :: tl =>
      have hstream : joinLines (([], NewLineMarker.Windows) :: tl) ++ y =
          CARRIAGE_RETURN :: LINE_FEED :: (joinLines tl ++ y) := by
        simp [joinLines, NewLineMarker.to_bytes]
      have hX' : contentsFree tl := by
        intro e he
        exact hX e (by simp [he])
      have hlen' : (joinLines tl ++ y).length ≤ k := by
        have := congrArg List.length hstream
        simp only [List.length_cons] at this
        omega
      rw [hstream, parse_crlf]
      have := ih tl y hlen' hX' hy
      simp only [List.length_cons]
      omega
    | ([], NewLineMarker.MacOs) :: tl =>
      have hstream : joinLines (([], NewLineMarker.MacOs) :: tl) ++ y =
          CARRIAGE_RETURN :: (joinLines tl ++ y) := by
        simp [joinLines, NewLineMarker.to_bytes]
      have hX' : contentsFree tl := by
        intro e he
        exact hX e (by simp [he])
      have hlen' : (joinLines tl ++ y).length ≤ k := by
        have := congrArg List.length hstream
        simp only [List.length_cons] at this
        omega
      rw [hstream]
      match hR : joinLines tl ++ y with
      | [] =>
        rw [parse_cr_single]
        simp
      | d :: R' =>
        by_cases hd : d = LINE_FEED
        · subst hd
          rw [parse_crlf]
          obtain ⟨tl', htl', hR'⟩ := join_head_lf tl y R' hX' hy hR
          have hX'' : contentsFree tl' := by
            intro e he
            exact hX' e (by simp [htl', he])
          have hlen'' : (joinLines tl' ++ y).length ≤ k := by
            rw [hR] at hlen'
            rw [← hR']
            simp only [List.length_cons] at hlen'
            omega
          have := ih tl' y hlen'' hX'' hy
          rw [← hR'] at this
          rw [htl']
          simp only [List.length_cons]
          omega
        · rw [parse_cr_cons d R' hd, ← hR]
          have := ih tl y (by rw [hR] at hlen' ⊢; exact hlen') hX' hy
          simp only [List.length_cons]
          omega

theorem parse_join_eq_or_lt : ∀ (n : Nat) (X : List (List Nat × NewLineMarker))
    (y : List Nat), (joinLines X ++ y).length ≤ n →
    contentsFree X → markerFree y →
    parseLines (joinLines X ++ y) = (X, y) ∨
    (parseLines (joinLines X ++ y)).1.length < X.length := by
  intro n
  induction n with
  | zero =>
    intro X y hlen hX hy
    have h0 : joinLines X ++ y = [] :=
      List.eq_nil_of_length_eq_zero (Nat.le_zero.mp hlen)
    have h1 : X = [] := by
      have h2 := joinLines_length_ge X
      have h3 := congrArg List.length h0
      rw [List.length_append] at h3
      simp only [List.length_nil] at h3
      exact List.eq_nil_of_length_eq_zero (by omega)
    have h2 : y = [] := by
      have h3 := congrArg List.length h0
      rw [List.length_append] at h3
      simp only [List.length_nil] at h3
      exact List.eq_nil_of_length_eq_zero (by omega)
    subst h1
    subst h2
    left
    rfl
  | succ k ih =>
    intro X y hlen hX hy
    match X with
    | [] =>
      left
      rw [show joinLines [] ++ y = y from by simp [joinLines],
        parse_of_markerFree y.length y le_rfl hy]
    | (c :: l', mk) :: tl =>
      have hstream : joinLines ((c :: l', mk) :: tl) ++ y =
          c :: (joinLines ((l', mk) :: tl) ++ y) := by
        simp [joinLines]
      have hc : ¬(c = CARRIAGE_RETURN ∨ c = LINE_FEED) :=
        hX (c :: l', mk) (by simp) c (by simp)
      have hX' : contentsFree ((l', mk) :: tl) := by
        intro e he
        simp at he
        rcases he with he | he
        · subst he
          intro b hb
          exact hX (c :: l', mk) (by simp) b (by simp [hb])
        · exact hX e (by simp [he])
      have hlen' : (joinLines ((l', mk) :: tl) ++ y).length ≤ k := by
        have := congrArg List.length hstream
        simp only [List.length_cons] at this
        omega
      rw [hstream]
      have hmk := marker_bytes_len_pos mk
      match hR : joinLines ((l', mk) :: tl) ++ y with
      | [] =>
        have h0 := congrArg List.length hR
        rw [List.length_append] at h0
        have h1 := joinLines_length_ge ((l', mk) :: tl)
        simp only [List.length_cons, List.length_nil] at h0 h1
        omega
      | d :: R' =>
        rw [parse_nonmarker_cons c d R' hc, ← hR]
        rcases ih ((l', mk) :: tl) y (by rw [hR] at hlen' ⊢; exact hlen')
          hX' hy with h | h
        · left
          rw [h]
          rfl
        · right
          rw [consCurrent_fst_length]
          simp only [List.length_cons] at h ⊢
          omega
    | ([], NewLineMarker.Linux) :: tl =>
      have hstream : joinLines (([], NewLineMarker.Linux) :: tl) ++ y =
          LINE_FEED :: (joinLines tl ++ y) := by
        simp [joinLines, NewLineMarker.to_bytes]
      have hX' : contentsFree tl := by
        intro e he
        exact hX e (by simp [he])
      have hlen' : (joinLines tl ++ y).length ≤ k := by
        have := congrArg List.length hstream
        simp only [List.length_cons] at this
        omega
      rw [hstream]
      match hR : joinLines tl ++ y with
      | [] =>
        have htl : tl = [] := by
          have h2 := joinLines_length_ge tl
          have h3 := congrArg List.length hR
          rw [List.length_append] at h3
          simp only [List.length_nil] at h3
          exact List.eq_nil_of_length_eq_zero (by omega)
        have hy0 : y = [] := by
          have h3 := congrArg List.length hR
          rw [List.length_append] at h3
          simp only [List.length_nil] at h3
          exact List.eq_nil_of_length_eq_zero (by omega)
        subst htl
        subst hy0
        left
        rw [parse_lf_single]
      | d :: R' =>
        rw [parse_lf_cons d R', ← hR]
        rcases ih tl y (by rw [hR] at hlen' ⊢; exact hlen') hX' hy with h | h
        · left
          rw [h]
        · right
          simp only [List.length_cons]
          omega
    | ([], NewLineMarker.Windows) :: tl =>
      have hstream : joinLines (([], NewLineMarker.Windows) :: tl) ++ y =
          CARRIAGE_RETURN :: LINE_FEED :: (joinLines tl ++ y) := by
        simp [joinLines, NewLineMarker.to_bytes]
      have hX' : contentsFree tl := by
        intro e he
        exact hX e (by simp [he])
      have hlen' : (joinLines tl ++ y).length ≤ k := by
        have := congrArg List.length hstream
        simp only [List.length_cons] at this
        omega
      rw [hstream, parse_crlf]
      rcases ih tl y hlen' hX' hy with h | h
      · left
        rw [h]
      · right
        simp only [List.length_cons]
        omega
    | ([], NewLineMarker.MacOs) :: tl =>
      have hstream : joinLines (([], NewLineMarker.MacOs) :: tl) ++ y =
          CARRIAGE_RETURN :: (joinLines tl ++ y) := by
        simp [joinLines, NewLineMarker.to_bytes]
      have hX' : contentsFree tl := by
        intro e he
        exact hX e (by simp [he])
      have hlen' : (joinLines tl ++ y).length ≤ k := by
        have := congrArg List.length hstream
        simp only [List.length_cons] at this
        omega
      rw [hstream]
      match hR : joinLines tl ++ y with
      | [] =>
        have htl : tl = [] := by
          have h2 := joinLines_length_ge tl
          have h3 := congrArg List.length hR
          rw [List.length_append] at h3
          simp only [List.length_nil] at h3
          exact List.eq_nil_of_length_eq_zero (by omega)
        have hy0 : y = [] := by
          have h3 := congrArg List.length hR
          rw [List.length_append] at h3
          simp only [List.length_nil] at h3
          exact List.eq_nil_of_length_eq_zero (by omega)
        subst htl
        subst hy0
        left
        rw [parse_cr_single]
      | d :: R' =>
        by_cases hd : d = LINE_FEED
        · subst hd
          rw [parse_crlf]
          right
          obtain ⟨tl', htl', hR'⟩ := join_head_lf tl y R' hX' hy hR
          have hX'' : contentsFree tl' := by
            intro e he
            exact hX' e (by simp [htl', he])
          have hlen'' : (joinLines tl' ++ y).length ≤ R'.length := by
            rw [← hR']
          have hcnt := parse_join_count R'.length tl' y hlen'' hX'' hy
          rw [← hR'] at hcnt
          rw [htl']
          simp only [List.length_cons]
          omega
        · rw [parse_cr_cons d R' hd, ← hR]
          rcases ih tl y (by rw [hR] at hlen' ⊢; exact hlen') hX' hy with h | h
          · left
            rw [h]
          · right
            simp only [List.length_cons]
            omega

theorem closedOf_length (opts : Options) (target : NewLineMarker) :
    ∀ (PL : List (List Nat × NewLineMarker)) (q : List Nat),
    (closedOf opts target q PL).length = PL.length := by
  intro PL
  induction PL with
  | nil => intro q; rfl
  | cons e tl ih =>
    intro q
    rcases e with ⟨l, mk⟩
    simp [closedOf, ih]

theorem markerFree_append (a b : List Nat) (ha : markerFree a)
    (hb : markerFree b) : markerFree (a ++ b) := by
  intro x hx
  rcases List.mem_append.mp hx with h | h
  · exact ha x h
  · exact hb x h

theorem markerFree_take (l : List Nat) (n : Nat) (h : markerFree l) :
    markerFree (l.take n) := by
  intro b hb
  exact h b (List.take_subset n l hb)

theorem byteImage_markerFree (opts : Options) (c : Nat)
    (hc : ¬(c = CARRIAGE_RETURN ∨ c = LINE_FEED)) :
    markerFree (byteImage opts c) := by
  intro b hb
  unfold byteImage at hb
  split_ifs at hb with h1 h2 h3 h4 h5
  · simp at hb
    subst hb
    subst h1
    decide
  · simp at hb
    subst hb
    subst h2
    decide
  · have : b = SPACE := by
      have := List.eq_of_mem_replicate hb
      exact this
    subst this
    decide
  · simp at hb
  · cases hm : opts.normalize_non_standard_whitespace <;> rw [hm] at hb
    · simp at hb
      subst hb
      exact hc
    · simp at hb
      subst hb
      decide
    · simp at hb
  · simp at hb
    subst hb
    exact hc

theorem flatImage_markerFree (opts : Options) (l : List Nat)
    (h : markerFree l) : markerFree (flatImage opts l) := by
  induction l with
  | nil => intro b hb; simp [flatImage] at hb
  | cons c tl ih =>
    have hc : ¬(c = CARRIAGE_RETURN ∨ c = LINE_FEED) := h c (by simp)
    have htl : markerFree tl := by
      intro b hb
      exact h b (by simp [hb])
    exact markerFree_append _ _ (byteImage_markerFree opts c hc) (ih htl)

theorem closedContent_markerFree (opts : Options) (q : List Nat)
    (h : markerFree q) : markerFree (closedContent opts q) := by
  unfold closedContent
  split_ifs with hc
  · exact markerFree_take q _ h
  · exact h

theorem closedOf_contentsFree (opts : Options) (target : NewLineMarker) :
    ∀ (PL : List (List Nat × NewLineMarker)) (q : List Nat),
    markerFree q → contentsFree PL →
    contentsFree (closedOf opts target q PL) := by
  intro PL
  induction PL with
  | nil => intro q hq hPL e he; simp [closedOf] at he
  | cons e0 tl ih =>
    intro q hq hPL e he
    rcases e0 with ⟨l, mk⟩
    simp only [closedOf, List.mem_cons] at he
    rcases he with he | he
    · subst he
      exact closedContent_markerFree opts _
        (markerFree_append _ _ hq
          (flatImage_markerFree opts l (hPL (l, mk) (by simp))))
    · exact ih [] (by intro b hb; simp at hb)
        (by intro e' he'; exact hPL e' (by simp [he'])) e he

theorem closedOf_markers (opts : Options) (target : NewLineMarker) :
    ∀ (PL : List (List Nat × NewLineMarker)) (q : List Nat),
    (closedOf opts target q PL).map (fun e => e.2) =
      PL.map (fun e => emittedMarker opts target e.2) := by
  intro PL
  induction PL with
  | nil => intro q; rfl
  | cons e tl ih =>
    intro q
    rcases e with ⟨l, mk⟩
    simp [closedOf, ih]

theorem emittedMarker_off (opts : Options) (target m : NewLineMarker)
    (h : opts.normalize_new_line_markers = false) :
    emittedMarker opts target m = m := by
  unfold emittedMarker
  rw [if_neg]
  simp [h]

theorem emittedMarker_on (opts : Options) (target m : NewLineMarker)
    (h : opts.normalize_new_line_markers = true) :
    emittedMarker opts target m = target := by
  unfold emittedMarker
  split_ifs with hc
  · rfl
  · simp only [h, true_and, not_not] at hc
    rw [hc]

theorem count_join (v : Nat) (hv : v = CARRIAGE_RETURN ∨ v = LINE_FEED) :
    ∀ (X : List (List Nat × NewLineMarker)) (y : List Nat),
    contentsFree X → markerFree y →
    (joinLines X ++ y).count v =
      (X.map (fun e => e.2.to_bytes.count v)).sum := by
  intro X
  induction X with
  | nil =>
    intro y hX hy
    simp only [joinLines, List.nil_append, List.map_nil, List.sum_nil]
    rw [List.count_eq_zero]
    intro hmem
    exact hy v hmem hv
  | cons e tl ih =>
    intro y hX hy
    rcases e with ⟨l, mk⟩
    have hl : markerFree l := hX (l, mk) (by simp)
    have htl : contentsFree tl := by
      intro e' he'
      exact hX e' (by simp [he'])
    have hcl : l.count v = 0 := by
      rw [List.count_eq_zero]
      intro hmem
      exact hl v hmem hv
    simp only [joinLines, List.append_assoc, List.count_append, List.map_cons,
      List.sum_cons]
    have hrec := ih y htl hy
    rw [List.count_append] at hrec
    omega

theorem marker_count_le_one (v : Nat) (mk : NewLineMarker)
    (hv : v = CARRIAGE_RETURN ∨ v = LINE_FEED) :
    mk.to_bytes.count v ≤ 1 := by
  rcases hv with rfl | rfl <;> cases mk <;> decide

theorem sum_map_le_length (f : List Nat × NewLineMarker → Nat) :
    ∀ (X : List (List Nat × NewLineMarker)), (∀ e ∈ X, f e ≤ 1) →
    (X.map f).sum ≤ X.length := by
  intro X
  induction X with
  | nil => intro h; simp
  | cons e tl ih =>
    intro h
    have h1 := h e (by simp)
    have h2 := ih (fun e' he' => h e' (by simp [he']))
    simp only [List.map_cons, List.sum_cons, List.length_cons]
    omega

theorem marker_count_total (mk : NewLineMarker) :
    mk.to_bytes.count CARRIAGE_RETURN + mk.to_bytes.count LINE_FEED =
      mk.to_bytes.length := by
  cases mk <;> decide

theorem byteImage_tri (opts : Options) (b : Nat) :
    (byteImage opts b = [b] ∧ ∀ n, byteChanges opts n b = []) ∨
    byteImage opts b = [] ∨
    (byteImage opts b).head? ≠ some b := by
  by_cases h1 : b = SPACE
  · left
    subst h1
    exact ⟨by simp [byteImage], fun n => by simp [byteChanges]⟩
  · by_cases h2 : b = TAB
    · subst h2
      rcases lt_trichotomy opts.replace_tabs_with_spaces 0 with hk | hk | hk
      · left
        refine ⟨by simp [byteImage, TAB, SPACE, hk], fun n => by
          simp [byteChanges, TAB, SPACE, hk]⟩
      · right
        left
        simp [byteImage, TAB, SPACE, hk]
      · right
        right
        rw [show byteImage opts TAB =
            List.replicate opts.replace_tabs_with_spaces.toNat SPACE from by
          simp [byteImage, TAB, SPACE, hk, not_lt_of_gt hk]]
        have hk1 : 1 ≤ opts.replace_tabs_with_spaces.toNat := by omega
        match hK : opts.replace_tabs_with_spaces.toNat with
        | 0 => omega
        | j + 1 =>
          simp [List.replicate_succ]
          decide
    · by_cases h3 : b = VERTICAL_TAB ∨ b = FORM_FEED
      · cases hm : opts.normalize_non_standard_whitespace
        · left
          refine ⟨by simp [byteImage, if_neg h1, if_neg h2, if_pos h3, hm],
            fun n => by simp [byteChanges, if_neg h1, if_neg h2, if_pos h3, hm]⟩
        · right
          right
          rw [show byteImage opts b = [SPACE] from by
            simp [byteImage, if_neg h1, if_neg h2, if_pos h3, hm]]
          simp
          rcases h3 with h | h <;> subst h <;> decide
        · right
          left
          simp [byteImage, if_neg h1, if_neg h2, if_pos h3, hm]
      · left
        refine ⟨by simp [byteImage, if_neg h1, if_neg h2, if_neg h3],
          fun n => by simp [byteChanges, if_neg h1, if_neg h2, if_neg h3]⟩

theorem absent_of_empty (opts : Options) (b c : Nat)
    (h : byteImage opts b = []) : ¬ b ∈ byteImage opts c := by
  intro hc
  have hfacts : (b = TAB ∧ opts.replace_tabs_with_spaces = 0) ∨
      ((b = VERTICAL_TAB ∨ b = FORM_FEED) ∧
        opts.normalize_non_standard_whitespace =
          NonStandardWhitespaceReplacementMode.Remove) := by
    unfold byteImage at h
    split_ifs at h with h1 h2 h3 h4 h5
    · have hlen := congrArg List.length h
      simp at hlen
      omega
    · left
      exact ⟨h2, by omega⟩
    · cases hm : opts.normalize_non_standard_whitespace
      · simp [hm] at h
      · simp [hm] at h
      · right
        exact ⟨h5, rfl⟩
  unfold byteImage at hc
  split_ifs at hc with g1 g2 g3 g4 g5
  · rcases hfacts with ⟨hb, hk⟩ | ⟨hb, hmode⟩ <;>
      simp_all [SPACE, TAB, VERTICAL_TAB, FORM_FEED]
  · rcases hfacts with ⟨hb, hk⟩ | ⟨hb, hmode⟩ <;>
      simp_all [SPACE, TAB, VERTICAL_TAB, FORM_FEED] <;>
      omega
  · rcases hfacts with ⟨hb, hk⟩ | ⟨hb, hmode⟩ <;>
      simp_all [SPACE, TAB, VERTICAL_TAB, FORM_FEED]
  · simp at hc
  · rcases hfacts with ⟨hb, hk⟩ | ⟨hb, hmode⟩
    · cases hm : opts.normalize_non_standard_whitespace <;>
        simp_all [SPACE, TAB, VERTICAL_TAB, FORM_FEED]
    · simp_all [SPACE, TAB, VERTICAL_TAB, FORM_FEED]
  · rcases hfacts with ⟨hb, hk⟩ | ⟨hb, hmode⟩ <;>
      simp_all [SPACE, TAB, VERTICAL_TAB, FORM_FEED]

theorem mem_flatImage (opts : Options) (b : Nat) :
    ∀ (l : List Nat), b ∈ flatImage opts l → ∃ c ∈ l, b ∈ byteImage opts c := by
  intro l
  induction l with
  | nil => intro h; simp [flatImage] at h
  | cons c tl ih =>
    intro h
    simp only [flatImage] at h
    rcases List.mem_append.mp h with h | h
    · exact ⟨c, by simp, h⟩
    · obtain ⟨c', hc', hb'⟩ := ih h
      exact ⟨c', by simp [hc'], hb'⟩

theorem flatImage_fixed (opts : Options) :
    ∀ (l w : List Nat), flatImage opts l = l ++ w →
    (∀ n, lineChanges opts n l = []) ∧ w = [] := by
  intro l
  induction l with
  | nil =>
    intro w h
    simp only [flatImage, List.nil_append] at h
    exact ⟨fun n => rfl, h.symm⟩
  | cons b tl ih =>
    intro w h
    simp only [flatImage, List.cons_append] at h
    rcases byteImage_tri opts b with ⟨hi, hch⟩ | hi | hi
    · rw [hi] at h
      simp only [List.singleton_append, List.cons.injEq, true_and] at h
      obtain ⟨h1, h2⟩ := ih w h
      refine ⟨fun n => ?_, h2⟩
      simp [lineChanges, hch n, h1 n]
    · rw [hi] at h
      simp only [List.nil_append] at h
      have hb : b ∈ flatImage opts tl := by
        rw [h]
        simp
      obtain ⟨c, hcmem, hbc⟩ := mem_flatImage opts b tl hb
      exact absurd hbc (absent_of_empty opts b c hi)
    · exfalso
      match himg : byteImage opts b with
      | [] =>
        rw [himg] at h
        simp only [List.nil_append] at h
        have hb : b ∈ flatImage opts tl := by
          rw [h]
          simp
        obtain ⟨c, hcmem, hbc⟩ := mem_flatImage opts b tl hb
        exact absurd hbc (absent_of_empty opts b c himg)
      | b' :: t =>
        rw [himg] at hi h
        simp only [List.head?_cons, ne_eq, Option.some.injEq] at hi
        simp only [List.cons_append, List.cons.injEq] at h
        exact hi h.1

theorem cut_decomp (CL : List (List Nat × NewLineMarker))
    (hfree : contentsFree CL)
    (hpos : 0 < lastNonWs (joinLines CL)) :
    ∃ (D : List (List Nat × NewLineMarker)) (t : List Nat),
      contentsFree D ∧ markerFree t ∧ D.length < CL.length ∧
      (joinLines CL).take (lastNonWs (joinLines CL)) = joinLines D ++ t := by
  induction CL using List.reverseRecOn with
  | nil => simp [joinLines, lastNonWs_nil] at hpos
  | append_singleton CL' e ih =>
    have hfree' : contentsFree CL' := by
      intro x hx
      exact hfree x (List.mem_append.mpr (Or.inl hx))
    have hjc : joinLines (CL' ++ [e]) = joinLines CL' ++ e.1 ++ e.2.to_bytes :=
      joinLines_concat CL' e
    have hlnw : lastNonWs (joinLines (CL' ++ [e])) =
        lastNonWs (joinLines CL' ++ e.1) := by
      rw [hjc, lastNonWs_append_marker]
    rcases Nat.eq_zero_or_pos (lastNonWs e.1) with hz | hp
    · have hL : lastNonWs (joinLines CL' ++ e.1) = lastNonWs (joinLines CL') := by
        rw [lastNonWs_append, hz]
        simp
      have hpos' : 0 < lastNonWs (joinLines CL') := by
        rw [hlnw, hL] at hpos
        exact hpos
      obtain ⟨D, t, hDf, htf, hDl, heq⟩ := ih hfree' hpos'
      refine ⟨D, t, hDf, htf, by simp; omega, ?_⟩
      rw [hlnw, hL]
      rw [hjc, List.append_assoc]
      rw [take_append_of_le _ _ _ (lastNonWs_le _)]
      exact heq
    · have hL : lastNonWs (joinLines CL' ++ e.1) =
          (joinLines CL').length + lastNonWs e.1 := by
        rw [lastNonWs_append]
        simp
        omega
      refine ⟨CL', e.1.take (lastNonWs e.1), hfree',
        markerFree_take _ _ (hfree e (List.mem_append.mpr (Or.inr (by simp)))),
        by simp, ?_⟩
      rw [hlnw, hL]
      rw [hjc, List.append_assoc, take_append_len]
      rw [take_append_of_le _ _ _ (lastNonWs_le _)]

theorem tailOf_flat (opts : Options)
    (PL : List (List Nat × NewLineMarker)) (r : List Nat) :
    tailOf opts [] (PL, r) = flatImage opts r := by
  unfold tailOf
  match PL with
  | [] => rfl
  | _ :: _ => rfl

theorem closedContent_fixed (opts : Options) (q : List Nat)
    (h : closedContent opts q = q) :
    ¬(opts.remove_trailing_whitespace = true ∧ lastNonWs q < q.length) := by
  intro hc
  unfold closedContent at h
  rw [if_pos hc] at h
  have hl := congrArg List.length h
  simp at hl
  omega

theorem emittedMarker_fixed (opts : Options) (target mk : NewLineMarker)
    (h : emittedMarker opts target mk = mk) :
    ¬(opts.normalize_new_line_markers = true ∧ target ≠ mk) := by
  intro hc
  unfold emittedMarker at h
  rw [if_pos hc] at h
  exact hc.2 h

theorem changesOf_of_fixed (opts : Options) (target : NewLineMarker) :
    ∀ (PL : List (List Nat × NewLineMarker)) (r : List Nat),
    closedOf opts target [] PL = PL → flatImage opts r = r →
    ∀ n, changesOf opts target n [] PL r = [] := by
  intro PL
  induction PL with
  | nil =>
    intro r hc hr n
    have hfl : flatImage opts r = r ++ [] := by simp [hr]
    obtain ⟨hlc, -⟩ := flatImage_fixed opts r [] hfl
    simp only [changesOf]
    exact hlc n
  | cons e tl ih =>
    intro r hc hr n
    rcases e with ⟨l, mk⟩
    simp only [closedOf, List.cons.injEq, Prod.mk.injEq] at hc
    obtain ⟨⟨hcc, hem⟩, htl⟩ := hc
    have hcc' : closedContent opts (flatImage opts l) = l := by
      simpa using hcc
    have hpref : ∃ w, flatImage opts l = l ++ w := by
      unfold closedContent at hcc'
      split_ifs at hcc' with hcnd
      · refine ⟨(flatImage opts l).drop (lastNonWs (flatImage opts l)), ?_⟩
        conv_lhs => rw [← List.take_append_drop
          (lastNonWs (flatImage opts l)) (flatImage opts l)]
        rw [hcc']
      · exact ⟨[], by simp [hcc']⟩
    obtain ⟨w, hw⟩ := hpref
    obtain ⟨hlc, hwn⟩ := flatImage_fixed opts l w hw
    have hfl : flatImage opts l = l := by
      rw [hw, hwn, List.append_nil]
    have hccl : closedContent opts l = l := by
      have h2 := hcc'
      rw [hfl] at h2
      exact h2
    have heml : emittedMarker opts target mk = mk := by simpa [hfl] using hem
    have hclose : closeChanges opts target n ([] ++ flatImage opts l) mk = [] := by
      unfold closeChanges
      rw [List.nil_append, hfl, if_neg (closedContent_fixed opts l hccl),
        if_neg (emittedMarker_fixed opts target mk heml)]
      rfl
    simp only [changesOf]
    rw [hlc n, hclose, ih r htl hr (n + 1)]
    rfl

theorem short_decomp_ne (input : List Nat)
    (PL : List (List Nat × NewLineMarker)) (r : List Nat)
    (D : List (List Nat × NewLineMarker)) (t : List Nat)
    (hparse : parseLines input = (PL, r))
    (hD : contentsFree D) (ht : markerFree t) (hlen : D.length < PL.length) :
    joinLines D ++ t ≠ input := by
  intro h
  rcases parse_join_eq_or_lt (joinLines D ++ t).length D t (le_refl _) hD ht
    with heq | hlt
  · rw [h, hparse] at heq
    have h1 : PL.length = D.length := by
      rw [(Prod.mk.injEq PL r D t).mp heq |>.1]
    omega
  · rw [h, hparse] at hlt
    simp only at hlt
    omega

theorem sum_map_congr {α : Type} (f g : α → Nat) :
    ∀ (X : List α), (∀ e ∈ X, f e = g e) → (X.map f).sum = (X.map g).sum := by
  intro X
  induction X with
  | nil => intro h; rfl
  | cons a tl ih =>
    intro h
    simp only [List.map_cons, List.sum_cons]
    rw [h a (by simp), ih (fun e he => h e (by simp [he]))]

theorem sum_map_const {α : Type} (c : Nat) :
    ∀ (X : List α), (X.map (fun _ => c)).sum = X.length * c := by
  intro X
  induction X with
  | nil => simp
  | cons a tl ih =>
    simp only [List.map_cons, List.sum_cons, List.length_cons, ih]
    ring

theorem closedOf_marker_sum (opts : Options) (target : NewLineMarker)
    (f : NewLineMarker → Nat) :
    ∀ (PL : List (List Nat × NewLineMarker)) (q : List Nat),
    ((closedOf opts target q PL).map (fun e => f e.2)).sum =
      (PL.map (fun e => f (emittedMarker opts target e.2))).sum := by
  intro PL
  induction PL with
  | nil => intro q; rfl
  | cons e tl ih =>
    intro q
    rcases e with ⟨l, mk⟩
    simp [closedOf, ih []]

theorem rule3_out_ne (opts : Options) (target : NewLineMarker)
    (PL : List (List Nat × NewLineMarker)) (r u : List Nat)
    (hPf : contentsFree PL) (hrf : markerFree r) (hu : markerFree u) :
    joinLines (closedOf opts target [] PL) ++ u ++ target.to_bytes ≠
      joinLines PL ++ r := by
  intro h
  have hCf : contentsFree (closedOf opts target [] PL) :=
    closedOf_contentsFree opts target PL [] (by intro b hb; simp at hb) hPf
  have hcount : ∀ v, v = CARRIAGE_RETURN ∨ v = LINE_FEED →
      ((closedOf opts target [] PL).map
        (fun e => e.2.to_bytes.count v)).sum + target.to_bytes.count v =
      (PL.map (fun e => e.2.to_bytes.count v)).sum := by
    intro v hv
    have h1 := congrArg (List.count v) h
    rw [List.count_append] at h1
    rw [count_join v hv (closedOf opts target [] PL) u hCf hu,
      count_join v hv PL r hPf hrf] at h1
    exact h1
  by_cases hnm : opts.normalize_new_line_markers = true
  · obtain ⟨v, hv, hone⟩ : ∃ v, (v = CARRIAGE_RETURN ∨ v = LINE_FEED) ∧
        target.to_bytes.count v = 1 := by
      cases target
      · exact ⟨LINE_FEED, Or.inr rfl, by decide⟩
      · exact ⟨CARRIAGE_RETURN, Or.inl rfl, by decide⟩
      · exact ⟨LINE_FEED, Or.inr rfl, by decide⟩
    have hc := hcount v hv
    have hS : ((closedOf opts target [] PL).map
        (fun e => e.2.to_bytes.count v)).sum = PL.length * 1 := by
      rw [closedOf_marker_sum opts target
        (fun mk => mk.to_bytes.count v) PL []]
      rw [sum_map_congr
          (fun e => (emittedMarker opts target e.2).to_bytes.count v)
          (fun _ => 1) PL
          (fun e _ => by
            show (emittedMarker opts target e.2).to_bytes.count v = 1
            rw [emittedMarker_on opts target e.2 hnm]
            exact hone)]
      exact sum_map_const 1 PL
    have hB : (PL.map (fun e => e.2.to_bytes.count v)).sum ≤ PL.length :=
      sum_map_le_length _ PL (fun e _ => marker_count_le_one v e.2 hv)
    omega
  · rw [Bool.not_eq_true] at hnm
    have hcr := hcount CARRIAGE_RETURN (Or.inl rfl)
    have hlf := hcount LINE_FEED (Or.inr rfl)
    have hScr : ((closedOf opts target [] PL).map
        (fun e => e.2.to_bytes.count CARRIAGE_RETURN)).sum =
        (PL.map (fun e => e.2.to_bytes.count CARRIAGE_RETURN)).sum := by
      rw [closedOf_marker_sum opts target
        (fun mk => mk.to_bytes.count CARRIAGE_RETURN) PL []]
      exact sum_map_congr _ _ PL
        (fun e _ => by rw [emittedMarker_off opts target e.2 hnm])
    have hSlf : ((closedOf opts target [] PL).map
        (fun e => e.2.to_bytes.count LINE_FEED)).sum =
        (PL.map (fun e => e.2.to_bytes.count LINE_FEED)).sum := by
      rw [closedOf_marker_sum opts target
        (fun mk => mk.to_bytes.count LINE_FEED) PL []]
      exact sum_map_congr _ _ PL
        (fun e _ => by rw [emittedMarker_off opts target e.2 hnm])
    have htb : 1 ≤ target.to_bytes.count CARRIAGE_RETURN +
        target.to_bytes.count LINE_FEED := by
      cases target <;> decide
    omega

theorem leneeOf_le_leneiOf (CL : List (List Nat × NewLineMarker)) :
    leneeOf CL ≤ leneiOf CL := by
  rcases Nat.eq_zero_or_pos (lnOf CL) with h | h
  · obtain ⟨h1, h2⟩ := lnOf_zero_parts CL h
    omega
  · obtain ⟨D, e, hDe, hne, hlei, hlee⟩ := lnOf_pos_decomp CL h
    omega

theorem leneiOf_le (CL : List (List Nat × NewLineMarker)) :
    leneiOf CL ≤ (joinLines CL).length := by
  unfold leneiOf
  obtain ⟨t, ht⟩ := joinLines_take_prefix CL (lnOf CL)
  rw [← ht]
  simp

theorem take_leneeOf (CL : List (List Nat × NewLineMarker))
    (h : 0 < lnOf CL) :
    ∃ (D : List (List Nat × NewLineMarker)) (e : List Nat × NewLineMarker),
      D.length + 1 = lnOf CL ∧ e ∈ CL ∧ e.1 ≠ [] ∧ (∀ x ∈ D, x ∈ CL) ∧
      (joinLines CL).take (leneeOf CL) = joinLines D ++ e.1 := by
  obtain ⟨D, e, hDe, hne, hlei, hlee⟩ := lnOf_pos_decomp CL h
  have hlen : D.length + 1 = lnOf CL := by
    have h0 := congrArg List.length hDe
    have h1 := lnOf_le CL
    simp only [List.length_take, List.length_append,
      List.length_singleton] at h0
    omega
  have hmemD : ∀ x ∈ D, x ∈ CL := by
    intro x hx
    have hx2 : x ∈ CL.take (lnOf CL) := by
      rw [hDe]
      exact List.mem_append.mpr (Or.inl hx)
    exact List.take_subset _ _ hx2
  have hmeme : e ∈ CL := by
    have hx2 : e ∈ CL.take (lnOf CL) := by
      rw [hDe]
      simp
    exact List.take_subset _ _ hx2
  refine ⟨D, e, hlen, hmeme, hne, hmemD, ?_⟩
  have hsplit : joinLines CL =
      joinLines (CL.take (lnOf CL)) ++ joinLines (CL.drop (lnOf CL)) := by
    rw [← joinLines_append, List.take_append_drop]
  rw [hsplit, hDe, joinLines_concat, hlee]
  have hlen2 : (joinLines D).length + e.1.length =
      (joinLines D ++ e.1).length := by simp
  rw [List.append_assoc (joinLines D ++ e.1), hlen2, take_append_left]

theorem rule1_nilchanges (opts : Options) (s : ScanState (List Nat))
    (h : (rule1 vecWriter opts s).changes = []) :
    rule1 vecWriter opts s = s ∧ s.changes = [] := by
  rcases rule1_disj opts s with ⟨-, he⟩ | ⟨-, -, -, he⟩
  · rw [he] at h
    exact ⟨he, h⟩
  · rw [he] at h
    simp at h

theorem rule2_nilchanges (opts : Options) (s : ScanState (List Nat))
    (h : (rule2 vecWriter opts s).changes = []) :
    rule2 vecWriter opts s = s ∧ s.changes = [] := by
  rcases rule2_disj opts s with ⟨-, he⟩ | ⟨-, -, -, he⟩
  · rw [he] at h
    exact ⟨he, h⟩
  · rw [he] at h
    simp at h

theorem rule3_nilchanges (opts : Options) (target : NewLineMarker)
    (s : ScanState (List Nat))
    (h : (rule3 vecWriter opts target s).changes = []) :
    rule3 vecWriter opts target s = s ∧ s.changes = [] := by
  rcases rule3_disj opts target s with ⟨-, he⟩ | ⟨-, -, he⟩
  · rw [he] at h
    exact ⟨he, h⟩
  · rw [he] at h
    simp at h

theorem rule4_nilchanges (opts : Options) (s : ScanState (List Nat))
    (h : (rule4 vecWriter opts s).changes = []) :
    rule4 vecWriter opts s = s ∧ s.changes = [] := by
  rcases rule4_disj opts s with ⟨-, he⟩ | ⟨-, -, -, he⟩
  · rw [he] at h
    exact ⟨he, h⟩
  · rw [he] at h
    simp at h

theorem postRulesChangesNil (opts : Options) (target : NewLineMarker)
    (s : ScanState (List Nat))
    (h : (postRules vecWriter opts target s).changes = []) :
    postRules vecWriter opts target s = s ∧ s.changes = [] := by
  unfold postRules at h
  obtain ⟨he4, h3⟩ := rule4_nilchanges opts _ h
  obtain ⟨he3, h2⟩ := rule3_nilchanges opts target _ h3
  obtain ⟨he2, h1⟩ := rule2_nilchanges opts _ h2
  obtain ⟨he1, h0⟩ := rule1_nilchanges opts _ h1
  refine ⟨?_, h0⟩
  unfold postRules
  rw [he4, he3, he2, he1]

theorem lenee_case_ne (PL : List (List Nat × NewLineMarker)) (r : List Nat)
    (CLs : List (List Nat × NewLineMarker))
    (hparse : parseLines (joinLines PL ++ r) = (PL, r))
    (hCf : contentsFree CLs) (hlenCL : CLs.length = PL.length)
    (hne : joinLines PL ++ r ≠ []) :
    (joinLines CLs).take (leneeOf CLs) ≠ joinLines PL ++ r := by
  intro hwX
  rcases Nat.eq_zero_or_pos (lnOf CLs) with hz | hp
  · obtain ⟨-, h2⟩ := lnOf_zero_parts CLs hz
    rw [h2, List.take_zero] at hwX
    exact hne hwX.symm
  · obtain ⟨D, e, hD1, hDe, hDne, hDmem, hDeq⟩ := take_leneeOf CLs hp
    rw [hDeq] at hwX
    have hll := lnOf_le CLs
    exact short_decomp_ne _ PL r D e.1 hparse
      (fun x hx => hCf x (hDmem x hx)) (hCf e hDe) (by omega) hwX

theorem lenei_case_ne (PL : List (List Nat × NewLineMarker)) (r : List Nat)
    (CLs : List (List Nat × NewLineMarker))
    (hparse : parseLines (joinLines PL ++ r) = (PL, r))
    (hCf : contentsFree CLs) (hlenCL : CLs.length = PL.length)
    (hlt : lnOf CLs < CLs.length) :
    joinLines (CLs.take (lnOf CLs)) ≠ joinLines PL ++ r := by
  intro h
  have h2 : joinLines (CLs.take (lnOf CLs)) ++ [] = joinLines PL ++ r := by
    simpa using h
  exact short_decomp_ne _ PL r (CLs.take (lnOf CLs)) [] hparse
    (fun x hx => hCf x (List.take_subset _ _ hx))
    (fun b hb => absurd hb (List.not_mem_nil b))
    (by simp [List.length_take]; omega) h2

theorem cutA_case_ne (PL : List (List Nat × NewLineMarker)) (r : List Nat)
    (CLs : List (List Nat × NewLineMarker))
    (hparse : parseLines (joinLines PL ++ r) = (PL, r))
    (hCf : contentsFree CLs) (hlenCL : CLs.length = PL.length)
    (hpos : 0 < lastNonWs (joinLines CLs)) :
    (joinLines CLs).take (lastNonWs (joinLines CLs)) ≠ joinLines PL ++ r := by
  intro h
  obtain ⟨D, t, hDf, htf, hDl, heq⟩ := cut_decomp CLs hCf hpos
  rw [heq] at h
  exact short_decomp_ne _ PL r D t hparse hDf htf (by omega) h

theorem postRules_writer_eq (opts : Options) (target : NewLineMarker)
    (PL : List (List Nat × NewLineMarker)) (r : List Nat) (chs : List Change)
    (hv : ValidOptions opts)
    (hparse : parseLines (joinLines PL ++ r) = (PL, r))
    (hPf : contentsFree PL) (hrf : markerFree r)
    (hne : joinLines PL ++ r ≠ [])
    (hw : (postRules vecWriter opts target
        (midState (closedOf opts target [] PL) (flatImage opts r) chs)).writer =
      joinLines PL ++ r) :
    closedOf opts target [] PL = PL ∧ flatImage opts r = r ∧
    postRules vecWriter opts target
        (midState (closedOf opts target [] PL) (flatImage opts r) chs) =
      midState (closedOf opts target [] PL) (flatImage opts r) chs := by
  have hCf : contentsFree (closedOf opts target [] PL) :=
    closedOf_contentsFree opts target PL [] (by intro b hb; simp at hb) hPf
  have hqf : markerFree (flatImage opts r) := flatImage_markerFree opts r hrf
  have hlenCL : (closedOf opts target [] PL).length = PL.length :=
    closedOf_length opts target PL []
  set CLs := closedOf opts target [] PL with hCLs
  set qs := flatImage opts r with hqs
  set s0 := midState CLs qs chs with hs0
  set s1 := rule1 vecWriter opts s0 with hs1
  set s2 := rule2 vecWriter opts s1 with hs2
  set s3 := rule3 vecWriter opts target s2 with hs3
  set s4 := rule4 vecWriter opts s3 with hs4
  have hpost : postRules vecWriter opts target s0 = s4 := by
    unfold postRules
    rw [← hs1, ← hs2, ← hs3, ← hs4]
  have hw4 : s4.writer = joinLines PL ++ r := by
    rw [← hpost]
    exact hw
  have hw0 : s0.writer = joinLines CLs ++ qs := rfl
  have hle0 : s0.last_end_of_line_including_eol_marker =
      (joinLines CLs).length := rfl
  have hlnw0 : s0.last_non_whitespace = lastNonWs (joinLines CLs ++ qs) := rfl
  have hlnei0 : s0.last_end_of_non_empty_line_including_eol_marker =
      leneiOf CLs := rfl
  have hlnee0 : s0.last_end_of_non_empty_line_excluding_eol_marker =
      leneeOf CLs := rfl
  have hln0 : s0.line_number = CLs.length + 1 := rfl
  have hlnln0 : s0.last_non_empty_line_number = lnOf CLs := rfl
  rcases rule1_disj opts s0 with ⟨hn1, he1⟩ | ⟨ha1, hb1, hc1, he1⟩
  · -- rule 1 no-op
    have hs1e : s1 = s0 := hs1.trans he1
    rcases rule2_disj opts s1 with ⟨hn2, he2⟩ | ⟨ha2, hb2, hc2, he2⟩
    · -- rule 2 no-op
      have hs2e : s2 = s1 := hs2.trans he2
      rcases rule3_disj opts target s2 with ⟨hn3, he3⟩ | ⟨ha3, hb3, he3⟩
      · -- rule 3 no-op
        have hs3e : s3 = s2 := hs3.trans he3
        rcases rule4_disj opts s3 with ⟨hn4, he4⟩ | ⟨ha4, hb4, hc4, he4⟩
        · -- all rules no-ops: the scan output itself equals the input
          have hs4e : s4 = s0 :=
            (hs4.trans he4).trans (hs3e.trans (hs2e.trans hs1e))
          rw [hs4e, hw0] at hw4
          rcases parse_join_eq_or_lt (joinLines CLs ++ qs).length CLs qs
              (le_refl _) hCf hqf with heq | hlt
          · rw [hw4, hparse] at heq
            have hPL : PL = CLs := congrArg Prod.fst heq
            have hr : r = qs := congrArg Prod.snd heq
            exact ⟨hPL.symm, hr.symm, hpost.trans hs4e⟩
          · rw [hw4, hparse] at hlt
            simp only at hlt
            omega
        · -- rule 4 fired
          have hb4' : (joinLines CLs).length =
              (joinLines CLs ++ qs).length := by
            have h0 := hb4
            rw [hs3e, hs2e, hs1e] at h0
            rw [hle0, hw0] at h0
            exact h0
          have hq0 : qs = [] := by
            rw [List.length_append] at hb4'
            exact List.eq_nil_of_length_eq_zero (by omega)
          have hs4w : s4.writer = (joinLines CLs).take (leneeOf CLs) := by
            have h0 : s4.writer = s3.writer.take
                s3.last_end_of_non_empty_line_excluding_eol_marker := by
              simp only [hs4, he4]
            have h1 : s3.last_end_of_non_empty_line_excluding_eol_marker =
                leneeOf CLs := by
              rw [hs3e, hs2e, hs1e, hlnee0]
            rw [h0, h1, hs3e, hs2e, hs1e, hw0, hq0, List.append_nil]
          rw [hs4w] at hw4
          exact absurd hw4 (lenee_case_ne PL r CLs hparse hCf hlenCL hne)
      · -- rule 3 fired
        rcases rule4_disj opts s3 with ⟨hn4, he4⟩ | ⟨ha4, -, -, -⟩
        · have hs4e : s4 = s3 := hs4.trans he4
          have hs3w : s3.writer = s2.writer ++ target.to_bytes := by
            simp only [hs3, he3]
          have hwX : (joinLines CLs ++ qs) ++ target.to_bytes =
              joinLines PL ++ r := by
            have h0 := hw4
            rw [hs4e, hs3w, hs2e, hs1e, hw0] at h0
            exact h0
          exact absurd hwX (rule3_out_ne opts target PL r qs hPf hrf hqf)
        · exact absurd ⟨ha3, ha4⟩ hv.2.1
    · -- rule 2 fired (rule 1 no-op)
      have hb2' : (joinLines CLs).length = (joinLines CLs ++ qs).length := by
        have h0 := hb2
        rw [hs1e] at h0
        rw [hle0, hw0] at h0
        exact h0
      have hq0 : qs = [] := by
        rw [List.length_append] at hb2'
        exact List.eq_nil_of_length_eq_zero (by omega)
      have hc2' : leneiOf CLs < (joinLines CLs).length := by
        have h0 := hc2
        rw [hs1e] at h0
        rw [hlnei0, hw0, hq0, List.append_nil] at h0
        exact h0
      have hlnlt : lnOf CLs < CLs.length := by
        rcases Nat.lt_or_ge (lnOf CLs) CLs.length with h | h
        · exact h
        · have heq2 : lnOf CLs = CLs.length := le_antisymm (lnOf_le _) h
          have h2 : leneiOf CLs = (joinLines CLs).length := by
            unfold leneiOf
            rw [heq2, List.take_length]
          omega
      have hs2w : s2.writer = joinLines (CLs.take (lnOf CLs)) := by
        have h0 : s2.writer = s1.writer.take
            s1.last_end_of_non_empty_line_including_eol_marker := by
          simp only [hs2, he2]
        rw [h0, hs1e, hw0, hlnei0, hq0, List.append_nil, take_joinLines_lenei]
      have hs2le : s2.last_end_of_line_including_eol_marker = leneiOf CLs := by
        have h0 : s2.last_end_of_line_including_eol_marker =
            s1.last_end_of_non_empty_line_including_eol_marker := by
          simp only [hs2, he2]
        rw [h0, hs1e, hlnei0]
      have hs2wlen : s2.writer.length = leneiOf CLs := by
        rw [hs2w]
        unfold leneiOf
        rfl
      rcases rule3_disj opts target s2 with ⟨hn3, he3⟩ | ⟨-, hb3, -⟩
      · have hs3e : s3 = s2 := hs3.trans he3
        rcases rule4_disj opts s3 with ⟨hn4, he4⟩ | ⟨ha4, hb4, hc4, he4⟩
        · have hs4e : s4 = s2 := (hs4.trans he4).trans hs3e
          rw [hs4e, hs2w] at hw4
          exact absurd hw4 (lenei_case_ne PL r CLs hparse hCf hlenCL hlnlt)
        · have hs4w : s4.writer = (joinLines CLs).take (leneeOf CLs) := by
            have h0 : s4.writer = s3.writer.take
                s3.last_end_of_non_empty_line_excluding_eol_marker := by
              simp only [hs4, he4]
            have h1 : s3.last_end_of_non_empty_line_excluding_eol_marker =
                leneeOf CLs := by
              have h2 : s2.last_end_of_non_empty_line_excluding_eol_marker =
                  s1.last_end_of_non_empty_line_excluding_eol_marker := by
                simp only [hs2, he2]
              rw [hs3e, h2, hs1e, hlnee0]
            rw [h0, h1, hs3e, hs2w, ← take_joinLines_lenei, List.take_take,
              Nat.min_eq_left (leneeOf_le_leneiOf CLs)]
          rw [hs4w] at hw4
          exact absurd hw4 (lenee_case_ne PL r CLs hparse hCf hlenCL hne)
      · rw [hs2le, hs2wlen] at hb3
        omega
  · -- rule 1 fired
    have hb1' : (joinLines CLs).length < (joinLines CLs ++ qs).length := by
      have h0 := hb1
      rw [hle0, hw0] at h0
      exact h0
    have hc1' : lastNonWs (joinLines CLs ++ qs) <
        (joinLines CLs ++ qs).length := by
      have h0 := hc1
      rw [hlnw0, hw0] at h0
      exact h0
    have hs1w : s1.writer = (joinLines CLs ++ qs).take
        (lastNonWs (joinLines CLs ++ qs)) := by
      have h0 : s1.writer = s0.writer.take s0.last_non_whitespace := by
        simp only [hs1, he1]
      rw [h0, hw0, hlnw0]
    have hs1wlen : s1.writer.length = lastNonWs (joinLines CLs ++ qs) := by
      rw [hs1w, List.length_take]
      exact Nat.min_eq_left (lastNonWs_le _)
    have hs1le : s1.last_end_of_line_including_eol_marker =
        (joinLines CLs).length := by
      have h0 : s1.last_end_of_line_including_eol_marker =
          s0.last_end_of_line_including_eol_marker := by
        simp only [hs1, he1]
      rw [h0, hle0]
    have hs1lnei : s1.last_end_of_non_empty_line_including_eol_marker =
        leneiOf CLs := by
      have h0 : s1.last_end_of_non_empty_line_including_eol_marker =
          s0.last_end_of_non_empty_line_including_eol_marker := by
        simp only [hs1, he1]
      rw [h0, hlnei0]
    have hs1lnee : s1.last_end_of_non_empty_line_excluding_eol_marker =
        leneeOf CLs := by
      have h0 : s1.last_end_of_non_empty_line_excluding_eol_marker =
          s0.last_end_of_non_empty_line_excluding_eol_marker := by
        simp only [hs1, he1]
      rw [h0, hlnee0]
    rcases rule2_disj opts s1 with ⟨hn2, he2⟩ | ⟨ha2, hb2, hc2, he2⟩
    · -- rule 2 no-op
      have hs2e : s2 = s1 := hs2.trans he2
      rcases rule3_disj opts target s2 with ⟨hn3, he3⟩ | ⟨ha3, hb3, he3⟩
      · -- rule 3 no-op
        have hs3e : s3 = s2 := hs3.trans he3
        rcases rule4_disj opts s3 with ⟨hn4, he4⟩ | ⟨ha4, hb4, hc4, he4⟩
        · -- only rule 1 fired
          have hs4e : s4 = s1 := (hs4.trans he4).trans (hs3e.trans hs2e)
          rw [hs4e, hs1w] at hw4
          rcases Nat.eq_zero_or_pos (lastNonWs qs) with hlq | hlq
          · have hL0 : lastNonWs (joinLines CLs ++ qs) =
                lastNonWs (joinLines CLs) := by
              rw [lastNonWs_append, hlq]
              simp
            rcases Nat.eq_zero_or_pos (lastNonWs (joinLines CLs)) with hA0 | hA0
            · rw [hL0, hA0, List.take_zero] at hw4
              exact absurd hw4.symm hne
            · rw [hL0, take_append_of_le _ _ _ (lastNonWs_le _)] at hw4
              exact absurd hw4 (cutA_case_ne PL r CLs hparse hCf hlenCL hA0)
          · have hL0 : lastNonWs (joinLines CLs ++ qs) =
                (joinLines CLs).length + lastNonWs qs := by
              rw [lastNonWs_append, if_neg (by omega)]
            rw [hL0, take_append_len] at hw4
            rcases parse_join_eq_or_lt
                (joinLines CLs ++ qs.take (lastNonWs qs)).length
                CLs (qs.take (lastNonWs qs)) (le_refl _) hCf
                (markerFree_take qs _ hqf) with heq | hlt
            · rw [hw4, hparse] at heq
              have hr : r = qs.take (lastNonWs qs) := congrArg Prod.snd heq
              have hfr : flatImage opts r = r ++ qs.drop (lastNonWs qs) := by
                rw [← hqs, hr]
                exact (List.take_append_drop _ _).symm
              obtain ⟨-, hwn⟩ := flatImage_fixed opts r
                (qs.drop (lastNonWs qs)) hfr
              have hqr : qs = r := by
                have h2 : qs = qs.take (lastNonWs qs) ++
                    qs.drop (lastNonWs qs) := (List.take_append_drop _ _).symm
                rw [hwn, List.append_nil] at h2
                rw [h2, ← hr]
              have h2 : qs = qs.take (lastNonWs qs) := hqr.trans hr
              have h3 := congrArg List.length h2
              rw [List.length_take] at h3
              have h4 := lastNonWs_le qs
              rw [hL0, List.length_append] at hc1'
              omega
            · rw [hw4, hparse] at hlt
              simp only at hlt
              omega
        · -- rule 4 fired after rule 1
          have hb4' : (joinLines CLs).length =
              lastNonWs (joinLines CLs ++ qs) := by
            have h0 := hb4
            rw [hs3e, hs2e] at h0
            rw [hs1le, hs1wlen] at h0
            exact h0
          have hs4w : s4.writer = (joinLines CLs).take (leneeOf CLs) := by
            have h0 : s4.writer = s3.writer.take
                s3.last_end_of_non_empty_line_excluding_eol_marker := by
              simp only [hs4, he4]
            have h1 : s3.last_end_of_non_empty_line_excluding_eol_marker =
                leneeOf CLs := by
              rw [hs3e, hs2e, hs1lnee]
            rw [h0, h1, hs3e, hs2e, hs1w, ← hb4', take_append_left]
          rw [hs4w] at hw4
          exact absurd hw4 (lenee_case_ne PL r CLs hparse hCf hlenCL hne)
      · -- rule 3 fired after rule 1
        rcases rule4_disj opts s3 with ⟨hn4, he4⟩ | ⟨ha4, -, -, -⟩
        · have hs4e : s4 = s3 := hs4.trans he4
          have hb3' : (joinLines CLs).length <
              lastNonWs (joinLines CLs ++ qs) := by
            have h0 := hb3
            rw [hs2e] at h0
            rw [hs1le, hs1wlen] at h0
            exact h0
          have hlq : 0 < lastNonWs qs := by
            by_contra hlq0
            have hlq1 : lastNonWs qs = 0 := by omega
            have hL0 : lastNonWs (joinLines CLs ++ qs) =
                lastNonWs (joinLines CLs) := by
              rw [lastNonWs_append, hlq1]
              simp
            have h2 := lastNonWs_le (joinLines CLs)
            omega
          have hL0 : lastNonWs (joinLines CLs ++ qs) =
              (joinLines CLs).length + lastNonWs qs := by
            rw [lastNonWs_append, if_neg (by omega)]
          have hs3w : s3.writer =
              (joinLines CLs ++ qs.take (lastNonWs qs)) ++ target.to_bytes := by
            have h0 : s3.writer = s2.writer ++ target.to_bytes := by
              simp only [hs3, he3]
            rw [h0, hs2e, hs1w, hL0, take_append_len]
          rw [hs4e, hs3w] at hw4
          exact absurd hw4 (rule3_out_ne opts target PL r
            (qs.take (lastNonWs qs)) hPf hrf (markerFree_take qs _ hqf))
        · exact absurd ⟨ha3, ha4⟩ hv.2.1
    · -- rules 1 and 2 both fired
      have hb2' : (joinLines CLs).length =
          lastNonWs (joinLines CLs ++ qs) := by
        have h0 := hb2
        rw [hs1le, hs1wlen] at h0
        exact h0
      have hc2' : leneiOf CLs < lastNonWs (joinLines CLs ++ qs) := by
        have h0 := hc2
        rw [hs1lnei, hs1wlen] at h0
        exact h0
      have hlnlt : lnOf CLs < CLs.length := by
        rcases Nat.lt_or_ge (lnOf CLs) CLs.length with h | h
        · exact h
        · have heq2 : lnOf CLs = CLs.length := le_antisymm (lnOf_le _) h
          have h2 : leneiOf CLs = (joinLines CLs).length := by
            unfold leneiOf
            rw [heq2, List.take_length]
          have h3 := lastNonWs_le (joinLines CLs ++ qs)
          omega
      have hs2w : s2.writer = joinLines (CLs.take (lnOf CLs)) := by
        have h0 : s2.writer = s1.writer.take
            s1.last_end_of_non_empty_line_including_eol_marker := by
          simp only [hs2, he2]
        rw [h0, hs1w, hs1lnei, List.take_take,
          Nat.min_eq_left (le_of_lt hc2'),
          take_append_of_le _ _ _ (leneiOf_le CLs), take_joinLines_lenei]
      have hs2le : s2.last_end_of_line_including_eol_marker = leneiOf CLs := by
        have h0 : s2.last_end_of_line_including_eol_marker =
            s1.last_end_of_non_empty_line_including_eol_marker := by
          simp only [hs2, he2]
        rw [h0, hs1lnei]
      have hs2wlen : s2.writer.length = leneiOf CLs := by
        rw [hs2w]
        unfold leneiOf
        rfl
      rcases rule3_disj opts target s2 with ⟨hn3, he3⟩ | ⟨-, hb3, -⟩
      · have hs3e : s3 = s2 := hs3.trans he3
        rcases rule4_disj opts s3 with ⟨hn4, he4⟩ | ⟨ha4, hb4, hc4, he4⟩
        · have hs4e : s4 = s2 := (hs4.trans he4).trans hs3e
          rw [hs4e, hs2w] at hw4
          exact absurd hw4 (lenei_case_ne PL r CLs hparse hCf hlenCL hlnlt)
        · have hs4w : s4.writer = (joinLines CLs).take (leneeOf CLs) := by
            have h0 : s4.writer = s3.writer.take
                s3.last_end_of_non_empty_line_excluding_eol_marker := by
              simp only [hs4, he4]
            have h1 : s3.last_end_of_non_empty_line_excluding_eol_marker =
                leneeOf CLs := by
              have h2 : s2.last_end_of_non_empty_line_excluding_eol_marker =
                  s1.last_end_of_non_empty_line_excluding_eol_marker := by
                simp only [hs2, he2]
              rw [hs3e, h2, hs1lnee]
            rw [h0, h1, hs3e, hs2w, ← take_joinLines_lenei, List.take_take,
              Nat.min_eq_left (leneeOf_le_leneiOf CLs)]
          rw [hs4w] at hw4
          exact absurd hw4 (lenee_case_ne PL r CLs hparse hCf hlenCL hne)
      · rw [hs2le, hs2wlen] at hb3
        omega

/-- C2: dry-run/apply consistency.  For every valid configuration and every
input, the change list returned by the engine is empty if and only if the
bytes the engine writes to the sink are exactly the input. -/
theorem c2_dry_run_apply_consistency (input : List Nat) (opts : Options)
    (hv : ValidOptions opts) :
    (modify_content vecWriter input opts []).2 = [] ↔
    (modify_content vecWriter input opts []).1 = input := by
  by_cases hemp : input = []
  · subst hemp
    cases hnef : opts.normalize_empty_files
    · simp [modify_content, hnef]
    · simp [modify_content, hnef]
    · have h1 : (modify_content vecWriter [] opts []).2 =
          [⟨1, ChangeType.ReplacedEmptyFileWithOneLine⟩] := by
        simp [modify_content, hnef]
      have h2 : (modify_content vecWriter [] opts []).1 =
          (resolveNewLineMarker opts []).to_bytes := by
        simp [modify_content, hnef, vecWriter]
      rw [h1, h2]
      constructor
      · intro h
        simp at h
      · intro h
        exfalso
        have hp := marker_bytes_len_pos (resolveNewLineMarker opts [])
        rw [h] at hp
        simp at hp
  · by_cases hws : is_file_whitespace input = true
    · cases hnwf : opts.normalize_whitespace_only_files
      · have h1 : (modify_content vecWriter input opts []).2 = [] := by
          simp [modify_content, hemp, hws, hnwf]
        have h2 : (modify_content vecWriter input opts []).1 = input := by
          simp [modify_content, hemp, hws, hnwf, vecWriter]
        rw [h1, h2]
        simp
      · have h1 : (modify_content vecWriter input opts []).2 =
            [⟨1, ChangeType.ReplacedWhiteSpaceOnlyFileWithEmptyFile⟩] := by
          simp [modify_content, hemp, hws, hnwf]
        have h2 : (modify_content vecWriter input opts []).1 = [] := by
          simp [modify_content, hemp, hws, hnwf]
        rw [h1, h2]
        constructor
        · intro h
          simp at h
        · intro h
          exact absurd h.symm hemp
      · by_cases heq : input = (resolveNewLineMarker opts input).to_bytes
        · have h1 : (modify_content vecWriter input opts []).2 = [] := by
            simp only [modify_content, hnwf]
            rw [if_neg hemp, if_pos hws, if_pos heq]
          have h2 : (modify_content vecWriter input opts []).1 =
              (resolveNewLineMarker opts input).to_bytes := by
            simp only [modify_content, hnwf]
            rw [if_neg hemp, if_pos hws, if_pos heq]
            show [] ++ (resolveNewLineMarker opts input).to_bytes =
              (resolveNewLineMarker opts input).to_bytes
            rw [List.nil_append]
          rw [h1, h2, ← heq]
          simp
        · have h1 : (modify_content vecWriter input opts []).2 =
              [⟨1, ChangeType.ReplacedWhiteSpaceOnlyFileWithOneLine⟩] := by
            simp only [modify_content, hnwf]
            rw [if_neg hemp, if_pos hws, if_neg heq]
          have h2 : (modify_content vecWriter input opts []).1 =
              (resolveNewLineMarker opts input).to_bytes := by
            simp only [modify_content, hnwf]
            rw [if_neg hemp, if_pos hws, if_neg heq]
            show [] ++ (resolveNewLineMarker opts input).to_bytes =
              (resolveNewLineMarker opts input).to_bytes
            rw [List.nil_append]
          rw [h1, h2]
          constructor
          · intro h
            simp at h
          · intro h
            exact absurd h.symm heq
    · rcases hP : parseLines input with ⟨PL, r⟩
      have hjp : joinLines PL ++ r = input := by
        have h := joinParse input.length input (le_refl _)
        rw [hP] at h
        exact h
      have hfree := parse_free input.length input (le_refl _)
      rw [hP] at hfree
      have hPf : contentsFree PL := hfree.1
      have hrf : markerFree r := hfree.2
      set target := resolveNewLineMarker opts input with htgt
      have hscan : scanLoop vecWriter opts target input (initialState []) =
          midState (closedOf opts target [] PL) (flatImage opts r)
            (changesOf opts target 1 [] PL r) := by
        rw [initialState_eq_midState,
          scanLoop_model opts target input.length input (le_refl _) [] [] [],
          scanModel_parse opts target input.length input (le_refl _) [] [] []]
        rw [hP]
        simp only [List.nil_append, List.length_nil, Nat.zero_add, tailOf_flat]
      have hmc : modify_content vecWriter input opts [] =
          ((postRules vecWriter opts target
             (midState (closedOf opts target [] PL) (flatImage opts r)
               (changesOf opts target 1 [] PL r))).writer,
           (postRules vecWriter opts target
             (midState (closedOf opts target [] PL) (flatImage opts r)
               (changesOf opts target 1 [] PL r))).changes) := by
        simp only [modify_content]
        rw [if_neg hemp, if_neg hws, ← htgt, hscan]
      rw [hmc]
      constructor
      · intro h
        have h' : (postRules vecWriter opts target
            (midState (closedOf opts target [] PL) (flatImage opts r)
              (changesOf opts target 1 [] PL r))).changes = [] := h
        obtain ⟨hpe, hch⟩ := postRulesChangesNil opts target _ h'
        have hch' : changesOf opts target 1 [] PL r = [] := hch
        obtain ⟨hclosed, hflat⟩ := changesOf_nil opts target PL 1 r hch'
        show (postRules vecWriter opts target
            (midState (closedOf opts target [] PL) (flatImage opts r)
              (changesOf opts target 1 [] PL r))).writer = input
        rw [hpe]
        show joinLines (closedOf opts target [] PL) ++ flatImage opts r = input
        rw [hclosed, hflat, hjp]
      · intro h
        have h' : (postRules vecWriter opts target
            (midState (closedOf opts target [] PL) (flatImage opts r)
              (changesOf opts target 1 [] PL r))).writer =
            joinLines PL ++ r := by
          rw [hjp]
          exact h
        obtain ⟨hclosed, hflat, hpe⟩ := postRules_writer_eq opts target PL r
          (changesOf opts target 1 [] PL r) hv
          (by rw [hjp]; exact hP) hPf hrf
          (by rw [hjp]; exact hemp) h'
        show (postRules vecWriter opts target
            (midState (closedOf opts target [] PL) (flatImage opts r)
              (changesOf opts target 1 [] PL r))).changes = []
        rw [hpe]
        show changesOf opts target 1 [] PL r = []
        exact changesOf_of_fixed opts target PL r hclosed hflat 1

theorem c2_witness :
    ValidOptions baseOptions ∧
    ((modify_content vecWriter [97] baseOptions []).2 = [] ↔
     (modify_content vecWriter [97] baseOptions []).1 = [97]) :=
  ⟨by decide, c2_dry_run_apply_consistency [97] baseOptions (by decide)⟩

end WhitespaceFormat
